import Mathlib

/-!
Insertion-ordered open-addressing hash map (`src/Code.cpp`)

A shallow embedding of the class template `HashMap<KeyType, ValueType, Hash>`.

* `std::list<Node> Nodes` is a list of nodes, each tagged with the identity of
  its list cell (a natural number handed out by an allocation counter), so that
  a `std::list` iterator is the identity of the cell it points to and stays
  valid while other cells are inserted or erased.
* `std::vector<NodeIter> Table` is a list of iterators; `Nodes.end()` is `none`.
* The `while (true)` probing loops take a step budget equal to `Table.size()`:
  a probe that has inspected `Table.size()` cells without leaving has inspected
  every cell of the table and would inspect the same cells again, so running out
  of budget is the loop that never returns.  Undefined behaviour (remainder by
  zero, dereferencing `end()` or an erased iterator) is `none` as well.  A loop
  that returns within its budget returns the same under every larger budget
  (`findLoop_mono` and its siblings).
* `size_t` counters are natural numbers: a count is bounded by the number of
  list cells that fit in the address space, so `++NodeCount` and
  `(NodeCount + 1) * LoadFactor` do not wrap.
-/

set_option autoImplicit false
set_option linter.unusedSectionVars false
set_option linter.unusedVariables false

namespace LinearProbe

/-- `static size_t InitSize = 10`. -/
def InitSize : Nat := 10

/-- `static size_t LoadFactor = 2`. -/
def LoadFactor : Nat := 2

/-- `NodeIter`: a `std::list<Node>::iterator`; `none` is `Nodes.end()`, `some a` points to the
list cell with identity `a`. -/
abbrev NodeIter := Option Nat

/-- The data members of `HashMap`, plus the allocation counter `fresh` that names the next list
cell created by `Nodes.push_back`. -/
structure HashMap (K V : Type) where
  Hasher : K → Nat
  NodeCount : Nat
  Nodes : List (Nat × K × V)
  Table : List NodeIter
  fresh : Nat

/-- Error thrown by `at`: `std::out_of_range`. -/
inductive Error where
  | out_of_range
  deriving DecidableEq, Repr

section Model

variable {K V : Type}

/-- Dereference `*it` of an iterator pointing to the list cell `a`; `none` when no such cell is in
the list (an erased iterator). -/
def nodeAt (Nodes : List (Nat × K × V)) (a : Nat) : Option (K × V) :=
  (Nodes.find? (fun n => n.1 == a)).map (fun n => n.2)

/-- `std::vector::resize(n, val)`: truncate to `n` cells or pad with `val` up to `n` cells. -/
def vecResize (Table : List NodeIter) (n : Nat) (val : NodeIter) : List NodeIter :=
  Table.take n ++ List.replicate (n - Table.length) val

/-- Cyclic distance from cell `a` forward to cell `b` in a table of `c` cells (specification
only; the code walks with `(++Index) %= Table.size()`). -/
def cdist (c a b : Nat) : Nat := if a ≤ b then b - a else b + c - a

namespace HashMap

/-- The state after `HashMap(const Hash &Hasher_)`: `Table.assign(InitSize, Nodes.end())`. -/
def ctor (Hasher_ : K → Nat) : HashMap K V :=
  { Hasher := Hasher_, NodeCount := 0, Nodes := [], Table := List.replicate InitSize none,
    fresh := 0 }

/-- `size()`. -/
def size (m : HashMap K V) : Nat := m.NodeCount

/-- `empty()`. -/
def empty (m : HashMap K V) : Bool := m.size == 0

/-- `hash_function()`. -/
def hash_function (m : HashMap K V) : K → Nat := m.Hasher

/-- The sequence `begin() .. end()`: the nodes in list order. -/
def entries (m : HashMap K V) : List (K × V) := m.Nodes.map (fun n => n.2)

/-- `Table.size()`. -/
def capacity (m : HashMap K V) : Nat := m.Table.length

/-- `*it` for an iterator of this map; `none` for `end()` or an erased iterator. -/
def deref (m : HashMap K V) (it : NodeIter) : Option (K × V) :=
  match it with
  | none => none
  | some a => nodeAt m.Nodes a

/-- The loop of `insert`: walk from `Index` to the first cell equal to `Nodes.end()`. -/
def insertLoop (Table : List NodeIter) : Nat → Nat → Option Nat
  | 0, _ => none
  | fuel + 1, Index =>
    match Table[Index]? with
    | none => none
    | some none => some Index
    | some (some _) => insertLoop Table fuel ((Index + 1) % Table.length)

/-- The part of `insert` after the resize check: probe, `push_back`, `++NodeCount`,
`Table[Index] = --(Nodes.end())`. -/
def place (m : HashMap K V) (Node_ : K × V) : Option (HashMap K V) :=
  if m.Table.length = 0 then none
  else
    match insertLoop m.Table m.Table.length (m.Hasher Node_.1 % m.Table.length) with
    | none => none
    | some Index =>
      some { m with
        Nodes := m.Nodes ++ [(m.fresh, Node_)]
        NodeCount := m.NodeCount + 1
        Table := m.Table.set Index (some m.fresh)
        fresh := m.fresh + 1 }

/-- The body of `resize`, with the `insert` it calls passed in. -/
def resizeWith (ins : HashMap K V → K × V → Option (HashMap K V)) (m : HashMap K V) :
    Option (HashMap K V) :=
  let NewSize := m.Table.length * LoadFactor
  let CopyNodes := m.Nodes.map (fun n => n.2)
  CopyNodes.foldlM ins
    { m with NodeCount := 0, Nodes := [], Table := List.replicate NewSize none }

/-- The function `insert` with a bound `d` on the depth of the call chain
`insert → resize → insert → …`. -/
def insertAux : Nat → HashMap K V → K × V → Option (HashMap K V)
  | 0, _, _ => none
  | d + 1, m, Node_ =>
    match (if (m.NodeCount + 1) * LoadFactor > m.Table.length then resizeWith (insertAux d) m
           else some m) with
    | none => none
    | some m1 => place m1 Node_

/-- `insert(const Node &Node_)`.  Call depth 3 is the deepest chain the code can run into,
`insert → resize → insert → resize → insert`: the table rebuilt by a `resize` starts with
count 0, so an insert nested in it resizes only when the count is half the table, and the
inserts of that inner `resize` find room.  `insertAux_depth` shows that every larger bound
returns the same result on every state. -/
def insert (m : HashMap K V) (Node_ : K × V) : Option (HashMap K V) :=
  insertAux 3 m Node_

/-- `resize()`; `resizeWith_depth` shows that every larger bound on the call depth returns
the same result on every state. -/
def resize (m : HashMap K V) : Option (HashMap K V) :=
  resizeWith (insertAux 2) m

/-- `clear()`. -/
def clear (m : HashMap K V) : HashMap K V :=
  { m with NodeCount := 0, Nodes := [], Table := List.replicate InitSize none }

variable [DecidableEq K]

/-- The loop of `find` (both overloads have this body): `none` when the loop does not return,
`some none` for `Nodes.end()`, `some (some a)` for the iterator `Table[Index]`. -/
def findLoop (Nodes : List (Nat × K × V)) (Table : List NodeIter) (Key : K) :
    Nat → Nat → Option NodeIter
  | 0, _ => none
  | fuel + 1, Index =>
    match Table[Index]? with
    | none => none
    | some none => some none
    | some (some a) =>
      match nodeAt Nodes a with
      | none => none
      | some nd =>
        if nd.1 = Key then some (some a)
        else findLoop Nodes Table Key fuel ((Index + 1) % Table.length)

/-- `find(const KeyType &Key)`. -/
def find (m : HashMap K V) (Key : K) : Option NodeIter :=
  if m.Table.length = 0 then none
  else findLoop m.Nodes m.Table Key m.Table.length (m.Hasher Key % m.Table.length)

/-- The call `find(Key)` followed by a dereference of the iterator it returns: `some none`
when `find` returns `end()`, `some (some e)` when it returns an iterator to the entry `e`. -/
def findEntry (m : HashMap K V) (Key : K) : Option (Option (K × V)) :=
  match m.find Key with
  | none => none
  | some none => some none
  | some (some a) => (nodeAt m.Nodes a).map some

/-- The loop of `at`. -/
def atLoop (Nodes : List (Nat × K × V)) (Table : List NodeIter) (Key : K) :
    Nat → Nat → Option (Except Error V)
  | 0, _ => none
  | fuel + 1, Index =>
    match Table[Index]? with
    | none => none
    | some none => some (Except.error Error.out_of_range)
    | some (some a) =>
      match nodeAt Nodes a with
      | none => none
      | some nd =>
        if nd.1 = Key then some (Except.ok nd.2)
        else atLoop Nodes Table Key fuel ((Index + 1) % Table.length)

/-- `at(const KeyType &Key) const`: a `const` member, so it yields a result and no new state. -/
def at_ (m : HashMap K V) (Key : K) : Option (Except Error V) :=
  if m.Table.length = 0 then none
  else atLoop m.Nodes m.Table Key m.Table.length (m.Hasher Key % m.Table.length)

/-- The loop of `operator[]`: the new state and the iterator whose `->second` is returned. -/
def indexLoop [Inhabited V] (m : HashMap K V) (Key : K) : Nat → Nat → Option (HashMap K V × Nat)
  | 0, _ => none
  | fuel + 1, Index =>
    match m.Table[Index]? with
    | none => none
    | some none =>
      match m.insert (Key, default) with
      | none => none
      | some m1 =>
        match m1.find Key with
        | some (some a) => if (nodeAt m1.Nodes a).isSome then some (m1, a) else none
        | _ => none
    | some (some a) =>
      match nodeAt m.Nodes a with
      | none => none
      | some nd =>
        if nd.1 = Key then some (m, a)
        else indexLoop m Key fuel ((Index + 1) % m.Table.length)

/-- `operator[](const KeyType &Key)`: returns the state after the call and the list cell whose
value the returned reference denotes. -/
def index [Inhabited V] (m : HashMap K V) (Key : K) : Option (HashMap K V × Nat) :=
  if m.Table.length = 0 then none
  else indexLoop m Key m.Table.length (m.Hasher Key % m.Table.length)

/-- The first loop of `erase`: `some none` for the early `return`, `some (some Index)` for
`break` at `Index`. -/
def eraseSearch (Nodes : List (Nat × K × V)) (Table : List NodeIter) (Key : K) :
    Nat → Nat → Option (Option Nat)
  | 0, _ => none
  | fuel + 1, Index =>
    match Table[Index]? with
    | none => none
    | some none => some none
    | some (some a) =>
      match nodeAt Nodes a with
      | none => none
      | some nd =>
        if nd.1 = Key then some (some Index)
        else eraseSearch Nodes Table Key fuel ((Index + 1) % Table.length)

/-- The second loop of `erase` (probe-chain repair), started with `Index` not yet advanced;
returns the table at `return`. -/
def eraseLoop (Hasher : K → Nat) (Nodes : List (Nat × K × V)) :
    Nat → List NodeIter → Nat → Nat → Option (List NodeIter)
  | 0, _, _, _ => none
  | fuel + 1, Table, Last, Index0 =>
    let Index := (Index0 + 1) % Table.length
    match Table[Index]? with
    | none => none
    | some none => some (Table.set Last none)
    | some (some a) =>
      match nodeAt Nodes a with
      | none => none
      | some nd =>
        let RealHash := Hasher nd.1 % Table.length
        if (Index > Last ∧ (RealHash ≤ Last ∨ RealHash > Index)) ∨
            (Index < Last ∧ (RealHash ≤ Last ∧ RealHash > Index)) then
          eraseLoop Hasher Nodes fuel (Table.set Last (some a)) Index Index
        else
          eraseLoop Hasher Nodes fuel Table Last Index

/-- `erase(const KeyType &Key)`.  `--NodeCount` runs only after a node was found and erased;
in every reachable state the count is then at least 1 (`WF.count_nodes`), so the decrement does
not wrap. -/
def erase (m : HashMap K V) (Key : K) : Option (HashMap K V) :=
  if m.Table.length = 0 then none
  else
    match eraseSearch m.Nodes m.Table Key m.Table.length (m.Hasher Key % m.Table.length) with
    | none => none
    | some none => some m
    | some (some Index) =>
      match m.Table[Index]? with
      | some (some a) =>
        let Nodes1 := m.Nodes.eraseP (fun n => n.1 == a)
        match eraseLoop m.Hasher Nodes1 m.Table.length m.Table Index Index with
        | none => none
        | some Table1 =>
          some { m with Nodes := Nodes1, NodeCount := m.NodeCount - 1, Table := Table1 }
      | _ => none

/-- `HashMap(InputIt First, InputIt Last, const Hash &Hasher_)` on a range `[First, Last)` that
holds the pairs `l` and can be traversed twice (`std::distance`, then the loop). -/
def ctorRange (l : List (K × V)) (Hasher_ : K → Nat) : Option (HashMap K V) :=
  let Size := l.length
  l.foldlM insert
    { Hasher := Hasher_, NodeCount := 0, Nodes := [],
      Table := vecResize [] (max ((Size + 1) * LoadFactor) InitSize) none, fresh := 0 }

/-- `HashMap(std::initializer_list<Node> InitList, const Hash &Hasher_)`. -/
def ctorInitList (InitList : List (K × V)) (Hasher_ : K → Nat) : Option (HashMap K V) :=
  let Size := InitList.length
  InitList.foldlM insert
    { Hasher := Hasher_, NodeCount := 0, Nodes := [],
      Table := vecResize [] (max ((Size + 1) * LoadFactor) InitSize) none, fresh := 0 }

/-- `HashMap(const HashMap &other)` for `this != &other`; `dflt` is the default-constructed
`Hash()` that initialises the member `Hasher`. -/
def ctorCopy (dflt : K → Nat) (other : HashMap K V) : Option (HashMap K V) :=
  let this : HashMap K V :=
    clear { Hasher := dflt, NodeCount := 0, Nodes := [], Table := [], fresh := 0 }
  let Size := other.NodeCount
  other.entries.foldlM insert
    { this with Table := vecResize this.Table (max ((Size + 1) * LoadFactor) InitSize) none }

/-- `operator=(const HashMap &other)` for `this != &other` (for `this == &other` the call
returns `*this` untouched). -/
def assign (this other : HashMap K V) : Option (HashMap K V) :=
  let this1 := this.clear
  let Size := other.NodeCount
  other.entries.foldlM insert
    { this1 with Table := vecResize this1.Table (max ((Size + 1) * LoadFactor) InitSize) none }

/-- Assignment `it->second = v` (or `m[k] = v`) through an iterator or reference handed out by
`find`, `begin` or `operator[]`; the key of a node is `const`. -/
def setValue (m : HashMap K V) (a : Nat) (v : V) : HashMap K V :=
  { m with Nodes := m.Nodes.map (fun n => if n.1 = a then (n.1, n.2.1, v) else n) }

end HashMap

/-! ### Specification vocabulary -/

variable [DecidableEq K]

/-- The iterator of the first node, in list order, whose key is `Key`; `none` (that is,
`end()`) when no node has that key. -/
def firstIter (Nodes : List (Nat × K × V)) (Key : K) : NodeIter :=
  (Nodes.find? (fun n => decide (n.2.1 = Key))).map (fun n => n.1)

/-- The slot-table invariant for the table `T` over the node list `Nodes`, where the cell
`hole` (if any) is to be read as vacated: every other non-empty cell points to a live node,
no two of them to the same one, every node has such a cell, every cell on the cyclic path from
a node's home index to its cell is non-empty, and nodes with equal keys sit on that path in the
order in which they were created. -/
structure Slots (Hasher : K → Nat) (Nodes : List (Nat × K × V)) (T : List NodeIter)
    (hole : Option Nat) : Prop where
  live : ∀ i a, hole ≠ some i → T[i]? = some (some a) → ∃ nd, (a, nd) ∈ Nodes
  inj : ∀ i j a, hole ≠ some i → hole ≠ some j → T[i]? = some (some a) →
    T[j]? = some (some a) → i = j
  cell : ∀ n ∈ Nodes, ∃ i, hole ≠ some i ∧ T[i]? = some (some n.1)
  chain : ∀ i a k v, hole ≠ some i → T[i]? = some (some a) → (a, k, v) ∈ Nodes →
    ∀ j, j < T.length → hole ≠ some j →
      cdist T.length (Hasher k % T.length) j < cdist T.length (Hasher k % T.length) i →
      T[j]? ≠ some none
  order : ∀ i j a b k v w, hole ≠ some i → hole ≠ some j → T[i]? = some (some a) →
    T[j]? = some (some b) → (a, k, v) ∈ Nodes → (b, k, w) ∈ Nodes → a < b →
    cdist T.length (Hasher k % T.length) i < cdist T.length (Hasher k % T.length) j

/-- The representation invariant of a map. -/
structure WF (m : HashMap K V) : Prop where
  cap_pos : 0 < m.Table.length
  load : m.NodeCount * LoadFactor ≤ m.Table.length
  count_nodes : m.NodeCount = m.Nodes.length
  count_cells : m.Table.countP (fun x => x.isSome) = m.NodeCount
  sorted : m.Nodes.Pairwise (fun x y => x.1 < y.1)
  below : ∀ n ∈ m.Nodes, n.1 < m.fresh
  slots : Slots m.Hasher m.Nodes m.Table none

/-- The invariant of the repair loop of `erase` at the loop head: `Last` is the vacated cell,
the cells after `Last` up to and including `Index0` have been inspected, are non-empty and do
not have `Last` on their probe path. -/
structure Repair (Hasher : K → Nat) (Nodes : List (Nat × K × V)) (T : List NodeIter)
    (Last Index0 : Nat) : Prop where
  last_lt : Last < T.length
  index_lt : Index0 < T.length
  last_some : ∃ a, T[Last]? = some (some a)
  slots : Slots Hasher Nodes T (some Last)
  full : ∀ i, i < T.length → 0 < cdist T.length Last i →
    cdist T.length Last i ≤ cdist T.length Last Index0 → T[i]? ≠ some none
  done : ∀ i a k v, i < T.length → 0 < cdist T.length Last i →
    cdist T.length Last i ≤ cdist T.length Last Index0 → T[i]? = some (some a) →
    (a, k, v) ∈ Nodes →
    ¬ cdist T.length (Hasher k % T.length) Last < cdist T.length (Hasher k % T.length) i
  count : T.countP (fun x => x.isSome) = Nodes.length + 1
  sorted : Nodes.Pairwise (fun x y => x.1 < y.1)

/-- The states a program can reach through the public interface. -/
inductive Reachable [Inhabited V] : HashMap K V → Prop
  | ctor (Hasher_ : K → Nat) : Reachable (HashMap.ctor Hasher_)
  | ctorRange (l : List (K × V)) (Hasher_ : K → Nat) (m : HashMap K V) :
      HashMap.ctorRange l Hasher_ = some m → Reachable m
  | ctorInitList (l : List (K × V)) (Hasher_ : K → Nat) (m : HashMap K V) :
      HashMap.ctorInitList l Hasher_ = some m → Reachable m
  | ctorCopy (dflt : K → Nat) (other m : HashMap K V) :
      Reachable other → HashMap.ctorCopy dflt other = some m → Reachable m
  | assign (this other m : HashMap K V) :
      Reachable this → Reachable other → this.assign other = some m → Reachable m
  | insert (m : HashMap K V) (Node_ : K × V) (m1 : HashMap K V) :
      Reachable m → m.insert Node_ = some m1 → Reachable m1
  | erase (m : HashMap K V) (Key : K) (m1 : HashMap K V) :
      Reachable m → m.erase Key = some m1 → Reachable m1
  | index (m : HashMap K V) (Key : K) (m1 : HashMap K V) (a : Nat) :
      Reachable m → m.index Key = some (m1, a) → Reachable m1
  | clear (m : HashMap K V) : Reachable m → Reachable m.clear
  | resize (m m1 : HashMap K V) : Reachable m → m.resize = some m1 → Reachable m1
  | setValue (m : HashMap K V) (a : Nat) (v : V) : Reachable m → Reachable (m.setValue a v)

/-- The default-constructed map with the identity hash after `insert({1, 100})`,
`insert({11, 110})`, `insert({21, 120})`: the three keys collide on slot 1. -/
def collideMap : HashMap Nat Nat :=
  { Hasher := fun k => k, NodeCount := 3,
    Nodes := [(0, 1, 100), (1, 11, 110), (2, 21, 120)],
    Table := [none, some 0, some 1, some 2, none, none, none, none, none, none],
    fresh := 3 }

/-- The default-constructed map with the identity hash after `insert({1, 0})` and
`insert({1, 5})`: the key 1 is held by two nodes. -/
def dupMap : HashMap Nat Nat :=
  { Hasher := fun k => k, NodeCount := 2,
    Nodes := [(0, 1, 0), (1, 1, 5)],
    Table := [none, some 0, some 1, none, none, none, none, none, none, none],
    fresh := 2 }

/-- The test of the `if` in the repair loop of `erase`, as written in the source
(`eraseLoop` carries the same expression). -/
@[reducible] def relocateTest (Index Last RealHash : Nat) : Prop :=
  (Index > Last ∧ (RealHash ≤ Last ∨ RealHash > Index)) ∨
    (Index < Last ∧ (RealHash ≤ Last ∧ RealHash > Index))

/-- The state of `insert` after its first statement, the `if` that may call `resize()`: the
state in which the probe walk starts. -/
def HashMap.insertPre (m : HashMap K V) : Option (HashMap K V) :=
  if (m.NodeCount + 1) * LoadFactor > m.Table.length then m.resize else some m

/-- The state of `resize` before its last loop: `NodeCount = 0`, `Nodes.clear()`,
`Table.assign(NewSize, Nodes.end())`. -/
def HashMap.resizeStart (m : HashMap K V) : HashMap K V :=
  { m with NodeCount := 0, Nodes := [],
           Table := List.replicate (m.Table.length * LoadFactor) none }

/-- The repair loop of `erase` with the remark of its comment, "Index never equals Last
before 'if'", turned into a check: `none` when the advanced `Index` equals `Last`. -/
def HashMap.eraseLoopChecked (Hasher : K → Nat) (Nodes : List (Nat × K × V)) :
    Nat → List NodeIter → Nat → Nat → Option (List NodeIter)
  | 0, _, _, _ => none
  | fuel + 1, Table, Last, Index0 =>
    let Index := (Index0 + 1) % Table.length
    if Index = Last then none
    else
      match Table[Index]? with
      | none => none
      | some none => some (Table.set Last none)
      | some (some a) =>
        match nodeAt Nodes a with
        | none => none
        | some nd =>
          let RealHash := Hasher nd.1 % Table.length
          if (Index > Last ∧ (RealHash ≤ Last ∨ RealHash > Index)) ∨
              (Index < Last ∧ (RealHash ≤ Last ∧ RealHash > Index)) then
            HashMap.eraseLoopChecked Hasher Nodes fuel (Table.set Last (some a)) Index Index
          else
            HashMap.eraseLoopChecked Hasher Nodes fuel Table Last Index

/-- The function `erase` with the checked repair loop. -/
def HashMap.eraseChecked (m : HashMap K V) (Key : K) : Option (HashMap K V) :=
  if m.Table.length = 0 then none
  else
    match HashMap.eraseSearch m.Nodes m.Table Key m.Table.length
        (m.Hasher Key % m.Table.length) with
    | none => none
    | some none => some m
    | some (some Index) =>
      match m.Table[Index]? with
      | some (some a) =>
        let Nodes1 := m.Nodes.eraseP (fun n => n.1 == a)
        match HashMap.eraseLoopChecked m.Hasher Nodes1 m.Table.length m.Table Index Index with
        | none => none
        | some Table1 =>
          some { m with Nodes := Nodes1, NodeCount := m.NodeCount - 1, Table := Table1 }
      | _ => none

/-- The map `collideMap` after two more inserts, `insert({2, 130})` and `insert({5, 140})`:
count 5 in a table of 10 cells, so that the next insert resizes. -/
def fiveMap : HashMap Nat Nat :=
  { Hasher := fun k => k, NodeCount := 5,
    Nodes := [(0, 1, 100), (1, 11, 110), (2, 21, 120), (3, 2, 130), (4, 5, 140)],
    Table := [none, some 0, some 1, some 2, some 3, some 4, none, none, none, none],
    fresh := 5 }

/-! ### Two maps in one address space

The definitions above give every map its own list, and an iterator stored in a table is looked
up in that list.  To state that two maps do not interfere, the definitions below put two maps
into one address space: an iterator is the address of a list node, a node lives in the list
that created it, and `*it`, `Nodes.erase(it)` and a write through `it` act on the node at that
address in whichever list holds it.  A table cell of one map that pointed into the list of the
other map would thus read, destroy or overwrite a node of the other map. -/

/-- Two `HashMap` objects `a` and `b` in one address space. -/
structure World (K V : Type) where
  a : HashMap K V
  b : HashMap K V

/-- The same address space with the roles of the two objects exchanged. -/
def World.swap (w : World K V) : World K V := { a := w.b, b := w.a }

/-- The live list nodes of the address space, by address. -/
def World.heap (w : World K V) : List (Nat × K × V) := w.a.Nodes ++ w.b.Nodes

/-- The first address the allocator hands out next: above every address either list has
used. -/
def World.next (w : World K V) : Nat := max w.a.fresh w.b.fresh

/-- The call `a.find(Key)`: the loop of `find` over `a.Table`, dereferencing in the address
space. -/
def World.findA (w : World K V) (Key : K) : Option NodeIter :=
  if w.a.Table.length = 0 then none
  else HashMap.findLoop w.heap w.a.Table Key w.a.Table.length
    (w.a.Hasher Key % w.a.Table.length)

/-- The call `a.insert(Node_)`: `insert` and the `resize` it may call compare table cells with
`end()` and walk `a`'s own list, but dereference no iterator, so they have no access to `b`;
the new nodes are allocated from `next` on. -/
def World.insertA (w : World K V) (Node_ : K × V) : Option (World K V) :=
  match HashMap.insert { w.a with fresh := w.next } Node_ with
  | none => none
  | some a1 => some { a := a1, b := w.b }

/-- The call `a.erase(Key)`: both loops dereference in the address space, and
`Nodes.erase(Table[Index])` destroys the node at that address in whichever list holds it. -/
def World.eraseA (w : World K V) (Key : K) : Option (World K V) :=
  if w.a.Table.length = 0 then none
  else
    match HashMap.eraseSearch w.heap w.a.Table Key w.a.Table.length
        (w.a.Hasher Key % w.a.Table.length) with
    | none => none
    | some none => some w
    | some (some Index) =>
      match w.a.Table[Index]? with
      | some (some x) =>
        let NodesA := w.a.Nodes.eraseP (fun n => n.1 == x)
        let NodesB := w.b.Nodes.eraseP (fun n => n.1 == x)
        match HashMap.eraseLoop w.a.Hasher (NodesA ++ NodesB) w.a.Table.length w.a.Table
            Index Index with
        | none => none
        | some Table1 =>
          some { a := { w.a with Nodes := NodesA, NodeCount := w.a.NodeCount - 1,
                                 Table := Table1 },
                 b := { w.b with Nodes := NodesB } }
      | _ => none

/-- The loop of `a.operator[](Key)`, dereferencing in the address space. -/
def World.indexLoopA [Inhabited V] (w : World K V) (Key : K) :
    Nat → Nat → Option (World K V × Nat)
  | 0, _ => none
  | fuel + 1, Index =>
    match w.a.Table[Index]? with
    | none => none
    | some none =>
      match w.insertA (Key, default) with
      | none => none
      | some w1 =>
        match w1.findA Key with
        | some (some x) => if (nodeAt w1.heap x).isSome then some (w1, x) else none
        | _ => none
    | some (some x) =>
      match nodeAt w.heap x with
      | none => none
      | some nd =>
        if nd.1 = Key then some (w, x)
        else World.indexLoopA w Key fuel ((Index + 1) % w.a.Table.length)

/-- The call `a.operator[](Key)`: the address space after the call and the address of the node
whose value the returned reference denotes. -/
def World.indexA [Inhabited V] (w : World K V) (Key : K) : Option (World K V × Nat) :=
  if w.a.Table.length = 0 then none
  else World.indexLoopA w Key w.a.Table.length (w.a.Hasher Key % w.a.Table.length)

/-- A write `it->second = v` through the iterator `x`: it changes the node at address `x`, in
whichever list holds it. -/
def World.writeAt (w : World K V) (x : Nat) (v : V) : World K V :=
  { a := w.a.setValue x v, b := w.b.setValue x v }

/-- The call `b.find(Key)`. -/
def World.findB (w : World K V) (Key : K) : Option NodeIter := w.swap.findA Key

/-- The body that `HashMap(const HashMap &other)` and `operator=(const HashMap &other)` share
for `this != &other`, with `this = a` and `other = b`: `clear()`, `Table.resize(..)`, then
`insert(to)` for every `to` of `other`, each insert run in the address space. -/
def World.copyBody (w : World K V) : Option (World K V) :=
  let this1 := HashMap.clear w.a
  let Size := w.b.NodeCount
  w.b.entries.foldlM (fun w1 nd => World.insertA w1 nd)
    { a := { this1 with
             Table := vecResize this1.Table (max ((Size + 1) * LoadFactor) InitSize) none },
      b := w.b }

/-- The copy construction `HashMap a(b)` in the address space that holds `b = other`; `dflt`
is the default-constructed `Hash()` that initialises the member `Hasher`. -/
def World.ctorCopy (dflt : K → Nat) (other : HashMap K V) : Option (World K V) :=
  World.copyBody
    { a := { Hasher := dflt, NodeCount := 0, Nodes := [], Table := [], fresh := 0 },
      b := other }

/-- The copy assignment `a = b` (different objects) in the address space. -/
def World.assign (w : World K V) : Option (World K V) := World.copyBody w

/-- One mutation of the object `a`: `insert`, `erase`, `operator[]`, or a write through an
iterator that `a` hands out (a node of its list or a cell of its table). -/
inductive World.StepA [Inhabited V] : World K V → World K V → Prop
  | insert (w : World K V) (Node_ : K × V) (w1 : World K V) :
      w.insertA Node_ = some w1 → World.StepA w w1
  | erase (w : World K V) (Key : K) (w1 : World K V) :
      w.eraseA Key = some w1 → World.StepA w w1
  | index (w : World K V) (Key : K) (w1 : World K V) (x : Nat) :
      w.indexA Key = some (w1, x) → World.StepA w w1
  | write (w : World K V) (x : Nat) (v : V) :
      ((∃ nd, (x, nd) ∈ w.a.Nodes) ∨ (∃ i : Nat, w.a.Table[i]? = some (some x))) →
      World.StepA w (w.writeAt x v)

/-- One mutation of the object `b`. -/
def World.StepB [Inhabited V] (w w1 : World K V) : Prop := World.StepA w.swap w1.swap

/-- The address spaces reached from `w0` by any number of mutations of `a` and of `b`, in any
order. -/
inductive World.Later [Inhabited V] (w0 : World K V) : World K V → Prop
  | start : World.Later w0 w0
  | stepA (w w1 : World K V) : World.Later w0 w → World.StepA w w1 → World.Later w0 w1
  | stepB (w w1 : World K V) : World.Later w0 w → World.StepB w w1 → World.Later w0 w1

/-- Separation of the two objects: both satisfy the representation invariant and no address is
a node of both lists. -/
structure World.Sep (w : World K V) : Prop where
  wfa : WF w.a
  wfb : WF w.b
  disj : ∀ x ∈ w.a.Nodes, ∀ y ∈ w.b.Nodes, x.1 ≠ y.1

/-- An address space in which the table of `a` holds the address of a node of `b`'s list:
the state that copying the table cells instead of re-inserting the entries would produce. -/
def sharedWorld : World Nat Nat :=
  { a := { Hasher := fun k => k, NodeCount := 1, Nodes := [],
           Table := [none, some 0, none, none, none, none, none, none, none, none],
           fresh := 1 },
    b := { Hasher := fun k => k, NodeCount := 1, Nodes := [(0, 1, 100)],
           Table := [none, some 0, none, none, none, none, none, none, none, none],
           fresh := 1 } }

/-! ### Cyclic arithmetic and list facts -/

theorem cdist_cases (c a b : Nat) :
    (a ≤ b ∧ cdist c a b = b - a) ∨ (b < a ∧ cdist c a b = b + c - a) := by
  unfold cdist
  split <;> omega

theorem succ_mod_cases (c i : Nat) (h : i < c) :
    (i + 1 < c ∧ (i + 1) % c = i + 1) ∨ (i + 1 = c ∧ (i + 1) % c = 0) := by
  rcases Nat.lt_or_ge (i + 1) c with h1 | h1
  · exact Or.inl ⟨h1, Nat.mod_eq_of_lt h1⟩
  · have h2 : i + 1 = c := by omega
    exact Or.inr ⟨h2, by rw [h2, Nat.mod_self]⟩

theorem cell_cases (T : List NodeIter) (i : Nat) (h : i < T.length) :
    T[i]? = some none ∨ ∃ a, T[i]? = some (some a) := by
  rw [List.getElem?_eq_getElem h]
  cases T[i] with
  | none => exact Or.inl rfl
  | some a => exact Or.inr ⟨a, rfl⟩

theorem lt_of_cell {T : List NodeIter} {i : Nat} {x : NodeIter} (h : T[i]? = some x) :
    i < T.length := by
  rcases List.getElem?_eq_some.mp h with ⟨h1, _⟩
  exact h1

theorem exists_empty_cell (T : List NodeIter)
    (h : T.countP (fun x => x.isSome) < T.length) : ∃ e, e < T.length ∧ T[e]? = some none := by
  by_contra hne
  have hall : ∀ x ∈ T, (fun x : NodeIter => x.isSome) x = true := by
    intro x hx
    rcases List.mem_iff_getElem?.mp hx with ⟨n, hn⟩
    cases x with
    | none => exact absurd ⟨n, lt_of_cell hn, hn⟩ hne
    | some a => rfl
  have := List.countP_eq_length.mpr hall
  omega

/-- From any start cell there is a first empty cell on the cyclic walk. -/
theorem first_empty (T : List NodeIter) (s : Nat)
    (h : ∃ e, e < T.length ∧ T[e]? = some none) :
    ∃ t, t < T.length ∧ T[t]? = some none ∧
      ∀ j, j < T.length → cdist T.length s j < cdist T.length s t → T[j]? ≠ some none := by
  classical
  have hex : ∃ d, ∃ e, e < T.length ∧ T[e]? = some none ∧ cdist T.length s e = d := by
    rcases h with ⟨e, he, hn⟩
    exact ⟨_, e, he, hn, rfl⟩
  rcases Nat.find_spec hex with ⟨t, ht, htn, htd⟩
  refine ⟨t, ht, htn, ?_⟩
  intro j hj hlt hjn
  have hmin := Nat.find_min hex (m := cdist T.length s j) (by omega)
  exact hmin ⟨j, hj, hjn, rfl⟩

theorem nodeAt_of_mem {Nodes : List (Nat × K × V)}
    (hs : Nodes.Pairwise (fun x y => x.1 < y.1)) {a : Nat} {nd : K × V}
    (h : (a, nd) ∈ Nodes) : nodeAt Nodes a = some nd := by
  induction Nodes with
  | nil => cases h
  | cons x xs ih =>
    rw [List.pairwise_cons] at hs
    unfold nodeAt
    rw [List.find?_cons]
    by_cases hx : x.1 = a
    · have hxa : (x.1 == a) = true := by simp [hx]
      rw [hxa]
      rcases List.mem_cons.mp h with h1 | h1
      · rw [← h1]; rfl
      · have := hs.1 _ h1
        simp at this
        omega
    · have hxa : (x.1 == a) = false := by simp [hx]
      rw [hxa]
      rcases List.mem_cons.mp h with h1 | h1
      · rw [← h1] at hx; exact absurd rfl hx
      · exact ih hs.2 h1

theorem mem_of_nodeAt {Nodes : List (Nat × K × V)} {a : Nat} {nd : K × V}
    (h : nodeAt Nodes a = some nd) : (a, nd) ∈ Nodes := by
  unfold nodeAt at h
  cases hf : Nodes.find? (fun n => n.1 == a) with
  | none => rw [hf] at h; cases h
  | some n =>
    rw [hf] at h
    have h1 := List.find?_some hf
    have h2 := List.mem_of_find?_eq_some hf
    simp at h1 h
    rw [← h1, ← h]
    exact h2

/-! ### The probing loops -/

/-- Walking over occupied cells: if every cell strictly before `t` on the walk from `s` holds a
node, `insertLoop` started at `s` continues at `t`. -/
theorem insertLoop_walk (T : List NodeIter) (t : Nat) (ht : t < T.length) :
    ∀ (d fuel s : Nat), s < T.length → cdist T.length s t = d → d < fuel →
      (∀ j, j < T.length → cdist T.length s j < cdist T.length s t → T[j]? ≠ some none) →
      HashMap.insertLoop T fuel s = HashMap.insertLoop T (fuel - d) t := by
  intro d
  induction d with
  | zero =>
    intro fuel s hs hd _ _
    have : s = t := by
      rcases cdist_cases T.length s t with h | h <;> omega
    rw [this]; rfl
  | succ d ih =>
    intro fuel s hs hd hf hocc
    have hst : s ≠ t := by
      intro h
      rw [h] at hd
      rcases cdist_cases T.length t t with h | h <;> omega
    obtain ⟨f, rfl⟩ : ∃ f, fuel = f + 1 := ⟨fuel - 1, by omega⟩
    have hs0 : T[s]? ≠ some none := by
      apply hocc s hs
      rcases cdist_cases T.length s s with h | h <;> omega
    rcases cell_cases T s hs with h0 | ⟨a, ha⟩
    · exact absurd h0 hs0
    · have hstep : HashMap.insertLoop T (f + 1) s
          = HashMap.insertLoop T f ((s + 1) % T.length) := by
        rw [HashMap.insertLoop, ha]
      rw [hstep]
      have hlt : (s + 1) % T.length < T.length := Nat.mod_lt _ (by omega)
      have hd1 : cdist T.length ((s + 1) % T.length) t = d := by
        rcases succ_mod_cases T.length s hs with h | h <;>
        rcases cdist_cases T.length s t with h1 | h1 <;>
        rcases cdist_cases T.length ((s + 1) % T.length) t with h2 | h2 <;> omega
      rw [ih f _ hlt hd1 (by omega)]
      · congr 1; omega
      · intro j hj hlt2
        apply hocc j hj
        rcases succ_mod_cases T.length s hs with h | h <;>
        rcases cdist_cases T.length s t with h1 | h1 <;>
        rcases cdist_cases T.length ((s + 1) % T.length) t with h2 | h2 <;>
        rcases cdist_cases T.length s j with h3 | h3 <;>
        rcases cdist_cases T.length ((s + 1) % T.length) j with h4 | h4 <;> omega

/-- The probe of `insert` returns the first empty cell on the walk from `s`. -/
theorem insertLoop_spec (T : List NodeIter) (s : Nat) (hs : s < T.length)
    (h : ∃ e, e < T.length ∧ T[e]? = some none) :
    ∃ t, HashMap.insertLoop T T.length s = some t ∧ t < T.length ∧ T[t]? = some none ∧
      ∀ j, j < T.length → cdist T.length s j < cdist T.length s t → T[j]? ≠ some none := by
  rcases first_empty T s h with ⟨t, ht, htn, hocc⟩
  refine ⟨t, ?_, ht, htn, hocc⟩
  have hd : cdist T.length s t < T.length := by
    rcases cdist_cases T.length s t with h | h <;> omega
  rw [insertLoop_walk T t ht _ T.length s hs rfl hd hocc]
  obtain ⟨f, hf⟩ : ∃ f, T.length - cdist T.length s t = f + 1 :=
    ⟨T.length - cdist T.length s t - 1, by omega⟩
  rw [hf, HashMap.insertLoop, htn]

/-- Walking over cells that hold nodes with other keys. -/
theorem findLoop_walk (Nodes : List (Nat × K × V)) (T : List NodeIter) (Key : K) (t : Nat)
    (ht : t < T.length) :
    ∀ (d fuel s : Nat), s < T.length → cdist T.length s t = d → d < fuel →
      (∀ j, j < T.length → cdist T.length s j < cdist T.length s t →
        ∃ a nd, T[j]? = some (some a) ∧ nodeAt Nodes a = some nd ∧ nd.1 ≠ Key) →
      HashMap.findLoop Nodes T Key fuel s = HashMap.findLoop Nodes T Key (fuel - d) t := by
  intro d
  induction d with
  | zero =>
    intro fuel s hs hd _ _
    have : s = t := by
      rcases cdist_cases T.length s t with h | h <;> omega
    rw [this]; rfl
  | succ d ih =>
    intro fuel s hs hd hf hocc
    obtain ⟨f, rfl⟩ : ∃ f, fuel = f + 1 := ⟨fuel - 1, by omega⟩
    obtain ⟨a, nd, ha, hnd, hk⟩ := hocc s hs (by
      rcases cdist_cases T.length s s with h | h <;> omega)
    have hstep : HashMap.findLoop Nodes T Key (f + 1) s
        = HashMap.findLoop Nodes T Key f ((s + 1) % T.length) := by
      rw [HashMap.findLoop, ha]
      simp only [hnd, hk, if_false]
    rw [hstep]
    have hlt : (s + 1) % T.length < T.length := Nat.mod_lt _ (by omega)
    have hd1 : cdist T.length ((s + 1) % T.length) t = d := by
      rcases succ_mod_cases T.length s hs with h | h <;>
      rcases cdist_cases T.length s t with h1 | h1 <;>
      rcases cdist_cases T.length ((s + 1) % T.length) t with h2 | h2 <;> omega
    rw [ih f _ hlt hd1 (by omega)]
    · congr 1; omega
    · intro j hj hlt2
      apply hocc j hj
      rcases succ_mod_cases T.length s hs with h | h <;>
      rcases cdist_cases T.length s t with h1 | h1 <;>
      rcases cdist_cases T.length ((s + 1) % T.length) t with h2 | h2 <;>
      rcases cdist_cases T.length s j with h3 | h3 <;>
      rcases cdist_cases T.length ((s + 1) % T.length) j with h4 | h4 <;> omega

theorem firstIter_none {Nodes : List (Nat × K × V)} {Key : K}
    (h : firstIter Nodes Key = none) : ∀ a v, (a, Key, v) ∉ Nodes := by
  intro a v hm
  unfold firstIter at h
  cases hf : Nodes.find? (fun n => decide (n.2.1 = Key)) with
  | none =>
    have := List.find?_eq_none.mp hf _ hm
    simp at this
  | some n => rw [hf] at h; cases h

theorem firstIter_some {Nodes : List (Nat × K × V)} {Key : K} {a : Nat}
    (h : firstIter Nodes Key = some a) : ∃ v, (a, Key, v) ∈ Nodes := by
  unfold firstIter at h
  cases hf : Nodes.find? (fun n => decide (n.2.1 = Key)) with
  | none => rw [hf] at h; cases h
  | some n =>
    rw [hf] at h
    have h1 := List.find?_some hf
    have h2 := List.mem_of_find?_eq_some hf
    simp at h1 h
    refine ⟨n.2.2, ?_⟩
    rw [← h1, ← h]
    exact h2

theorem firstIter_le {Nodes : List (Nat × K × V)}
    (hs : Nodes.Pairwise (fun x y => x.1 < y.1)) {Key : K} {a b : Nat} {w : V}
    (h : firstIter Nodes Key = some a) (hb : (b, Key, w) ∈ Nodes) : a ≤ b := by
  induction Nodes with
  | nil => cases hb
  | cons x xs ih =>
    rw [List.pairwise_cons] at hs
    unfold firstIter at h
    rw [List.find?_cons] at h
    by_cases hx : x.2.1 = Key
    · have hxa : decide (x.2.1 = Key) = true := by simp [hx]
      rw [hxa] at h
      simp at h
      rcases List.mem_cons.mp hb with h1 | h1
      · rw [← h1] at h; simp at h; omega
      · have := hs.1 _ h1
        simp at this
        omega
    · have hxa : decide (x.2.1 = Key) = false := by simp [hx]
      rw [hxa] at h
      rcases List.mem_cons.mp hb with h1 | h1
      · rw [← h1] at hx; exact absurd rfl hx
      · exact ih hs.2 h h1

/-- On a well-formed map `find` returns the iterator of the first node, in iteration order,
whose key is `Key`, and `end()` when there is none. -/
theorem find_spec {m : HashMap K V} (hm : WF m) (Key : K) :
    m.find Key = some (firstIter m.Nodes Key) := by
  have hc := hm.cap_pos
  have hs : m.Hasher Key % m.Table.length < m.Table.length := Nat.mod_lt _ hc
  unfold HashMap.find
  rw [if_neg (by omega)]
  cases hf : firstIter m.Nodes Key with
  | none =>
    have hno := firstIter_none hf
    have hex : ∃ e, e < m.Table.length ∧ m.Table[e]? = some none := by
      apply exists_empty_cell
      have h1 := hm.count_cells
      have h2 := hm.load
      unfold LoadFactor at h2
      omega
    rcases first_empty m.Table (m.Hasher Key % m.Table.length) hex with ⟨t, ht, htn, hocc⟩
    have hd : cdist m.Table.length (m.Hasher Key % m.Table.length) t < m.Table.length := by
      rcases cdist_cases m.Table.length (m.Hasher Key % m.Table.length) t with h | h <;> omega
    rw [findLoop_walk m.Nodes m.Table Key t ht _ m.Table.length _ hs rfl hd]
    · obtain ⟨f, hf2⟩ : ∃ f, m.Table.length
          - cdist m.Table.length (m.Hasher Key % m.Table.length) t = f + 1 :=
        ⟨m.Table.length - cdist m.Table.length (m.Hasher Key % m.Table.length) t - 1, by omega⟩
      rw [hf2, HashMap.findLoop, htn]
    · intro j hj hlt
      rcases cell_cases m.Table j hj with h0 | ⟨a, ha⟩
      · exact absurd h0 (hocc j hj hlt)
      · obtain ⟨nd, hnd⟩ := hm.slots.live j a (by simp) ha
        refine ⟨a, nd, ha, nodeAt_of_mem hm.sorted hnd, ?_⟩
        intro hk
        obtain ⟨k, v⟩ := nd
        simp at hk
        rw [hk] at hnd
        exact hno a v hnd
  | some a0 =>
    obtain ⟨v0, hn0⟩ := firstIter_some hf
    obtain ⟨i0, _, hi0⟩ := hm.slots.cell _ hn0
    have hi0lt := lt_of_cell hi0
    have hd : cdist m.Table.length (m.Hasher Key % m.Table.length) i0 < m.Table.length := by
      rcases cdist_cases m.Table.length (m.Hasher Key % m.Table.length) i0 with h | h <;> omega
    rw [findLoop_walk m.Nodes m.Table Key i0 hi0lt _ m.Table.length _ hs rfl hd]
    · obtain ⟨f, hf2⟩ : ∃ f, m.Table.length
          - cdist m.Table.length (m.Hasher Key % m.Table.length) i0 = f + 1 :=
        ⟨m.Table.length - cdist m.Table.length (m.Hasher Key % m.Table.length) i0 - 1, by omega⟩
      rw [hf2, HashMap.findLoop, hi0]
      simp only [nodeAt_of_mem hm.sorted hn0, if_true]
    · intro j hj hlt
      rcases cell_cases m.Table j hj with h0 | ⟨b, hb⟩
      · exact absurd h0 (hm.slots.chain i0 a0 Key v0 (by simp) hi0 hn0 j hj (by simp) hlt)
      · obtain ⟨nd, hnd⟩ := hm.slots.live j b (by simp) hb
        refine ⟨b, nd, hb, nodeAt_of_mem hm.sorted hnd, ?_⟩
        intro hk
        obtain ⟨k, w⟩ := nd
        simp at hk
        rw [hk] at hnd
        have hle := firstIter_le hm.sorted hf hnd
        have hne : a0 ≠ b := by
          intro hab
          rw [← hab] at hb
          have := hm.slots.inj i0 j a0 (by simp) (by simp) hi0 hb
          rw [this] at hlt
          omega
        have := hm.slots.order i0 j a0 b Key v0 w (by simp) (by simp) hi0 hb hn0 hnd (by omega)
        omega

/-! ### `insert` and `resize` -/

theorem mem_push {Nodes : List (Nat × K × V)} {f : Nat} {nd : K × V} {a : Nat} {k : K} {v : V}
    (hb : ∀ n ∈ Nodes, n.1 < f) (h : (a, k, v) ∈ Nodes ++ [(f, nd)]) :
    ((a, k, v) ∈ Nodes ∧ a < f) ∨ (a = f ∧ (k, v) = nd) := by
  rcases List.mem_append.mp h with h1 | h1
  · exact Or.inl ⟨h1, hb _ h1⟩
  · simp at h1
    exact Or.inr ⟨h1.1, by rw [h1.2]⟩

theorem countP_set_some (T : List NodeIter) (e a : Nat) (he : T[e]? = some none) :
    (T.set e (some a)).countP (fun x => x.isSome) = T.countP (fun x => x.isSome) + 1 := by
  obtain ⟨hlt, hv⟩ := List.getElem?_eq_some.mp he
  rw [List.countP_set _ _ _ _ hlt, hv]
  simp

/-- Appending a node in the first empty cell on its probe path keeps the slot invariant. -/
theorem slots_place {Hasher : K → Nat} {Nodes : List (Nat × K × V)} {T : List NodeIter}
    {f e : Nat} {nd : K × V} (hsl : Slots Hasher Nodes T none)
    (hb : ∀ n ∈ Nodes, n.1 < f) (he : e < T.length) (hen : T[e]? = some none)
    (hocc : ∀ j, j < T.length →
      cdist T.length (Hasher nd.1 % T.length) j < cdist T.length (Hasher nd.1 % T.length) e →
      T[j]? ≠ some none) :
    Slots Hasher (Nodes ++ [(f, nd)]) (T.set e (some f)) none := by
  have hlive_lt : ∀ (i a : Nat), T[i]? = some (some a) → a < f := by
    intro i a hi
    obtain ⟨x, hx⟩ := hsl.live i a (by simp) hi
    exact hb _ hx
  have hget : ∀ (i a : Nat), (T.set e (some f))[i]? = some (some a) →
      (i = e ∧ a = f) ∨ (i ≠ e ∧ T[i]? = some (some a)) := by
    intro i a hi
    by_cases hie : i = e
    · subst hie
      rw [List.getElem?_set_self he] at hi
      simp at hi
      exact Or.inl ⟨rfl, hi.symm⟩
    · rw [List.getElem?_set_ne (Ne.symm hie)] at hi
      exact Or.inr ⟨hie, hi⟩
  constructor
  · intro i a _ hi
    rcases hget i a hi with ⟨_, h2⟩ | ⟨_, h2⟩
    · exact ⟨nd, by rw [h2]; simp⟩
    · obtain ⟨x, hx⟩ := hsl.live i a (by simp) h2
      exact ⟨x, List.mem_append_left _ hx⟩
  · intro i j a _ _ hi hj
    rcases hget i a hi with ⟨h1, h2⟩ | ⟨h1, h2⟩ <;> rcases hget j a hj with ⟨h3, h4⟩ | ⟨h3, h4⟩
    · rw [h1, h3]
    · have := hlive_lt j a h4; omega
    · have := hlive_lt i a h2; omega
    · exact hsl.inj i j a (by simp) (by simp) h2 h4
  · intro n hn
    rcases List.mem_append.mp hn with h1 | h1
    · obtain ⟨i, _, hi⟩ := hsl.cell n h1
      have hie : i ≠ e := by
        intro h; rw [h, hen] at hi; cases hi
      exact ⟨i, by simp, by rw [List.getElem?_set_ne (Ne.symm hie)]; exact hi⟩
    · simp at h1
      exact ⟨e, by simp, by rw [h1, List.getElem?_set_self he]⟩
  · intro i a k v _ hi hmem j hj _ hlt
    rw [List.length_set] at hj hlt
    by_cases hje : j = e
    · rw [hje, List.getElem?_set_self he]; simp
    · rw [List.getElem?_set_ne (Ne.symm hje)]
      rcases hget i a hi with ⟨h1, h2⟩ | ⟨h1, h2⟩
      · rcases mem_push hb hmem with ⟨_, h4⟩ | ⟨_, h4⟩
        · omega
        · have hk : k = nd.1 := by rw [← h4]
          rw [hk, h1] at hlt
          exact hocc j hj hlt
      · rcases mem_push hb hmem with ⟨h3, _⟩ | ⟨h3, _⟩
        · exact hsl.chain i a k v (by simp) h2 h3 j hj (by simp) hlt
        · have := hlive_lt i a h2; omega
  · intro i j a b k v w _ _ hi hj hma hmb hab
    rw [List.length_set]
    rcases hget i a hi with ⟨h1, h2⟩ | ⟨h1, h2⟩
    · rcases hget j b hj with ⟨h3, h4⟩ | ⟨h3, h4⟩
      · omega
      · have := hlive_lt j b h4; omega
    · have hma1 : (a, k, v) ∈ Nodes := by
        rcases mem_push hb hma with ⟨h3, _⟩ | ⟨h3, _⟩
        · exact h3
        · have := hlive_lt i a h2; omega
      have hilt := lt_of_cell h2
      rcases hget j b hj with ⟨h3, h4⟩ | ⟨h3, h4⟩
      · rw [h3]
        have hne : ¬ cdist T.length (Hasher k % T.length) e
            < cdist T.length (Hasher k % T.length) i := by
          intro hlt
          exact hsl.chain i a k v (by simp) h2 hma1 e he (by simp) hlt hen
        have hH : Hasher k % T.length < T.length := Nat.mod_lt _ (by omega)
        rcases cdist_cases T.length (Hasher k % T.length) e with h5 | h5 <;>
        rcases cdist_cases T.length (Hasher k % T.length) i with h6 | h6 <;> omega
      · have hmb1 : (b, k, w) ∈ Nodes := by
          rcases mem_push hb hmb with ⟨h5, _⟩ | ⟨h5, _⟩
          · exact h5
          · have := hlive_lt j b h4; omega
        exact hsl.order i j a b k v w (by simp) (by simp) h2 h4 hma1 hmb1 hab

/-- The probe-and-append part of `insert` on a well-formed map with room for one more node. -/
theorem place_spec {m : HashMap K V} (hm : WF m)
    (hroom : (m.NodeCount + 1) * LoadFactor ≤ m.Table.length) (nd : K × V) :
    ∃ m1, m.place nd = some m1 ∧ WF m1 ∧ m1.Nodes = m.Nodes ++ [(m.fresh, nd)] ∧
      m1.Table.length = m.Table.length ∧ m1.Hasher = m.Hasher ∧
      m1.NodeCount = m.NodeCount + 1 := by
  have hc := hm.cap_pos
  have hex : ∃ e, e < m.Table.length ∧ m.Table[e]? = some none := by
    apply exists_empty_cell
    have h1 := hm.count_cells
    have h2 := hm.load
    unfold LoadFactor at h2
    omega
  obtain ⟨e, hloop, he, hen, hocc⟩ :=
    insertLoop_spec m.Table (m.Hasher nd.1 % m.Table.length) (Nat.mod_lt _ hc) hex
  refine ⟨{ m with
      Nodes := m.Nodes ++ [(m.fresh, nd)]
      NodeCount := m.NodeCount + 1
      Table := m.Table.set e (some m.fresh)
      fresh := m.fresh + 1 }, ?_, ?_, rfl, ?_, rfl, rfl⟩
  · unfold HashMap.place
    rw [if_neg (by omega), hloop]
  · constructor
    · show 0 < (m.Table.set e (some m.fresh)).length
      rw [List.length_set]; exact hc
    · show (m.NodeCount + 1) * LoadFactor ≤ (m.Table.set e (some m.fresh)).length
      rw [List.length_set]; exact hroom
    · show m.NodeCount + 1 = (m.Nodes ++ [(m.fresh, nd)]).length
      rw [List.length_append, hm.count_nodes]; rfl
    · show (m.Table.set e (some m.fresh)).countP (fun x => x.isSome) = m.NodeCount + 1
      rw [countP_set_some _ _ _ hen, hm.count_cells]
    · show (m.Nodes ++ [(m.fresh, nd)]).Pairwise (fun x y => x.1 < y.1)
      rw [List.pairwise_append]
      refine ⟨hm.sorted, List.pairwise_singleton _ _, ?_⟩
      intro a ha b hb
      simp at hb
      rw [hb]
      exact hm.below a ha
    · show ∀ n ∈ m.Nodes ++ [(m.fresh, nd)], n.1 < m.fresh + 1
      intro n hn
      rcases List.mem_append.mp hn with h1 | h1
      · have := hm.below n h1; omega
      · simp at h1; rw [h1]; simp
    · exact slots_place hm.slots hm.below he hen hocc
  · show (m.Table.set e (some m.fresh)).length = m.Table.length
    rw [List.length_set]

theorem insertAux_noresize (d : Nat) (m : HashMap K V) (nd : K × V)
    (h : (m.NodeCount + 1) * LoadFactor ≤ m.Table.length) :
    HashMap.insertAux (d + 1) m nd = m.place nd := by
  rw [HashMap.insertAux, if_neg (by omega)]

theorem insertAux_resize (d : Nat) (m : HashMap K V) (nd : K × V)
    (h : (m.NodeCount + 1) * LoadFactor > m.Table.length) :
    HashMap.insertAux (d + 1) m nd
      = (HashMap.resizeWith (HashMap.insertAux d) m).bind (fun m1 => m1.place nd) := by
  rw [HashMap.insertAux, if_pos h]
  cases HashMap.resizeWith (HashMap.insertAux d) m <;> rfl

/-- Inserting a list of nodes into a well-formed map whose table has room for all of them:
no insert resizes. -/
theorem reinsert_spec (d : Nat) (l : List (K × V)) :
    ∀ (m : HashMap K V), WF m → (m.NodeCount + l.length) * LoadFactor ≤ m.Table.length →
      ∃ m1, l.foldlM (HashMap.insertAux (d + 1)) m = some m1 ∧ WF m1 ∧
        m1.entries = m.entries ++ l ∧ m1.Table.length = m.Table.length ∧
        m1.Hasher = m.Hasher ∧ m1.NodeCount = m.NodeCount + l.length := by
  induction l with
  | nil =>
    intro m hm _
    exact ⟨m, rfl, hm, by simp, rfl, rfl, rfl⟩
  | cons x xs ih =>
    intro m hm hroom
    have hroom1 : (m.NodeCount + 1) * LoadFactor ≤ m.Table.length := by
      unfold LoadFactor at *
      simp only [List.length_cons] at hroom
      omega
    obtain ⟨m1, hp, hw, hn, hl, hh, hcnt⟩ := place_spec hm hroom1 x
    obtain ⟨m2, hf, hw2, hn2, hl2, hh2, hcnt2⟩ := ih m1 hw (by
      rw [hl, hcnt]
      simp only [List.length_cons] at hroom
      unfold LoadFactor at *
      omega)
    refine ⟨m2, ?_, hw2, ?_, by rw [hl2, hl], by rw [hh2, hh], ?_⟩
    · rw [List.foldlM_cons, insertAux_noresize d m x hroom1, hp]
      exact hf
    · rw [hn2]
      unfold HashMap.entries
      rw [hn]
      simp
    · rw [hcnt2, hcnt]
      simp only [List.length_cons]
      omega

theorem wf_fresh_table (Hasher : K → Nat) (n f : Nat) (hn : 0 < n) :
    WF ({ Hasher := Hasher, NodeCount := 0, Nodes := [], Table := List.replicate n none,
          fresh := f } : HashMap K V) := by
  constructor
  · simpa using hn
  · simp
  · rfl
  · simp [List.countP_replicate]
  · exact List.Pairwise.nil
  · intro x hx; cases hx
  · constructor
    · intro i a _ hi
      rw [List.getElem?_replicate] at hi
      split at hi <;> cases hi
    · intro i j a _ _ hi
      rw [List.getElem?_replicate] at hi
      split at hi <;> cases hi
    · intro x hx; cases hx
    · intro i a k v _ hi
      rw [List.getElem?_replicate] at hi
      split at hi <;> cases hi
    · intro i j a b k v w _ _ hi
      rw [List.getElem?_replicate] at hi
      split at hi <;> cases hi

/-- The body of `resize` on a well-formed map: all nodes are re-created in order in a table of
twice the size, and no nested resize happens. -/
theorem resizeWith_spec (d : Nat) {m : HashMap K V} (hm : WF m) :
    ∃ m1, HashMap.resizeWith (HashMap.insertAux (d + 1)) m = some m1 ∧ WF m1 ∧
      m1.entries = m.entries ∧ m1.Table.length = m.Table.length * LoadFactor ∧
      m1.Hasher = m.Hasher ∧ m1.NodeCount = m.NodeCount := by
  have hc := hm.cap_pos
  have hl := hm.load
  have hcn := hm.count_nodes
  have h0 : WF ({ Hasher := m.Hasher, NodeCount := 0, Nodes := [],
                  Table := List.replicate (m.Table.length * LoadFactor) none,
                  fresh := m.fresh } : HashMap K V) :=
    wf_fresh_table m.Hasher _ m.fresh (by unfold LoadFactor; omega)
  obtain ⟨m1, hf, hw, hn, hlen, hh, hcnt⟩ :=
    reinsert_spec d (m.Nodes.map (fun n => n.2)) _ h0 (by
      simp only [List.length_map, List.length_replicate]
      unfold LoadFactor at *
      omega)
  refine ⟨m1, hf, hw, ?_, ?_, hh, ?_⟩
  · rw [hn]; simp [HashMap.entries]
  · rw [hlen]; simp
  · rw [hcnt]; simp [hcn]

/-- The function `insert` on a well-formed map, at any call depth of at least 2. -/
theorem insertAux_spec (d : Nat) {m : HashMap K V} (hm : WF m) (nd : K × V) :
    ∃ m1, HashMap.insertAux (d + 2) m nd = some m1 ∧ WF m1 ∧
      m1.entries = m.entries ++ [nd] ∧ m1.Hasher = m.Hasher ∧
      m1.NodeCount = m.NodeCount + 1 ∧
      m1.Table.length = (if (m.NodeCount + 1) * LoadFactor > m.Table.length
        then m.Table.length * LoadFactor else m.Table.length) ∧
      (¬ (m.NodeCount + 1) * LoadFactor > m.Table.length →
        m1.Nodes = m.Nodes ++ [(m.fresh, nd)]) := by
  by_cases h : (m.NodeCount + 1) * LoadFactor > m.Table.length
  · obtain ⟨m0, hr, hw0, hn0, hl0, hh0, hc0⟩ := resizeWith_spec d hm
    have hroom : (m0.NodeCount + 1) * LoadFactor ≤ m0.Table.length := by
      rw [hc0, hl0]
      have h1 := hm.load
      have h2 := hm.cap_pos
      unfold LoadFactor at *
      omega
    obtain ⟨m1, hp, hw, hn, hl, hh, hcnt⟩ := place_spec hw0 hroom nd
    refine ⟨m1, ?_, hw, ?_, by rw [hh, hh0], by rw [hcnt, hc0], ?_, fun h2 => absurd h h2⟩
    · rw [insertAux_resize _ _ _ h, hr]
      exact hp
    · unfold HashMap.entries at *
      rw [hn, List.map_append, hn0]
      rfl
    · rw [if_pos h, hl, hl0]
  · obtain ⟨m1, hp, hw, hn, hl, hh, hcnt⟩ := place_spec hm (by omega) nd
    refine ⟨m1, ?_, hw, ?_, hh, hcnt, ?_, fun _ => hn⟩
    · rw [insertAux_noresize _ _ _ (by omega)]
      exact hp
    · unfold HashMap.entries
      rw [hn, List.map_append]
      rfl
    · rw [if_neg h, hl]

/-! ### `erase` -/

/-- The relocation test of the repair loop is the cyclic-interval test. -/
theorem relocate_iff (c H Last Index : Nat) (hH : H < c) (hL : Last < c) (hI : Index < c) :
    ((Index > Last ∧ (H ≤ Last ∨ H > Index)) ∨ (Index < Last ∧ (H ≤ Last ∧ H > Index)))
      ↔ cdist c H Last < cdist c H Index := by
  have a1 := cdist_cases c H Last
  have a2 := cdist_cases c H Index
  omega

theorem eraseSearch_of_find_none (Nodes : List (Nat × K × V)) (T : List NodeIter) (Key : K) :
    ∀ (fuel s : Nat), HashMap.findLoop Nodes T Key fuel s = some none →
      HashMap.eraseSearch Nodes T Key fuel s = some none := by
  intro fuel
  induction fuel with
  | zero => intro s h; simp [HashMap.findLoop] at h
  | succ f ih =>
    intro s h
    rw [HashMap.findLoop] at h
    rw [HashMap.eraseSearch]
    cases hc : T[s]? with
    | none => rw [hc] at h; simp at h
    | some x =>
      cases x with
      | none => rfl
      | some a =>
        rw [hc] at h
        simp only at h ⊢
        cases hn : nodeAt Nodes a with
        | none => rw [hn] at h; simp at h
        | some nd =>
          rw [hn] at h
          simp only at h ⊢
          by_cases hk : nd.1 = Key
          · rw [if_pos hk] at h; simp at h
          · rw [if_neg hk] at h ⊢
            exact ih _ h

theorem eraseSearch_of_find_some (Nodes : List (Nat × K × V)) (T : List NodeIter) (Key : K)
    (a : Nat) :
    ∀ (fuel s : Nat), HashMap.findLoop Nodes T Key fuel s = some (some a) →
      ∃ i, HashMap.eraseSearch Nodes T Key fuel s = some (some i) ∧ T[i]? = some (some a) := by
  intro fuel
  induction fuel with
  | zero => intro s h; simp [HashMap.findLoop] at h
  | succ f ih =>
    intro s h
    rw [HashMap.findLoop] at h
    rw [HashMap.eraseSearch]
    cases hc : T[s]? with
    | none => rw [hc] at h; simp at h
    | some x =>
      cases x with
      | none => rw [hc] at h; simp at h
      | some b =>
        rw [hc] at h
        simp only at h ⊢
        cases hn : nodeAt Nodes b with
        | none => rw [hn] at h; simp at h
        | some nd =>
          rw [hn] at h
          simp only at h ⊢
          by_cases hk : nd.1 = Key
          · rw [if_pos hk] at h ⊢
            simp at h
            exact ⟨s, rfl, by rw [hc, h]⟩
          · rw [if_neg hk] at h ⊢
            exact ih _ h

theorem countP_set_keep (T : List NodeIter) (i a b : Nat) (h : T[i]? = some (some b)) :
    (T.set i (some a)).countP (fun x => x.isSome) = T.countP (fun x => x.isSome) := by
  obtain ⟨hlt, hv⟩ := List.getElem?_eq_some.mp h
  rw [List.countP_set _ _ _ _ hlt, hv]
  have : 0 < T.countP (fun x => x.isSome) := by
    apply List.countP_pos_iff.mpr
    exact ⟨some b, by rw [← hv]; exact List.getElem_mem _, rfl⟩
  simp
  omega

theorem countP_set_none (T : List NodeIter) (i b : Nat) (h : T[i]? = some (some b)) :
    (T.set i none).countP (fun x => x.isSome) + 1 = T.countP (fun x => x.isSome) := by
  obtain ⟨hlt, hv⟩ := List.getElem?_eq_some.mp h
  rw [List.countP_set _ _ _ _ hlt, hv]
  have : 0 < T.countP (fun x => x.isSome) := by
    apply List.countP_pos_iff.mpr
    exact ⟨some b, by rw [← hv]; exact List.getElem_mem _, rfl⟩
  simp
  omega

theorem key_unique {Nodes : List (Nat × K × V)} (hs : Nodes.Pairwise (fun x y => x.1 < y.1))
    {a : Nat} {k k1 : K} {v v1 : V} (h : (a, k, v) ∈ Nodes) (h1 : (a, k1, v1) ∈ Nodes) :
    k = k1 ∧ v = v1 := by
  have e := nodeAt_of_mem hs h
  rw [nodeAt_of_mem hs h1] at e
  simp at e
  exact ⟨e.1.symm, e.2.symm⟩

theorem not_mem_eraseP_id {Nodes : List (Nat × K × V)}
    (hs : Nodes.Pairwise (fun x y => x.1 < y.1)) {a : Nat} {n : Nat × K × V}
    (hn : n ∈ Nodes.eraseP (fun x => x.1 == a)) : n.1 ≠ a := by
  by_cases hex : ∃ x ∈ Nodes, x.1 = a
  · obtain ⟨x, hx, hxa⟩ := hex
    obtain ⟨y, l1, l2, hl1, hy, hsplit, her⟩ :=
      List.exists_of_eraseP (p := fun x : Nat × K × V => x.1 == a) hx (by simp [hxa])
    rw [her] at hn
    rw [hsplit, List.pairwise_append] at hs
    simp at hy
    rcases List.mem_append.mp hn with h1 | h1
    · have := hl1 n h1
      simpa using this
    · have := (List.pairwise_cons.mp hs.2.1).1 n h1
      omega
  · intro h
    have hmem : n ∈ Nodes := (List.eraseP_sublist _).subset hn
    exact hex ⟨n, hmem, h⟩

/-- The repair loop invariant holds when the loop is entered. -/
theorem repair_init {m : HashMap K V} (hm : WF m) {i0 a : Nat}
    (hi0 : m.Table[i0]? = some (some a)) :
    Repair m.Hasher (m.Nodes.eraseP (fun x => x.1 == a)) m.Table i0 i0 := by
  have hsub : ∀ n, n ∈ m.Nodes.eraseP (fun x => x.1 == a) → n ∈ m.Nodes :=
    fun n hn => (List.eraseP_sublist _).subset hn
  have hlt := lt_of_cell hi0
  refine ⟨hlt, hlt, ⟨a, hi0⟩, ?_, ?_, ?_, ?_, hm.sorted.sublist (List.eraseP_sublist _)⟩
  · constructor
    · intro i b hi hb
      obtain ⟨nd, hnd⟩ := hm.slots.live i b (by simp) hb
      refine ⟨nd, ?_⟩
      have hne : b ≠ a := by
        intro h
        rw [h] at hb
        have := hm.slots.inj i i0 a (by simp) (by simp) hb hi0
        rw [this] at hi
        simp at hi
      exact (List.mem_eraseP_of_neg (by simpa using hne)).mpr hnd
    · intro i j b _ _ hi hj
      exact hm.slots.inj i j b (by simp) (by simp) hi hj
    · intro n hn
      obtain ⟨i, _, hi⟩ := hm.slots.cell n (hsub n hn)
      refine ⟨i, ?_, hi⟩
      intro h
      simp at h
      rw [← h, hi0] at hi
      simp at hi
      exact not_mem_eraseP_id hm.sorted hn hi.symm
    · intro i b k v _ hi hmem j hj _ hlt2
      exact hm.slots.chain i b k v (by simp) hi (hsub _ hmem) j hj (by simp) hlt2
    · intro i j b1 b2 k v w _ _ hi hj h1 h2 hlt2
      exact hm.slots.order i j b1 b2 k v w (by simp) (by simp) hi hj (hsub _ h1) (hsub _ h2) hlt2
  · intro i hi h1 h2
    have a1 := cdist_cases m.Table.length i0 i0
    omega
  · intro i b k v hi h1 h2
    have a1 := cdist_cases m.Table.length i0 i0
    omega
  · obtain ⟨nd, hnd⟩ := hm.slots.live i0 a (by simp) hi0
    rw [List.length_eraseP_of_mem hnd (by simp), hm.count_cells, hm.count_nodes]
    have := List.length_pos_of_mem hnd
    omega

theorem hole_ne {a b : Nat} (h : b ≠ a) : (some a : Option Nat) ≠ some b :=
  fun e => h (Option.some.inj e).symm

theorem ne_of_hole {a b : Nat} (h : (some a : Option Nat) ≠ some b) : b ≠ a :=
  fun e => h (by rw [e])

/-- Leaving the repair loop: clearing the vacated cell restores the slot invariant. -/
theorem repair_exit {Hasher : K → Nat} {Nodes : List (Nat × K × V)} {T : List NodeIter}
    {Last Index0 Index : Nat} (R : Repair Hasher Nodes T Last Index0)
    (hIdx : Index = (Index0 + 1) % T.length) (hne : Index ≠ Last)
    (hnone : T[Index]? = some none) :
    Slots Hasher Nodes (T.set Last none) none ∧
      (T.set Last none).countP (fun x => x.isSome) = Nodes.length := by
  have hL := R.last_lt
  have hI0 := R.index_lt
  have hIlt : Index < T.length := lt_of_cell hnone
  have hget : ∀ (i a : Nat), (T.set Last none)[i]? = some (some a) →
      i ≠ Last ∧ T[i]? = some (some a) := by
    intro i a hi
    by_cases hie : i = Last
    · subst hie
      rw [List.getElem?_set_self hL] at hi
      simp at hi
    · rw [List.getElem?_set_ne (Ne.symm hie)] at hi
      exact ⟨hie, hi⟩
  refine ⟨?_, ?_⟩
  · constructor
    · intro i a _ hi
      obtain ⟨h1, h2⟩ := hget i a hi
      exact R.slots.live i a (hole_ne h1) h2
    · intro i j a _ _ hi hj
      obtain ⟨h1, h2⟩ := hget i a hi
      obtain ⟨h3, h4⟩ := hget j a hj
      exact R.slots.inj i j a (hole_ne h1) (hole_ne h3) h2 h4
    · intro n hn
      obtain ⟨i, h1, h2⟩ := R.slots.cell n hn
      refine ⟨i, by simp, ?_⟩
      rw [List.getElem?_set_ne (Ne.symm (ne_of_hole h1))]
      exact h2
    · intro i a k v _ hi hmem j hj _ hlt
      rw [List.length_set] at hj hlt
      obtain ⟨hiL, hiT⟩ := hget i a hi
      by_cases hjL : j = Last
      · exfalso
        rw [hjL] at hlt
        have hilt := lt_of_cell hiT
        have hH : Hasher k % T.length < T.length := Nat.mod_lt _ (by omega)
        have hiI : i ≠ Index := by
          intro h; rw [h, hnone] at hiT; cases hiT
        have a1 := cdist_cases T.length (Hasher k % T.length) Last
        have a2 := cdist_cases T.length (Hasher k % T.length) i
        have a3 := cdist_cases T.length Last Index0
        have a4 := cdist_cases T.length Last i
        have a5 := cdist_cases T.length (Hasher k % T.length) Index
        have a6 := succ_mod_cases T.length Index0 hI0
        by_cases hin : cdist T.length Last i ≤ cdist T.length Last Index0
        · exact R.done i a k v hilt (by omega) hin hiT hmem hlt
        · exact R.slots.chain i a k v (hole_ne hiL) hiT hmem Index hIlt (hole_ne hne)
            (by omega) hnone
      · rw [List.getElem?_set_ne (Ne.symm hjL)]
        exact R.slots.chain i a k v (hole_ne hiL) hiT hmem j hj (hole_ne hjL) hlt
    · intro i j a b k v w _ _ hi hj hma hmb hab
      rw [List.length_set]
      obtain ⟨h1, h2⟩ := hget i a hi
      obtain ⟨h3, h4⟩ := hget j b hj
      exact R.slots.order i j a b k v w (hole_ne h1) (hole_ne h3) h2 h4 hma hmb hab
  · obtain ⟨b, hb⟩ := R.last_some
    have := countP_set_none T Last b hb
    have := R.count
    omega

/-- The repair loop keeps its invariant when it moves the inspected node into the vacated
cell. -/
theorem repair_move {Hasher : K → Nat} {Nodes : List (Nat × K × V)} {T : List NodeIter}
    {Last Index0 Index a : Nat} {k : K} {v : V} (R : Repair Hasher Nodes T Last Index0)
    (hIdx : Index = (Index0 + 1) % T.length) (hne : Index ≠ Last)
    (ha : T[Index]? = some (some a)) (hmem : (a, k, v) ∈ Nodes)
    (hmv : cdist T.length (Hasher k % T.length) Last
      < cdist T.length (Hasher k % T.length) Index) :
    Repair Hasher Nodes (T.set Last (some a)) Index Index := by
  have hL := R.last_lt
  have hI0 := R.index_lt
  have hIlt : Index < T.length := lt_of_cell ha
  have hH : Hasher k % T.length < T.length := Nat.mod_lt _ (by omega)
  have hget : ∀ (i b : Nat), (T.set Last (some a))[i]? = some (some b) →
      (i = Last ∧ b = a) ∨ (i ≠ Last ∧ T[i]? = some (some b)) := by
    intro i b hi
    by_cases hie : i = Last
    · subst hie
      rw [List.getElem?_set_self hL] at hi
      simp at hi
      exact Or.inl ⟨rfl, hi.symm⟩
    · rw [List.getElem?_set_ne (Ne.symm hie)] at hi
      exact Or.inr ⟨hie, hi⟩
  have hkey : ∀ (k1 : K) (v1 : V), (a, k1, v1) ∈ Nodes → k1 = k := by
    intro k1 v1 h1
    exact (key_unique R.sorted h1 hmem).1
  refine ⟨by rw [List.length_set]; exact hIlt, by rw [List.length_set]; exact hIlt,
    ⟨a, by rw [List.getElem?_set_ne (Ne.symm hne)]; exact ha⟩, ?_, ?_, ?_, ?_, R.sorted⟩
  · constructor
    · intro i b hi hb
      rcases hget i b hb with ⟨_, h2⟩ | ⟨h1, h2⟩
      · exact ⟨(k, v), by rw [h2]; exact hmem⟩
      · exact R.slots.live i b (hole_ne h1) h2
    · intro i j b hi hj hbi hbj
      have hiI := ne_of_hole hi
      have hjI := ne_of_hole hj
      rcases hget i b hbi with ⟨h1, h2⟩ | ⟨h1, h2⟩ <;>
        rcases hget j b hbj with ⟨h3, h4⟩ | ⟨h3, h4⟩
      · rw [h1, h3]
      · rw [h2] at h4
        exact absurd (R.slots.inj j Index a (hole_ne h3) (hole_ne hne) h4 ha) hjI
      · rw [h4] at h2
        exact absurd (R.slots.inj i Index a (hole_ne h1) (hole_ne hne) h2 ha) hiI
      · exact R.slots.inj i j b (hole_ne h1) (hole_ne h3) h2 h4
    · intro n hn
      obtain ⟨i, h1, h2⟩ := R.slots.cell n hn
      have hiL := ne_of_hole h1
      by_cases hiI : i = Index
      · rw [hiI, ha] at h2
        simp at h2
        exact ⟨Last, hole_ne (Ne.symm hne), by rw [List.getElem?_set_self hL, h2]⟩
      · exact ⟨i, hole_ne hiI, by rw [List.getElem?_set_ne (Ne.symm hiL)]; exact h2⟩
    · intro i b k1 v1 hi hb hm1 j hj hjh hlt
      rw [List.length_set] at hj hlt
      have hjI := ne_of_hole hjh
      by_cases hjL : j = Last
      · rw [hjL, List.getElem?_set_self hL]; simp
      · rw [List.getElem?_set_ne (Ne.symm hjL)]
        rcases hget i b hb with ⟨h1, h2⟩ | ⟨h1, h2⟩
        · rw [h2] at hm1
          have hk := hkey k1 v1 hm1
          rw [hk, h1] at hlt
          exact R.slots.chain Index a k v (hole_ne hne) ha hmem j hj (hole_ne hjL) (by omega)
        · exact R.slots.chain i b k1 v1 (hole_ne h1) h2 hm1 j hj (hole_ne hjL) hlt
    · intro i j b1 b2 k1 v1 w1 hi hj hb1 hb2 hm1 hm2 hlt
      rw [List.length_set]
      have hiI := ne_of_hole hi
      have hjI := ne_of_hole hj
      rcases hget i b1 hb1 with ⟨h1, h2⟩ | ⟨h1, h2⟩ <;>
        rcases hget j b2 hb2 with ⟨h3, h4⟩ | ⟨h3, h4⟩
      · omega
      · rw [h2] at hm1 hlt
        have hk := hkey k1 v1 hm1
        rw [hk] at hm2 ⊢
        have := R.slots.order Index j a b2 k v w1 (hole_ne hne) (hole_ne h3) ha h4 hmem hm2 hlt
        rw [h1]
        omega
      · rw [h4] at hm2 hlt
        have hk := hkey k1 w1 hm2
        rw [hk] at hm1 ⊢
        have hord :=
          R.slots.order i Index b1 a k v1 v (hole_ne h1) (hole_ne hne) h2 ha hm1 hmem hlt
        rw [h3]
        have hilt := lt_of_cell h2
        have a1 := cdist_cases T.length (Hasher k % T.length) Last
        have a2 := cdist_cases T.length (Hasher k % T.length) i
        have a3 := cdist_cases T.length Last Index0
        have a4 := cdist_cases T.length Last i
        have a5 := cdist_cases T.length (Hasher k % T.length) Index
        have a6 := succ_mod_cases T.length Index0 hI0
        by_contra hcon
        have hbad : cdist T.length (Hasher k % T.length) Last
            < cdist T.length (Hasher k % T.length) i := by omega
        exact R.done i b1 k v1 hilt (by omega) (by omega) h2 hm1 hbad
      · exact R.slots.order i j b1 b2 k1 v1 w1 (hole_ne h1) (hole_ne h3) h2 h4 hm1 hm2 hlt
  · intro i hi h1 h2
    have a1 := cdist_cases (T.set Last (some a)).length Index Index
    omega
  · intro i b k1 v1 hi h1 h2
    have a1 := cdist_cases (T.set Last (some a)).length Index Index
    omega
  · obtain ⟨b, hb⟩ := R.last_some
    rw [countP_set_keep T Last a b hb]
    exact R.count

/-- The repair loop keeps its invariant when it leaves the inspected node in place. -/
theorem repair_stay {Hasher : K → Nat} {Nodes : List (Nat × K × V)} {T : List NodeIter}
    {Last Index0 Index a : Nat} {k : K} {v : V} (R : Repair Hasher Nodes T Last Index0)
    (hIdx : Index = (Index0 + 1) % T.length) (hne : Index ≠ Last)
    (ha : T[Index]? = some (some a)) (hmem : (a, k, v) ∈ Nodes)
    (hst : ¬ cdist T.length (Hasher k % T.length) Last
      < cdist T.length (Hasher k % T.length) Index) :
    Repair Hasher Nodes T Last Index := by
  have hL := R.last_lt
  have hI0 := R.index_lt
  have hIlt : Index < T.length := lt_of_cell ha
  refine ⟨hL, hIlt, R.last_some, R.slots, ?_, ?_, R.count, R.sorted⟩
  · intro i hi h1 h2
    by_cases hiI : i = Index
    · rw [hiI, ha]; simp
    · apply R.full i hi h1
      have a3 := cdist_cases T.length Last Index0
      have a4 := cdist_cases T.length Last i
      have a5 := cdist_cases T.length Last Index
      have a6 := succ_mod_cases T.length Index0 hI0
      omega
  · intro i b k1 v1 hi h1 h2 hb hm1
    by_cases hiI : i = Index
    · rw [hiI, ha] at hb
      simp at hb
      rw [← hb] at hm1
      have hk := (key_unique R.sorted hm1 hmem).1
      rw [hk, hiI]
      exact hst
    · apply R.done i b k1 v1 hi h1 _ hb hm1
      have a3 := cdist_cases T.length Last Index0
      have a4 := cdist_cases T.length Last i
      have a5 := cdist_cases T.length Last Index
      have a6 := succ_mod_cases T.length Index0 hI0
      omega

theorem repair_index_some {Hasher : K → Nat} {Nodes : List (Nat × K × V)} {T : List NodeIter}
    {Last Index0 : Nat} (R : Repair Hasher Nodes T Last Index0) : T[Index0]? ≠ some none := by
  by_cases h : Index0 = Last
  · obtain ⟨b, hb⟩ := R.last_some
    rw [h, hb]; simp
  · apply R.full Index0 R.index_lt _ (Nat.le_refl _)
    have hL := R.last_lt
    have hI := R.index_lt
    have a1 := cdist_cases T.length Last Index0
    omega

/-- The repair loop of `erase` returns, and the table it leaves satisfies the slot invariant. -/
theorem eraseLoop_spec (Hasher : K → Nat) (Nodes : List (Nat × K × V)) :
    ∀ (fuel : Nat) (T : List NodeIter) (Last Index0 : Nat), Repair Hasher Nodes T Last Index0 →
      (∃ e, e < T.length ∧ T[e]? = some none ∧ cdist T.length Index0 e ≤ fuel) →
      ∃ T1, HashMap.eraseLoop Hasher Nodes fuel T Last Index0 = some T1 ∧
        T1.length = T.length ∧ Slots Hasher Nodes T1 none ∧
        T1.countP (fun x => x.isSome) = Nodes.length := by
  intro fuel
  induction fuel with
  | zero =>
    intro T Last Index0 R ⟨e, he, hen, hd⟩
    exfalso
    have hI := R.index_lt
    have a1 := cdist_cases T.length Index0 e
    have : e = Index0 := by omega
    rw [this] at hen
    exact repair_index_some R hen
  | succ f ih =>
    intro T Last Index0 R ⟨e, he, hen, hd⟩
    have hL := R.last_lt
    have hI0 := R.index_lt
    have hIlt : (Index0 + 1) % T.length < T.length := Nat.mod_lt _ (by omega)
    have heI0 : e ≠ Index0 := by
      intro h; rw [h] at hen; exact repair_index_some R hen
    have heL : e ≠ Last := by
      intro h
      obtain ⟨b, hb⟩ := R.last_some
      rw [h, hb] at hen; cases hen
    have a1 := cdist_cases T.length Index0 e
    have a2 := cdist_cases T.length ((Index0 + 1) % T.length) e
    have a3 := succ_mod_cases T.length Index0 hI0
    have hne : (Index0 + 1) % T.length ≠ Last := by
      intro h
      have a4 := cdist_cases T.length Last e
      have a5 := cdist_cases T.length Last Index0
      exact R.full e he (by omega) (by omega) hen
    rw [HashMap.eraseLoop]
    rcases cell_cases T _ hIlt with h0 | ⟨a, ha⟩
    · simp only [h0]
      obtain ⟨h1, h2⟩ := repair_exit R rfl hne h0
      exact ⟨_, rfl, List.length_set _ _ _, h1, h2⟩
    · obtain ⟨nd, hnd⟩ := R.slots.live _ a (hole_ne hne) ha
      have hna := nodeAt_of_mem R.sorted hnd
      simp only [ha, hna]
      have hH : Hasher nd.1 % T.length < T.length := Nat.mod_lt _ (by omega)
      have hiff := relocate_iff T.length (Hasher nd.1 % T.length) Last
        ((Index0 + 1) % T.length) hH hL hIlt
      split
      · rename_i hcond
        have R2 := repair_move R rfl hne ha hnd (hiff.mp hcond)
        obtain ⟨T1, h1, h2, h3, h4⟩ := ih _ _ _ R2 ⟨e, by rw [List.length_set]; exact he,
          by rw [List.getElem?_set_ne (Ne.symm heL)]; exact hen,
          by rw [List.length_set]; omega⟩
        exact ⟨T1, h1, by rw [h2, List.length_set], h3, h4⟩
      · rename_i hcond
        have R2 := repair_stay R rfl hne ha hnd (fun h => hcond (hiff.mpr h))
        exact ih _ _ _ R2 ⟨e, he, hen, by omega⟩

theorem erase_absent {m : HashMap K V} (hm : WF m) {Key : K}
    (h : firstIter m.Nodes Key = none) : m.erase Key = some m := by
  have hf := find_spec hm Key
  rw [h] at hf
  have hc := hm.cap_pos
  unfold HashMap.find at hf
  rw [if_neg (by omega)] at hf
  unfold HashMap.erase
  rw [if_neg (by omega), eraseSearch_of_find_none _ _ _ _ _ hf]

theorem erase_present {m : HashMap K V} (hm : WF m) {Key : K} {a : Nat}
    (h : firstIter m.Nodes Key = some a) :
    ∃ m1, m.erase Key = some m1 ∧ WF m1 ∧
      m1.Nodes = m.Nodes.eraseP (fun x => x.1 == a) ∧ m1.NodeCount + 1 = m.NodeCount ∧
      m1.Hasher = m.Hasher ∧ m1.Table.length = m.Table.length ∧ m1.fresh = m.fresh := by
  have hf := find_spec hm Key
  rw [h] at hf
  have hc := hm.cap_pos
  unfold HashMap.find at hf
  rw [if_neg (by omega)] at hf
  obtain ⟨i, hs, hi⟩ := eraseSearch_of_find_some _ _ _ _ _ _ hf
  have hilt := lt_of_cell hi
  obtain ⟨v, hmem⟩ := firstIter_some h
  have hex : ∃ e, e < m.Table.length ∧ m.Table[e]? = some none := by
    apply exists_empty_cell
    have h1 := hm.count_cells
    have h2 := hm.load
    unfold LoadFactor at h2
    omega
  obtain ⟨e, he, hen⟩ := hex
  obtain ⟨T1, h1, h2, h3, h4⟩ := eraseLoop_spec m.Hasher _ m.Table.length m.Table i i
    (repair_init hm hi) ⟨e, he, hen, by
      have a1 := cdist_cases m.Table.length i e
      omega⟩
  have hlen := List.length_eraseP_of_mem (p := fun x : Nat × K × V => x.1 == a) hmem (by simp)
  have hpos := List.length_pos_of_mem hmem
  have hcn := hm.count_nodes
  refine ⟨{ m with Nodes := m.Nodes.eraseP (fun x => x.1 == a),
                   NodeCount := m.NodeCount - 1, Table := T1 }, ?_, ?_, rfl, ?_, rfl, h2, rfl⟩
  · unfold HashMap.erase
    rw [if_neg (by omega), hs]
    simp only [hi, h1]
  · have hl := hm.load
    constructor
    · show 0 < T1.length
      omega
    · show (m.NodeCount - 1) * LoadFactor ≤ T1.length
      unfold LoadFactor at *
      omega
    · show m.NodeCount - 1 = (m.Nodes.eraseP (fun x => x.1 == a)).length
      omega
    · show T1.countP (fun x => x.isSome) = m.NodeCount - 1
      omega
    · exact hm.sorted.sublist (List.eraseP_sublist _)
    · intro n hn
      exact hm.below n ((List.eraseP_sublist _).subset hn)
    · exact h3
  · show m.NodeCount - 1 + 1 = m.NodeCount
    omega

/-! ### `operator[]`, `at` and the remaining operations -/

theorem indexLoop_of_find_some [Inhabited V] (m : HashMap K V) (Key : K) (a : Nat) :
    ∀ (fuel s : Nat), HashMap.findLoop m.Nodes m.Table Key fuel s = some (some a) →
      HashMap.indexLoop m Key fuel s = some (m, a) := by
  intro fuel
  induction fuel with
  | zero => intro s h; simp [HashMap.findLoop] at h
  | succ f ih =>
    intro s h
    rw [HashMap.findLoop] at h
    rw [HashMap.indexLoop]
    cases hc : m.Table[s]? with
    | none => rw [hc] at h; simp at h
    | some x =>
      cases x with
      | none => rw [hc] at h; simp at h
      | some b =>
        rw [hc] at h
        simp only at h ⊢
        cases hn : nodeAt m.Nodes b with
        | none => rw [hn] at h; simp at h
        | some nd =>
          rw [hn] at h
          simp only at h ⊢
          by_cases hk : nd.1 = Key
          · rw [if_pos hk] at h ⊢
            simp at h
            rw [h]
          · rw [if_neg hk] at h ⊢
            exact ih _ h

theorem indexLoop_of_find_none [Inhabited V] (m : HashMap K V) (Key : K) :
    ∀ (fuel s : Nat), HashMap.findLoop m.Nodes m.Table Key fuel s = some none →
      HashMap.indexLoop m Key fuel s =
        (match m.insert (Key, default) with
         | none => none
         | some m1 =>
           match m1.find Key with
           | some (some a) => if (nodeAt m1.Nodes a).isSome then some (m1, a) else none
           | _ => none) := by
  intro fuel
  induction fuel with
  | zero => intro s h; simp [HashMap.findLoop] at h
  | succ f ih =>
    intro s h
    rw [HashMap.findLoop] at h
    rw [HashMap.indexLoop]
    cases hc : m.Table[s]? with
    | none => rw [hc] at h; simp at h
    | some x =>
      cases x with
      | none => rfl
      | some b =>
        rw [hc] at h
        simp only at h ⊢
        cases hn : nodeAt m.Nodes b with
        | none => rw [hn] at h; simp at h
        | some nd =>
          rw [hn] at h
          simp only at h ⊢
          by_cases hk : nd.1 = Key
          · rw [if_pos hk] at h; simp at h
          · rw [if_neg hk] at h ⊢
            exact ih _ h

theorem atLoop_eq (Nodes : List (Nat × K × V)) (T : List NodeIter) (Key : K) :
    ∀ (fuel s : Nat), HashMap.atLoop Nodes T Key fuel s =
      (match HashMap.findLoop Nodes T Key fuel s with
       | none => none
       | some none => some (Except.error Error.out_of_range)
       | some (some a) => (nodeAt Nodes a).map (fun nd => Except.ok nd.2)) := by
  intro fuel
  induction fuel with
  | zero => intro s; rfl
  | succ f ih =>
    intro s
    rw [HashMap.findLoop, HashMap.atLoop]
    cases hc : T[s]? with
    | none => rfl
    | some x =>
      cases x with
      | none => rfl
      | some b =>
        simp only
        cases hn : nodeAt Nodes b with
        | none => rfl
        | some nd =>
          simp only
          by_cases hk : nd.1 = Key
          · rw [if_pos hk, if_pos hk]
            simp [hn]
          · rw [if_neg hk, if_neg hk]
            exact ih _

theorem firstIter_ne_none {Nodes : List (Nat × K × V)} {Key : K} {a : Nat} {v : V}
    (h : (a, Key, v) ∈ Nodes) : firstIter Nodes Key ≠ none := by
  intro hn
  exact firstIter_none hn a v h

theorem insert_spec {m : HashMap K V} (hm : WF m) (nd : K × V) :
    ∃ m1, m.insert nd = some m1 ∧ WF m1 ∧
      m1.entries = m.entries ++ [nd] ∧ m1.Hasher = m.Hasher ∧
      m1.NodeCount = m.NodeCount + 1 ∧
      m1.Table.length = (if (m.NodeCount + 1) * LoadFactor > m.Table.length
        then m.Table.length * LoadFactor else m.Table.length) ∧
      (¬ (m.NodeCount + 1) * LoadFactor > m.Table.length →
        m1.Nodes = m.Nodes ++ [(m.fresh, nd)]) :=
  insertAux_spec 1 hm nd

theorem resize_spec {m : HashMap K V} (hm : WF m) :
    ∃ m1, m.resize = some m1 ∧ WF m1 ∧
      m1.entries = m.entries ∧ m1.Table.length = m.Table.length * LoadFactor ∧
      m1.Hasher = m.Hasher ∧ m1.NodeCount = m.NodeCount :=
  resizeWith_spec 1 hm

theorem mem_entries {m : HashMap K V} {e : K × V} (h : e ∈ m.entries) :
    ∃ a, (a, e) ∈ m.Nodes := by
  unfold HashMap.entries at h
  obtain ⟨n, hn, rfl⟩ := List.mem_map.mp h
  exact ⟨n.1, hn⟩

theorem index_present [Inhabited V] {m : HashMap K V} (hm : WF m) {Key : K} {a : Nat}
    (h : firstIter m.Nodes Key = some a) : m.index Key = some (m, a) := by
  have hf := find_spec hm Key
  rw [h] at hf
  have hc := hm.cap_pos
  unfold HashMap.find at hf
  rw [if_neg (by omega)] at hf
  unfold HashMap.index
  rw [if_neg (by omega)]
  exact indexLoop_of_find_some m Key a _ _ hf

theorem index_absent [Inhabited V] {m : HashMap K V} (hm : WF m) {Key : K}
    (h : firstIter m.Nodes Key = none) :
    ∃ m1 a, m.insert (Key, default) = some m1 ∧ m.index Key = some (m1, a) ∧
      m1.find Key = some (some a) := by
  have hf := find_spec hm Key
  rw [h] at hf
  have hc := hm.cap_pos
  unfold HashMap.find at hf
  rw [if_neg (by omega)] at hf
  obtain ⟨m1, hins, hw, hent, _⟩ := insert_spec hm (Key, default)
  have hmem : (Key, (default : V)) ∈ m1.entries := by rw [hent]; simp
  obtain ⟨b, hb⟩ := mem_entries hmem
  have hf1 := find_spec hw Key
  cases hfi : firstIter m1.Nodes Key with
  | none => exact absurd hfi (firstIter_ne_none hb)
  | some a =>
    rw [hfi] at hf1
    obtain ⟨v, hv⟩ := firstIter_some hfi
    refine ⟨m1, a, hins, ?_, hf1⟩
    unfold HashMap.index
    rw [if_neg (by omega), indexLoop_of_find_none m Key _ _ hf, hins]
    simp only [hf1, nodeAt_of_mem hw.sorted hv]
    rfl

theorem vecResize_nil (n : Nat) : vecResize [] n none = List.replicate n none := by
  simp [vecResize]

theorem vecResize_replicate (a n : Nat) (h : a ≤ n) :
    vecResize (List.replicate a none) n none = List.replicate n none := by
  unfold vecResize
  rw [List.take_replicate, List.length_replicate, ← List.replicate_add]
  congr 1
  omega

/-- Inserting a list of nodes one by one into a well-formed map. -/
theorem insertAll_spec (l : List (K × V)) :
    ∀ (m : HashMap K V), WF m →
      ∃ m1, l.foldlM HashMap.insert m = some m1 ∧ WF m1 ∧ m1.entries = m.entries ++ l ∧
        m1.Hasher = m.Hasher ∧ m1.NodeCount = m.NodeCount + l.length := by
  induction l with
  | nil =>
    intro m hm
    exact ⟨m, rfl, hm, by simp, rfl, rfl⟩
  | cons x xs ih =>
    intro m hm
    obtain ⟨m1, hins, hw, hent, hh, hcnt, _⟩ := insert_spec hm x
    obtain ⟨m2, hf, hw2, hent2, hh2, hcnt2⟩ := ih m1 hw
    refine ⟨m2, ?_, hw2, ?_, by rw [hh2, hh], ?_⟩
    · rw [List.foldlM_cons, hins]
      exact hf
    · rw [hent2, hent]; simp
    · rw [hcnt2, hcnt]
      simp only [List.length_cons]
      omega

/-- The constructors that pre-size the table: no insert resizes. -/
theorem presized_spec (Hasher : K → Nat) (f n : Nat) (l : List (K × V))
    (hn : (l.length + 1) * LoadFactor ≤ n) :
    ∃ m1, l.foldlM HashMap.insert
        ({ Hasher := Hasher, NodeCount := 0, Nodes := [], Table := List.replicate n none,
           fresh := f } : HashMap K V) = some m1 ∧
      WF m1 ∧ m1.entries = l ∧ m1.Table.length = n ∧ m1.Hasher = Hasher ∧
      m1.NodeCount = l.length := by
  have h0 : WF ({ Hasher := Hasher, NodeCount := 0, Nodes := [],
                  Table := List.replicate n none, fresh := f } : HashMap K V) :=
    wf_fresh_table Hasher n f (by unfold LoadFactor at hn; omega)
  obtain ⟨m1, hf, hw, hent, hlen, hh, hcnt⟩ := reinsert_spec 2 l _ h0 (by
    simp only [List.length_replicate]
    unfold LoadFactor at *
    omega)
  refine ⟨m1, hf, hw, ?_, ?_, hh, ?_⟩
  · rw [hent]; rfl
  · rw [hlen]; simp
  · rw [hcnt]; simp

theorem ctorRange_spec (l : List (K × V)) (Hasher : K → Nat) :
    ∃ m1, HashMap.ctorRange l Hasher = some m1 ∧ WF m1 ∧ m1.entries = l ∧
      m1.Table.length = max ((l.length + 1) * LoadFactor) InitSize ∧ m1.Hasher = Hasher ∧
      m1.NodeCount = l.length := by
  unfold HashMap.ctorRange
  simp only [vecResize_nil]
  exact presized_spec Hasher 0 _ l (Nat.le_max_left _ _)

theorem ctorInitList_spec (l : List (K × V)) (Hasher : K → Nat) :
    ∃ m1, HashMap.ctorInitList l Hasher = some m1 ∧ WF m1 ∧ m1.entries = l ∧
      m1.Table.length = max ((l.length + 1) * LoadFactor) InitSize ∧ m1.Hasher = Hasher ∧
      m1.NodeCount = l.length := by
  unfold HashMap.ctorInitList
  simp only [vecResize_nil]
  exact presized_spec Hasher 0 _ l (Nat.le_max_left _ _)

theorem entries_length {m : HashMap K V} (hm : WF m) : m.entries.length = m.NodeCount := by
  unfold HashMap.entries
  rw [List.length_map, hm.count_nodes]

theorem ctorCopy_spec (dflt : K → Nat) {other : HashMap K V} (ho : WF other) :
    ∃ m1, HashMap.ctorCopy dflt other = some m1 ∧ WF m1 ∧ m1.entries = other.entries ∧
      m1.Table.length = max ((other.NodeCount + 1) * LoadFactor) InitSize ∧
      m1.Hasher = dflt ∧ m1.NodeCount = other.NodeCount := by
  unfold HashMap.ctorCopy HashMap.clear
  simp only [vecResize_replicate _ _ (Nat.le_max_right _ _)]
  have := presized_spec dflt 0 (max ((other.NodeCount + 1) * LoadFactor) InitSize)
    other.entries (by rw [entries_length ho]; exact Nat.le_max_left _ _)
  rw [entries_length ho] at this
  exact this

theorem assign_spec (this : HashMap K V) {other : HashMap K V} (ho : WF other) :
    ∃ m1, this.assign other = some m1 ∧ WF m1 ∧ m1.entries = other.entries ∧
      m1.Table.length = max ((other.NodeCount + 1) * LoadFactor) InitSize ∧
      m1.Hasher = this.Hasher ∧ m1.NodeCount = other.NodeCount := by
  unfold HashMap.assign HashMap.clear
  simp only [vecResize_replicate _ _ (Nat.le_max_right _ _)]
  have := presized_spec this.Hasher this.fresh
    (max ((other.NodeCount + 1) * LoadFactor) InitSize)
    other.entries (by rw [entries_length ho]; exact Nat.le_max_left _ _)
  rw [entries_length ho] at this
  exact this

theorem mem_setValue_back {Nodes : List (Nat × K × V)} {a : Nat} {v : V} {b : Nat} {k : K}
    {w : V}
    (h : (b, k, w) ∈ Nodes.map (fun n => if n.1 = a then (n.1, n.2.1, v) else n)) :
    ∃ w0, (b, k, w0) ∈ Nodes := by
  obtain ⟨n, hn, he⟩ := List.mem_map.mp h
  obtain ⟨n1, n2, n3⟩ := n
  by_cases hc : n1 = a
  · simp only [hc, if_true] at he
    simp only [Prod.mk.injEq] at he
    obtain ⟨h1, h2, _⟩ := he
    rw [hc, h1, h2] at hn
    exact ⟨n3, hn⟩
  · simp only [hc, if_false] at he
    rw [he] at hn
    exact ⟨w, hn⟩

theorem mem_setValue_fwd {Nodes : List (Nat × K × V)} {a : Nat} {v : V} {b : Nat}
    {nd : K × V} (h : (b, nd) ∈ Nodes) :
    ∃ nd1, (b, nd1) ∈ Nodes.map (fun n => if n.1 = a then (n.1, n.2.1, v) else n) := by
  by_cases hc : b = a
  · refine ⟨(nd.1, v), List.mem_map.mpr ⟨(b, nd), h, ?_⟩⟩
    simp [hc]
  · exact ⟨nd, List.mem_map.mpr ⟨(b, nd), h, by simp [hc]⟩⟩

theorem setValue_wf {m : HashMap K V} (hm : WF m) (a : Nat) (v : V) : WF (m.setValue a v) := by
  have hfst : ∀ n : Nat × K × V, (if n.1 = a then (n.1, n.2.1, v) else n).1 = n.1 := by
    intro n; split <;> rfl
  constructor
  · exact hm.cap_pos
  · exact hm.load
  · show m.NodeCount = (m.Nodes.map _).length
    rw [List.length_map]; exact hm.count_nodes
  · exact hm.count_cells
  · show (m.Nodes.map _).Pairwise _
    rw [List.pairwise_map]
    refine hm.sorted.imp ?_
    intro x y hxy
    rw [hfst x, hfst y]
    exact hxy
  · intro n hn
    obtain ⟨n0, hn0, he⟩ := List.mem_map.mp hn
    rw [← he, hfst]
    exact hm.below n0 hn0
  · constructor
    · intro i b _ hi
      obtain ⟨nd, hnd⟩ := hm.slots.live i b (by simp) hi
      exact mem_setValue_fwd hnd
    · intro i j b _ _ hi hj
      exact hm.slots.inj i j b (by simp) (by simp) hi hj
    · intro n hn
      obtain ⟨n0, hn0, he⟩ := List.mem_map.mp hn
      obtain ⟨i, _, hi⟩ := hm.slots.cell n0 hn0
      refine ⟨i, by simp, ?_⟩
      rw [← he, hfst]
      exact hi
    · intro i b k w _ hi hmem j hj _ hlt
      obtain ⟨w0, hw0⟩ := mem_setValue_back hmem
      exact hm.slots.chain i b k w0 (by simp) hi hw0 j hj (by simp) hlt
    · intro i j b1 b2 k w1 w2 _ _ hi hj h1 h2 hlt
      obtain ⟨u1, hu1⟩ := mem_setValue_back h1
      obtain ⟨u2, hu2⟩ := mem_setValue_back h2
      exact hm.slots.order i j b1 b2 k u1 u2 (by simp) (by simp) hi hj hu1 hu2 hlt

/-- Every state reachable through the public interface satisfies the representation
invariant. -/
theorem reachable_wf [Inhabited V] {m : HashMap K V} (h : Reachable m) : WF m := by
  induction h with
  | ctor Hasher_ => exact wf_fresh_table Hasher_ InitSize 0 (by decide)
  | ctorRange l Hasher_ m h =>
    obtain ⟨m1, h1, hw, _⟩ := ctorRange_spec l Hasher_
    rw [h] at h1
    cases h1
    exact hw
  | ctorInitList l Hasher_ m h =>
    obtain ⟨m1, h1, hw, _⟩ := ctorInitList_spec l Hasher_
    rw [h] at h1
    cases h1
    exact hw
  | ctorCopy dflt other m _ h ih =>
    obtain ⟨m1, h1, hw, _⟩ := ctorCopy_spec dflt ih
    rw [h] at h1
    cases h1
    exact hw
  | assign this other m _ _ h _ ih2 =>
    obtain ⟨m1, h1, hw, _⟩ := assign_spec this ih2
    rw [h] at h1
    cases h1
    exact hw
  | insert m nd m1 _ h ih =>
    obtain ⟨m2, h1, hw, _⟩ := insert_spec ih nd
    rw [h] at h1
    cases h1
    exact hw
  | erase m Key m1 _ h ih =>
    cases hf : firstIter m.Nodes Key with
    | none =>
      rw [erase_absent ih hf] at h
      cases h
      exact ih
    | some a =>
      obtain ⟨m2, h1, hw, _⟩ := erase_present ih hf
      rw [h] at h1
      cases h1
      exact hw
  | index m Key m1 a _ h ih =>
    cases hf : firstIter m.Nodes Key with
    | none =>
      obtain ⟨m2, b, hins, hidx, _⟩ := index_absent ih hf
      rw [h] at hidx
      cases hidx
      obtain ⟨m3, h1, hw, _⟩ := insert_spec ih (Key, default)
      rw [hins] at h1
      cases h1
      exact hw
    | some b =>
      rw [index_present ih hf] at h
      cases h
      exact ih
  | clear m _ _ => exact wf_fresh_table m.Hasher InitSize m.fresh (by decide)
  | resize m m1 _ h ih =>
    obtain ⟨m2, h1, hw, _⟩ := resize_spec ih
    rw [h] at h1
    cases h1
    exact hw
  | setValue m a v _ ih => exact setValue_wf ih a v

/-- On a well-formed map the entry found for `Key` is the first entry, in iteration order,
whose key is `Key`. -/
theorem findEntry_spec {m : HashMap K V} (hm : WF m) (Key : K) :
    m.findEntry Key = some (m.entries.find? (fun e => decide (e.1 = Key))) := by
  unfold HashMap.findEntry
  rw [find_spec hm Key]
  unfold HashMap.entries
  rw [List.find?_map]
  unfold firstIter
  have hcomp : ((fun e : K × V => decide (e.1 = Key)) ∘ fun n : Nat × K × V => n.2)
      = fun n : Nat × K × V => decide (n.2.1 = Key) := rfl
  rw [hcomp]
  cases hf : m.Nodes.find? (fun n => decide (n.2.1 = Key)) with
  | none => rfl
  | some n =>
    have hmem := List.mem_of_find?_eq_some hf
    simp only [Option.map_some']
    rw [nodeAt_of_mem hm.sorted (show (n.1, n.2) ∈ m.Nodes from hmem)]
    rfl

/-! ### Step budget of the probing loops

A loop that returns within its budget returns the same result under every larger budget. -/

theorem insertLoop_mono (T : List NodeIter) :
    ∀ (fuel s r : Nat), HashMap.insertLoop T fuel s = some r →
      HashMap.insertLoop T (fuel + 1) s = some r := by
  intro fuel
  induction fuel with
  | zero => intro s r h; simp [HashMap.insertLoop] at h
  | succ f ih =>
    intro s r h
    rw [HashMap.insertLoop] at h ⊢
    cases hc : T[s]? with
    | none => rw [hc] at h; simp at h
    | some x =>
      cases x with
      | none => rw [hc] at h; exact h
      | some b =>
        rw [hc] at h
        exact ih _ _ h

theorem findLoop_mono (Nodes : List (Nat × K × V)) (T : List NodeIter) (Key : K) :
    ∀ (fuel s : Nat) (r : NodeIter), HashMap.findLoop Nodes T Key fuel s = some r →
      HashMap.findLoop Nodes T Key (fuel + 1) s = some r := by
  intro fuel
  induction fuel with
  | zero => intro s r h; simp [HashMap.findLoop] at h
  | succ f ih =>
    intro s r h
    rw [HashMap.findLoop] at h ⊢
    cases hc : T[s]? with
    | none => rw [hc] at h; simp at h
    | some x =>
      cases x with
      | none => rw [hc] at h; exact h
      | some b =>
        rw [hc] at h
        simp only at h ⊢
        cases hn : nodeAt Nodes b with
        | none => rw [hn] at h; simp at h
        | some nd =>
          rw [hn] at h
          simp only at h ⊢
          by_cases hk : nd.1 = Key
          · rw [if_pos hk] at h ⊢; exact h
          · rw [if_neg hk] at h ⊢; exact ih _ _ h

theorem eraseSearch_mono (Nodes : List (Nat × K × V)) (T : List NodeIter) (Key : K) :
    ∀ (fuel s : Nat) (r : Option Nat), HashMap.eraseSearch Nodes T Key fuel s = some r →
      HashMap.eraseSearch Nodes T Key (fuel + 1) s = some r := by
  intro fuel
  induction fuel with
  | zero => intro s r h; simp [HashMap.eraseSearch] at h
  | succ f ih =>
    intro s r h
    rw [HashMap.eraseSearch] at h ⊢
    cases hc : T[s]? with
    | none => rw [hc] at h; simp at h
    | some x =>
      cases x with
      | none => rw [hc] at h; exact h
      | some b =>
        rw [hc] at h
        simp only at h ⊢
        cases hn : nodeAt Nodes b with
        | none => rw [hn] at h; simp at h
        | some nd =>
          rw [hn] at h
          simp only at h ⊢
          by_cases hk : nd.1 = Key
          · rw [if_pos hk] at h ⊢; exact h
          · rw [if_neg hk] at h ⊢; exact ih _ _ h

theorem eraseLoop_mono (Hasher : K → Nat) (Nodes : List (Nat × K × V)) :
    ∀ (fuel : Nat) (T : List NodeIter) (Last Index0 : Nat) (r : List NodeIter),
      HashMap.eraseLoop Hasher Nodes fuel T Last Index0 = some r →
      HashMap.eraseLoop Hasher Nodes (fuel + 1) T Last Index0 = some r := by
  intro fuel
  induction fuel with
  | zero => intro T Last Index0 r h; simp [HashMap.eraseLoop] at h
  | succ f ih =>
    intro T Last Index0 r h
    rw [HashMap.eraseLoop] at h ⊢
    cases hc : T[(Index0 + 1) % T.length]? with
    | none => rw [hc] at h; simp at h
    | some x =>
      cases x with
      | none => rw [hc] at h; exact h
      | some b =>
        simp only [hc] at h ⊢
        cases hn : nodeAt Nodes b with
        | none => rw [hn] at h; simp at h
        | some nd =>
          simp only [hn] at h ⊢
          split
          · rename_i hcond
            rw [if_pos hcond] at h
            exact ih _ _ _ _ h
          · rename_i hcond
            rw [if_neg hcond] at h
            exact ih _ _ _ _ h

/-! ### Call depth of `insert` -/

theorem foldlM_insertAux_mono (d : Nat)
    (ih : ∀ (m : HashMap K V) (nd : K × V) (r : HashMap K V),
      HashMap.insertAux d m nd = some r → HashMap.insertAux (d + 1) m nd = some r)
    (l : List (K × V)) :
    ∀ (m r : HashMap K V), l.foldlM (HashMap.insertAux d) m = some r →
      l.foldlM (HashMap.insertAux (d + 1)) m = some r := by
  induction l with
  | nil => intro m r h; exact h
  | cons x xs ihl =>
    intro m r h
    rw [List.foldlM_cons] at h ⊢
    cases hx : HashMap.insertAux d m x with
    | none => rw [hx] at h; cases h
    | some m1 =>
      rw [hx] at h
      rw [ih m x m1 hx]
      exact ihl m1 r h

/-- A larger bound on the call depth does not change what `insert` returns. -/
theorem insertAux_mono (d : Nat) :
    ∀ (m : HashMap K V) (nd : K × V) (r : HashMap K V),
      HashMap.insertAux d m nd = some r → HashMap.insertAux (d + 1) m nd = some r := by
  induction d with
  | zero => intro m nd r h; simp [HashMap.insertAux] at h
  | succ d ih =>
    intro m nd r h
    by_cases hc : (m.NodeCount + 1) * LoadFactor > m.Table.length
    · rw [insertAux_resize _ _ _ hc] at h ⊢
      cases hr : HashMap.resizeWith (HashMap.insertAux d) m with
      | none => rw [hr] at h; cases h
      | some m1 =>
        rw [hr] at h
        have : HashMap.resizeWith (HashMap.insertAux (d + 1)) m = some m1 :=
          foldlM_insertAux_mono d ih _ _ _ hr
        rw [this]
        exact h
    · rw [insertAux_noresize _ _ _ (by omega)] at h ⊢
      exact h

theorem insertAux_mono_add (e d : Nat) (m : HashMap K V) (nd : K × V) (r : HashMap K V)
    (h : HashMap.insertAux d m nd = some r) : HashMap.insertAux (d + e) m nd = some r := by
  induction e with
  | zero => exact h
  | succ e ih => exact insertAux_mono (d + e) m nd r ih

theorem foldlM_insertAux_mono_add (e d : Nat) (l : List (K × V)) (m r : HashMap K V)
    (h : l.foldlM (HashMap.insertAux d) m = some r) :
    l.foldlM (HashMap.insertAux (d + e)) m = some r := by
  induction e with
  | zero => exact h
  | succ e ih => exact foldlM_insertAux_mono (d + e) (insertAux_mono (d + e)) l m r ih

theorem foldlM_insertAux_wf (l : List (K × V)) :
    ∀ (m : HashMap K V), WF m → ∃ r, l.foldlM (HashMap.insertAux 2) m = some r := by
  induction l with
  | nil => intro m _; exact ⟨m, rfl⟩
  | cons x xs ih =>
    intro m hm
    obtain ⟨m1, h1, hw, _⟩ := insertAux_spec 0 hm x
    obtain ⟨r, hr⟩ := ih m1 hw
    exact ⟨r, by rw [List.foldlM_cons, h1]; exact hr⟩

/-- The body of `resize` returns the same result for every bound of at least 2 on the depth of
the inserts it calls, on every state. -/
theorem resizeWith_depth (d : Nat) (m : HashMap K V) :
    HashMap.resizeWith (HashMap.insertAux (d + 2)) m
      = HashMap.resizeWith (HashMap.insertAux 2) m := by
  unfold HashMap.resizeWith
  by_cases hc : 0 < m.Table.length
  · have h0 : WF ({ Hasher := m.Hasher, NodeCount := 0, Nodes := [],
                    Table := List.replicate (m.Table.length * LoadFactor) none,
                    fresh := m.fresh } : HashMap K V) :=
      wf_fresh_table m.Hasher _ m.fresh (by unfold LoadFactor; omega)
    obtain ⟨r, hr⟩ := foldlM_insertAux_wf (m.Nodes.map (fun n => n.2)) _ h0
    have h2 := foldlM_insertAux_mono_add d 2 _ _ _ hr
    rw [Nat.add_comm 2 d] at h2
    exact h2.trans hr.symm
  · have hz : m.Table.length = 0 := by omega
    cases hl : m.Nodes.map (fun n => n.2) with
    | nil => rfl
    | cons x xs =>
      have hnone : ∀ e, HashMap.insertAux (e + 2)
          ({ Hasher := m.Hasher, NodeCount := 0, Nodes := [],
             Table := List.replicate (m.Table.length * LoadFactor) none,
             fresh := m.fresh } : HashMap K V) x = none := by
        intro e
        rw [insertAux_resize _ _ _ (by simp [hz, LoadFactor])]
        simp [HashMap.resizeWith, HashMap.place, hz]
      simp only [List.foldlM_cons]
      rw [hnone d, hnone 0]
      rfl

/-- The function `insert` returns the same result for every bound of at least 3 on the call
depth, on every state. -/
theorem insertAux_depth (d : Nat) (m : HashMap K V) (nd : K × V) :
    HashMap.insertAux (d + 3) m nd = m.insert nd := by
  unfold HashMap.insert
  by_cases hc : (m.NodeCount + 1) * LoadFactor > m.Table.length
  · rw [insertAux_resize _ _ _ hc, insertAux_resize _ _ _ hc, resizeWith_depth]
  · rw [insertAux_noresize _ _ _ (by omega), insertAux_noresize _ _ _ (by omega)]

/-! ### List-level facts behind the claims -/

theorem findEntry_eq_some {m : HashMap K V} {Key : K} {e : K × V} :
    m.findEntry Key = some (some e) ↔
      ∃ a, m.find Key = some (some a) ∧ m.deref (some a) = some e := by
  unfold HashMap.findEntry HashMap.deref
  cases hf : m.find Key with
  | none => simp
  | some it =>
    cases it with
    | none => simp
    | some a =>
      simp only [Option.some.injEq, exists_eq_left']
      cases nodeAt m.Nodes a <;> simp

theorem findEntry_eq_end {m : HashMap K V} {Key : K} :
    m.findEntry Key = some none ↔ m.find Key = some none := by
  unfold HashMap.findEntry
  cases hf : m.find Key with
  | none => simp
  | some it =>
    cases it with
    | none => simp
    | some a => cases nodeAt m.Nodes a <;> simp

theorem find?_key_of_nodup {l : List (K × V)} (hd : (l.map (fun p => p.1)).Nodup)
    {p : K × V} (hp : p ∈ l) : l.find? (fun e => decide (e.1 = p.1)) = some p := by
  induction l with
  | nil => cases hp
  | cons x xs ih =>
    rw [List.map_cons, List.nodup_cons] at hd
    rw [List.find?_cons]
    rcases List.mem_cons.mp hp with h | h
    · rw [← h]; simp
    · have hne : x.1 ≠ p.1 := by
        intro he
        apply hd.1
        rw [he]
        exact List.mem_map.mpr ⟨p, h, rfl⟩
      have : decide (x.1 = p.1) = false := by simp [hne]
      rw [this]
      exact ih hd.2 h

theorem firstIter_eraseP {Nodes : List (Nat × K × V)}
    (hs : Nodes.Pairwise (fun x y => x.1 < y.1)) {a0 : Nat} {k k1 : K} {v0 : V}
    (hmem : (a0, k, v0) ∈ Nodes) (hne : k1 ≠ k) :
    firstIter (Nodes.eraseP (fun x => x.1 == a0)) k1 = firstIter Nodes k1 := by
  induction Nodes with
  | nil => rfl
  | cons x xs ih =>
    rw [List.eraseP_cons]
    by_cases hx : x.1 = a0
    · have hxa : (x.1 == a0) = true := by simp [hx]
      rw [hxa]
      simp only [cond_true]
      have hxm : (a0, x.2.1, x.2.2) ∈ x :: xs := by
        rw [← hx]; exact List.mem_cons_self _ _
      have hk := (key_unique hs hxm hmem).1
      unfold firstIter
      rw [List.find?_cons]
      have : decide (x.2.1 = k1) = false := by
        simp
        rw [hk]
        exact fun h => hne h.symm
      rw [this]
    · have hxa : (x.1 == a0) = false := by simp [hx]
      rw [hxa]
      simp only [cond_false]
      have hmem1 : (a0, k, v0) ∈ xs := by
        rcases List.mem_cons.mp hmem with h | h
        · rw [← h] at hx; exact absurd rfl hx
        · exact h
      have := ih (List.pairwise_cons.mp hs).2 hmem1
      unfold firstIter at this ⊢
      rw [List.find?_cons, List.find?_cons]
      cases decide (x.2.1 = k1)
      · exact this
      · rfl

theorem nodeAt_eraseP {Nodes : List (Nat × K × V)}
    (hs : Nodes.Pairwise (fun x y => x.1 < y.1)) {a0 a : Nat} {nd : K × V}
    (hmem : (a, nd) ∈ Nodes) (hne : a ≠ a0) :
    nodeAt (Nodes.eraseP (fun x => x.1 == a0)) a = some nd := by
  apply nodeAt_of_mem (hs.sublist (List.eraseP_sublist _))
  exact (List.mem_eraseP_of_neg (by simpa using hne)).mpr hmem

theorem node_of_find {m : HashMap K V} (hm : WF m) {Key : K} {a : Nat}
    (h : m.find Key = some (some a)) :
    firstIter m.Nodes Key = some a ∧ ∃ v, (a, Key, v) ∈ m.Nodes := by
  rw [find_spec hm Key] at h
  simp only [Option.some.injEq] at h
  exact ⟨h, firstIter_some h⟩

theorem absent_of_find {m : HashMap K V} (hm : WF m) {Key : K}
    (h : m.find Key = some none) : firstIter m.Nodes Key = none := by
  rw [find_spec hm Key] at h
  simpa using h

theorem keys_eq (m : HashMap K V) :
    m.entries.map (fun p => p.1) = m.Nodes.map (fun n => n.2.1) := by
  unfold HashMap.entries
  rw [List.map_map]
  rfl

/-- Erasing a key leaves the lookup of every other key alone, iterator and entry. -/
theorem erase_keeps_others {m : HashMap K V} (hm : WF m) (k k1 : K) (hne : k1 ≠ k) (a : Nat)
    (e : K × V) (hf : m.find k1 = some (some a)) (he : m.deref (some a) = some e) :
    ∃ m1, m.erase k = some m1 ∧ m1.find k1 = some (some a) ∧ m1.deref (some a) = some e := by
  cases hk : firstIter m.Nodes k with
  | none => exact ⟨m, erase_absent hm hk, hf, he⟩
  | some a0 =>
    obtain ⟨m1, her, hw, hn, _⟩ := erase_present hm hk
    obtain ⟨v0, hv0⟩ := firstIter_some hk
    obtain ⟨hfi, v, hv⟩ := node_of_find hm hf
    have hne2 : a ≠ a0 := by
      intro h
      rw [h] at hv
      exact hne (key_unique hm.sorted hv hv0).1
    refine ⟨m1, her, ?_, ?_⟩
    · rw [find_spec hw k1, hn, firstIter_eraseP hm.sorted hv0 hne, hfi]
    · have h1 : nodeAt m.Nodes a = some e := he
      have h2 := mem_of_nodeAt h1
      show nodeAt m1.Nodes a = some e
      rw [hn]
      exact nodeAt_eraseP hm.sorted h2 hne2

/-- After `erase(k)` the key `k` is gone when at most one entry held it; the count drops by one
exactly when `k` was found. -/
theorem erase_single {m : HashMap K V} (hm : WF m) (k : K) :
    ∃ m1, m.erase k = some m1 ∧
      (m.entries.countP (fun e => decide (e.1 = k)) ≤ 1 → m1.find k = some none) ∧
      ((∃ a, m.find k = some (some a)) → m1.size + 1 = m.size) ∧
      (m.find k = some none → m1.size = m.size) := by
  cases hk : firstIter m.Nodes k with
  | none =>
    refine ⟨m, erase_absent hm hk, ?_, ?_, fun _ => rfl⟩
    · intro _
      rw [find_spec hm k, hk]
    · rintro ⟨a, ha⟩
      rw [find_spec hm k, hk] at ha
      cases ha
  | some a0 =>
    obtain ⟨m1, her, hw, hn, hcnt, _⟩ := erase_present hm hk
    obtain ⟨v0, hv0⟩ := firstIter_some hk
    refine ⟨m1, her, ?_, fun _ => hcnt, ?_⟩
    · intro hone
      obtain ⟨x, l1, l2, _, hx, hsplit, her2⟩ :=
        List.exists_of_eraseP (p := fun x : Nat × K × V => x.1 == a0) hv0 (by simp)
      have hxm : x ∈ m.Nodes := by rw [hsplit]; simp
      obtain ⟨x1, x2, x3⟩ := x
      simp only [beq_iff_eq] at hx
      rw [hx] at hxm hsplit
      obtain ⟨hk2, _⟩ := key_unique hm.sorted hxm hv0
      rw [hk2] at hsplit
      have hm1 : m1.entries = l1.map (fun n => n.2) ++ l2.map (fun n => n.2) := by
        unfold HashMap.entries
        rw [hn, her2, List.map_append]
      have hm0 : m.entries = l1.map (fun n => n.2) ++ (k, x3) :: l2.map (fun n => n.2) := by
        unfold HashMap.entries
        rw [hsplit, List.map_append, List.map_cons]
      rw [hm0, List.countP_append, List.countP_cons] at hone
      simp only [decide_True, if_true] at hone
      have hzero : (l1.map (fun n => n.2) ++ l2.map (fun n => n.2)).countP
          (fun e => decide (e.1 = k)) = 0 := by
        rw [List.countP_append]
        omega
      apply findEntry_eq_end.mp
      rw [findEntry_spec hw k, hm1]
      congr 1
      rw [List.find?_eq_none]
      exact List.countP_eq_zero.mp hzero
    · intro h
      rw [find_spec hm k, hk] at h
      cases h

/-! ### Example states -/

theorem collideMap_reachable : Reachable collideMap := by
  have h0 : Reachable (HashMap.ctor (fun k => k) : HashMap Nat Nat) := Reachable.ctor _
  have h1 : Reachable (HashMap.mk (fun k : Nat => k) 1 [(0, 1, 100)]
      [none, some 0, none, none, none, none, none, none, none, none] 1) :=
    Reachable.insert _ (1, 100) _ h0 (by rfl)
  have h2 : Reachable (HashMap.mk (fun k : Nat => k) 2 [(0, 1, 100), (1, 11, 110)]
      [none, some 0, some 1, none, none, none, none, none, none, none] 2) :=
    Reachable.insert _ (11, 110) _ h1 (by rfl)
  exact Reachable.insert _ (21, 120) collideMap h2 (by rfl)

theorem dupMap_reachable : Reachable dupMap := by
  have h0 : Reachable (HashMap.ctor (fun k => k) : HashMap Nat Nat) := Reachable.ctor _
  have h1 : Reachable (HashMap.mk (fun k : Nat => k) 1 [(0, 1, 0)]
      [none, some 0, none, none, none, none, none, none, none, none] 1) :=
    Reachable.insert _ (1, 0) _ h0 (by rfl)
  exact Reachable.insert _ (1, 5) dupMap h1 (by rfl)

/-- A `resize` re-creates the list nodes: in `collideMap` the key 11 is found in list cell 1
before `resize()` and in the new list cell 4 afterwards, and the old iterator no longer points
into the list. -/
theorem resize_renews_nodes_example :
    collideMap.find 11 = some (some 1) ∧
    ∃ m1, collideMap.resize = some m1 ∧ m1.find 11 = some (some 4) ∧
      m1.deref (some 4) = some (11, 110) ∧ m1.deref (some 1) = none :=
  ⟨by decide,
    HashMap.mk (fun k : Nat => k) 3 [(3, 1, 100), (4, 11, 110), (5, 21, 120)]
      [none, some 3, some 5, none, none, none, none, none, none, none,
       none, some 4, none, none, none, none, none, none, none, none] 6,
    by rfl, by decide, by decide, by decide⟩

/-! ### The claims -/

/-- Claim C1: inserting pairs with pairwise-distinct keys one by one into a default-constructed
map (capacity `InitSize = 10`, load factor 2, any hash function) returns every time, and in the
resulting map `size()` is the number of pairs and `find` of each inserted key returns an
iterator to the inserted pair, whatever number of resizes happened on the way. -/
theorem C1_insert_distinct (Hasher_ : K → Nat) (l : List (K × V))
    (hd : (l.map (fun p => p.1)).Nodup) :
    ∃ m, l.foldlM HashMap.insert (HashMap.ctor Hasher_) = some m ∧ m.size = l.length ∧
      ∀ p ∈ l, ∃ a, m.find p.1 = some (some a) ∧ m.deref (some a) = some p := by
  have h0 : WF (HashMap.ctor Hasher_ : HashMap K V) :=
    wf_fresh_table Hasher_ InitSize 0 (by decide)
  obtain ⟨m, hf, hw, hent, _, hcnt⟩ := insertAll_spec l _ h0
  refine ⟨m, hf, ?_, ?_⟩
  · show m.NodeCount = l.length
    rw [hcnt]
    show 0 + l.length = l.length
    omega
  · intro p hp
    apply findEntry_eq_some.mp
    rw [findEntry_spec hw, hent]
    show some (List.find? _ ([] ++ l)) = _
    rw [List.nil_append, find?_key_of_nodup hd hp]

theorem C1_insert_distinct_witness :
    ([((1 : Nat), (10 : Nat)), (11, 20), (21, 30), (2, 40), (5, 50), (7, 60)].map
        (fun p => p.1)).Nodup ∧
    ∃ m, [((1 : Nat), (10 : Nat)), (11, 20), (21, 30), (2, 40), (5, 50), (7, 60)].foldlM
        HashMap.insert (HashMap.ctor (fun k => k)) = some m ∧ m.size = 6 ∧
      ∀ p ∈ [((1 : Nat), (10 : Nat)), (11, 20), (21, 30), (2, 40), (5, 50), (7, 60)],
        ∃ a, m.find p.1 = some (some a) ∧ m.deref (some a) = some p :=
  ⟨by decide, C1_insert_distinct (fun k => k) _ (by decide)⟩

/-- Claim C2: probe-chain repair.  In a reachable map whose keys are pairwise distinct, for
every key `k` and every other live key `k1`, `erase(k)` returns and afterwards `find(k1)`
returns the same iterator as before, pointing to the same entry with the same value. -/
theorem C2_erase_keeps_others [Inhabited V] (m : HashMap K V) (hr : Reachable m)
    (hd : (m.entries.map (fun p => p.1)).Nodup) (k k1 : K) (hne : k1 ≠ k) (a : Nat)
    (e : K × V) (hf : m.find k1 = some (some a)) (he : m.deref (some a) = some e) :
    ∃ m1, m.erase k = some m1 ∧ m1.find k1 = some (some a) ∧ m1.deref (some a) = some e :=
  erase_keeps_others (reachable_wf hr) k k1 hne a e hf he

theorem C2_erase_keeps_others_witness :
    Reachable collideMap ∧ (collideMap.entries.map (fun p => p.1)).Nodup ∧
    collideMap.find 21 = some (some 2) ∧ collideMap.deref (some 2) = some (21, 120) ∧
    ∃ m1, collideMap.erase 1 = some m1 ∧ m1.find 21 = some (some 2) ∧
      m1.deref (some 2) = some (21, 120) :=
  ⟨collideMap_reachable, by decide, by decide, by decide,
    C2_erase_keeps_others collideMap collideMap_reachable (by decide) 1 21 (by decide) 2
      (21, 120) (by decide) (by decide)⟩

/-- Claim C3, as stated, fails: in the reachable map `dupMap`, where key 1 was inserted twice,
`erase(1)` removes the first node only and `find(1)` afterwards returns the second one instead
of `end()`. -/
theorem C3_counterexample :
    Reachable dupMap ∧
    ∃ m1, dupMap.erase 1 = some m1 ∧ m1.find 1 = some (some 1) ∧
      m1.deref (some 1) = some (1, 5) ∧ m1.find 1 ≠ some none :=
  ⟨dupMap_reachable,
    HashMap.mk (fun k : Nat => k) 1 [(1, 1, 5)]
      [none, some 1, none, none, none, none, none, none, none, none] 2,
    by rfl, by decide, by decide, by decide⟩

/-- Claim C3, amended: in a reachable map `erase(k)` returns; `size()` is one less than before
if `find(k)` succeeded before the erase and unchanged if `k` was absent; and `find(k)`
returns `end()` afterwards whenever at most one entry held the key `k` before the erase, in
particular whenever the keys of the map are pairwise distinct. -/
theorem C3_erase_then_find [Inhabited V] (m : HashMap K V) (hr : Reachable m) (k : K) :
    ∃ m1, m.erase k = some m1 ∧
      (m.entries.countP (fun e => decide (e.1 = k)) ≤ 1 → m1.find k = some none) ∧
      ((∃ a, m.find k = some (some a)) → m1.size + 1 = m.size) ∧
      (m.find k = some none → m1.size = m.size) :=
  erase_single (reachable_wf hr) k

theorem C3_erase_then_find_witness :
    Reachable collideMap ∧ collideMap.entries.countP (fun e => decide (e.1 = 11)) ≤ 1 ∧
    (∃ a, collideMap.find 11 = some (some a)) ∧
    ∃ m1, collideMap.erase 11 = some m1 ∧ m1.find 11 = some none ∧
      m1.size + 1 = collideMap.size := by
  obtain ⟨m1, h1, h2, h3, _⟩ := C3_erase_then_find collideMap collideMap_reachable 11
  exact ⟨collideMap_reachable, by decide, ⟨1, by decide⟩, m1, h1, h2 (by decide),
    h3 ⟨1, by decide⟩⟩

/-- Claim C4: iteration order is insertion order.  In a reachable map, `insert(p)` appends `p`
to the sequence `begin() .. end()` and leaves the rest as it was (also when it resizes);
`erase(k)` with `k` absent leaves the sequence unchanged; `erase(k)` with `k` present removes
exactly one entry, whose key is `k`, and keeps the others in order; `resize()` leaves the
sequence unchanged. -/
theorem C4_iteration_order [Inhabited V] (m : HashMap K V) (hr : Reachable m) :
    (∀ p, ∃ m1, m.insert p = some m1 ∧ m1.entries = m.entries ++ [p]) ∧
    (∀ k, ∃ m1, m.erase k = some m1 ∧
      (m.find k = some none → m1.entries = m.entries) ∧
      ((∃ a, m.find k = some (some a)) →
        ∃ l1 v l2, m.entries = l1 ++ (k, v) :: l2 ∧ m1.entries = l1 ++ l2)) ∧
    (∃ m1, m.resize = some m1 ∧ m1.entries = m.entries) := by
  have hm := reachable_wf hr
  refine ⟨?_, ?_, ?_⟩
  · intro p
    obtain ⟨m1, h1, _, h2, _⟩ := insert_spec hm p
    exact ⟨m1, h1, h2⟩
  · intro k
    cases hk : firstIter m.Nodes k with
    | none =>
      refine ⟨m, erase_absent hm hk, fun _ => rfl, ?_⟩
      rintro ⟨a, ha⟩
      rw [find_spec hm k, hk] at ha
      cases ha
    | some a0 =>
      obtain ⟨m1, her, _, hn, _⟩ := erase_present hm hk
      obtain ⟨v0, hv0⟩ := firstIter_some hk
      refine ⟨m1, her, ?_, fun _ => ?_⟩
      · intro h
        rw [find_spec hm k, hk] at h
        cases h
      · obtain ⟨x, l1, l2, _, hx, hsplit, her2⟩ :=
          List.exists_of_eraseP (p := fun x : Nat × K × V => x.1 == a0) hv0 (by simp)
        have hxm : x ∈ m.Nodes := by rw [hsplit]; simp
        obtain ⟨x1, x2, x3⟩ := x
        simp only [beq_iff_eq] at hx
        rw [hx] at hxm hsplit
        obtain ⟨hk2, hv2⟩ := key_unique hm.sorted hxm hv0
        rw [hk2] at hsplit
        refine ⟨l1.map (fun n => n.2), x3, l2.map (fun n => n.2), ?_, ?_⟩
        · unfold HashMap.entries
          rw [hsplit]
          simp
        · unfold HashMap.entries
          rw [hn, her2]
          simp
  · obtain ⟨m1, h1, _, h2, _⟩ := resize_spec hm
    exact ⟨m1, h1, h2⟩

theorem C4_iteration_order_witness :
    Reachable collideMap ∧
    ((∀ p, ∃ m1, collideMap.insert p = some m1 ∧ m1.entries = collideMap.entries ++ [p]) ∧
    (∀ k, ∃ m1, collideMap.erase k = some m1 ∧
      (collideMap.find k = some none → m1.entries = collideMap.entries) ∧
      ((∃ a, collideMap.find k = some (some a)) →
        ∃ l1 v l2, collideMap.entries = l1 ++ (k, v) :: l2 ∧ m1.entries = l1 ++ l2)) ∧
    (∃ m1, collideMap.resize = some m1 ∧ m1.entries = collideMap.entries)) :=
  ⟨collideMap_reachable, C4_iteration_order collideMap collideMap_reachable⟩

/-- Claim C5: in a reachable map `resize()` returns; afterwards `size()` is unchanged, the
capacity is the old capacity times the load factor 2, and for every key `find` returns `end()`
exactly when it did before and otherwise an iterator to an entry with the same key and the
same value as before. -/
theorem C5_resize [Inhabited V] (m : HashMap K V) (hr : Reachable m) :
    ∃ m1, m.resize = some m1 ∧ m1.size = m.size ∧ m1.capacity = m.capacity * LoadFactor ∧
      m1.capacity = m.capacity * 2 ∧
      ∀ k, (m1.find k = some none ↔ m.find k = some none) ∧
        ∃ r, m.findEntry k = some r ∧ m1.findEntry k = some r := by
  have hm := reachable_wf hr
  obtain ⟨m1, h1, hw, hent, hlen, _, hcnt⟩ := resize_spec hm
  refine ⟨m1, h1, hcnt, hlen, hlen, ?_⟩
  intro k
  have e1 := findEntry_spec hw k
  have e0 := findEntry_spec hm k
  rw [hent] at e1
  refine ⟨?_, _, e0, e1⟩
  rw [← findEntry_eq_end, ← findEntry_eq_end, e0, e1]

theorem C5_resize_witness :
    Reachable collideMap ∧
    ∃ m1, collideMap.resize = some m1 ∧ m1.size = collideMap.size ∧
      m1.capacity = collideMap.capacity * LoadFactor ∧
      m1.capacity = collideMap.capacity * 2 ∧
      ∀ k, (m1.find k = some none ↔ collideMap.find k = some none) ∧
        ∃ r, collideMap.findEntry k = some r ∧ m1.findEntry k = some r :=
  ⟨collideMap_reachable, C5_resize collideMap collideMap_reachable⟩

/-! ### Addresses of the nodes an insert creates -/

theorem place_nodes {m m1 : HashMap K V} {nd : K × V} (h : m.place nd = some m1) :
    m1.Nodes = m.Nodes ++ [(m.fresh, nd)] ∧ m1.fresh = m.fresh + 1 := by
  unfold HashMap.place at h
  split at h
  · cases h
  · split at h
    · cases h
    · cases h
      exact ⟨rfl, rfl⟩

theorem foldlM_ids (f : Nat) (ins : HashMap K V → K × V → Option (HashMap K V))
    (hins : ∀ (m : HashMap K V) (nd : K × V) (m1 : HashMap K V), ins m nd = some m1 →
      m.fresh ≤ m1.fresh ∧ ∀ n ∈ m1.Nodes, n ∈ m.Nodes ∨ m.fresh ≤ n.1)
    (l : List (K × V)) :
    ∀ (m m1 : HashMap K V), l.foldlM ins m = some m1 → f ≤ m.fresh →
      (∀ n ∈ m.Nodes, f ≤ n.1) → f ≤ m1.fresh ∧ ∀ n ∈ m1.Nodes, f ≤ n.1 := by
  induction l with
  | nil =>
    intro m m1 h hf hn
    cases h
    exact ⟨hf, hn⟩
  | cons x xs ih =>
    intro m m1 h hf hn
    rw [List.foldlM_cons] at h
    cases hx : ins m x with
    | none => rw [hx] at h; cases h
    | some m2 =>
      rw [hx] at h
      obtain ⟨h1, h2⟩ := hins m x m2 hx
      refine ih m2 m1 h (by omega) ?_
      intro n hn2
      rcases h2 n hn2 with h3 | h3
      · exact hn n h3
      · omega

/-- Every node of the list after `insert` is a node of the list before it or was allocated by
the call. -/
theorem insertAux_ids (d : Nat) :
    ∀ (m : HashMap K V) (nd : K × V) (m1 : HashMap K V), HashMap.insertAux d m nd = some m1 →
      m.fresh ≤ m1.fresh ∧ ∀ n ∈ m1.Nodes, n ∈ m.Nodes ∨ m.fresh ≤ n.1 := by
  induction d with
  | zero => intro m nd m1 h; simp [HashMap.insertAux] at h
  | succ d ih =>
    intro m nd m1 h
    by_cases hc : (m.NodeCount + 1) * LoadFactor > m.Table.length
    · rw [insertAux_resize _ _ _ hc] at h
      cases hr : HashMap.resizeWith (HashMap.insertAux d) m with
      | none => rw [hr] at h; cases h
      | some m0 =>
        rw [hr] at h
        obtain ⟨h1, h2⟩ := foldlM_ids m.fresh (HashMap.insertAux d) ih _ _ m0 hr
          (Nat.le_refl _) (fun n hn => absurd hn (List.not_mem_nil _))
        obtain ⟨h3, h4⟩ := place_nodes (show m0.place nd = some m1 from h)
        refine ⟨by omega, ?_⟩
        intro n hn
        rw [h3] at hn
        rcases List.mem_append.mp hn with h5 | h5
        · exact Or.inr (h2 n h5)
        · simp at h5
          rw [h5]
          exact Or.inr h1
    · rw [insertAux_noresize _ _ _ (by omega)] at h
      obtain ⟨h3, h4⟩ := place_nodes h
      refine ⟨by omega, ?_⟩
      intro n hn
      rw [h3] at hn
      rcases List.mem_append.mp hn with h5 | h5
      · exact Or.inl h5
      · simp at h5
        rw [h5]
        exact Or.inr (Nat.le_refl _)

/-- An insert that resizes re-creates every node: all nodes of the list afterwards were
allocated by the call. -/
theorem insert_resize_ids {m m1 : HashMap K V} {nd : K × V}
    (hc : (m.NodeCount + 1) * LoadFactor > m.Table.length) (h : m.insert nd = some m1) :
    ∀ n ∈ m1.Nodes, m.fresh ≤ n.1 := by
  unfold HashMap.insert at h
  rw [insertAux_resize _ _ _ hc] at h
  cases hr : HashMap.resizeWith (HashMap.insertAux 2) m with
  | none => rw [hr] at h; cases h
  | some m0 =>
    rw [hr] at h
    obtain ⟨h1, h2⟩ := foldlM_ids m.fresh (HashMap.insertAux 2) (insertAux_ids 2) _ _ m0 hr
      (Nat.le_refl _) (fun n hn => absurd hn (List.not_mem_nil _))
    obtain ⟨h3, _⟩ := place_nodes (show m0.place nd = some m1 from h)
    intro n hn
    rw [h3] at hn
    rcases List.mem_append.mp hn with h5 | h5
    · exact h2 n h5
    · simp at h5
      rw [h5]
      exact h1

theorem foldlM_insert_ids (l : List (K × V)) (m m1 : HashMap K V)
    (h : l.foldlM HashMap.insert m = some m1) (hn : m.Nodes = []) :
    m.fresh ≤ m1.fresh ∧ ∀ n ∈ m1.Nodes, m.fresh ≤ n.1 :=
  foldlM_ids m.fresh HashMap.insert (insertAux_ids 3) l m m1 h (Nat.le_refl _)
    (fun n hn1 => by rw [hn] at hn1; exact absurd hn1 (List.not_mem_nil _))

theorem nodeAt_none_of_ids {Nodes : List (Nat × K × V)} {a : Nat}
    (h : ∀ n ∈ Nodes, n.1 ≠ a) : nodeAt Nodes a = none := by
  unfold nodeAt
  rw [List.find?_eq_none.mpr]
  · rfl
  · intro n hn
    simpa using h n hn

theorem fiveMap_reachable : Reachable fiveMap := by
  have h1 : Reachable (HashMap.mk (fun k : Nat => k) 4
      [(0, 1, 100), (1, 11, 110), (2, 21, 120), (3, 2, 130)]
      [none, some 0, some 1, some 2, some 3, none, none, none, none, none] 4) :=
    Reachable.insert _ (2, 130) _ collideMap_reachable (by rfl)
  exact Reachable.insert _ (5, 140) fiveMap h1 (by rfl)

/-- Claim C6, as stated, fails when the insert resizes: in the reachable map `fiveMap` (count
5, capacity 10) the key 7 is absent and `find(11)` returns the list node 1; `insert({7, 70})`
resizes, after which `find(11)` returns the new node 6 and the node 1 is no longer in the
list. -/
theorem C6_counterexample :
    Reachable fiveMap ∧ fiveMap.find 7 = some none ∧ fiveMap.find 11 = some (some 1) ∧
    ∃ m1, fiveMap.insert (7, 70) = some m1 ∧ m1.find 11 = some (some 6) ∧
      m1.find 11 ≠ fiveMap.find 11 ∧ m1.deref (some 1) = none :=
  ⟨fiveMap_reachable, by decide, by decide,
    HashMap.mk (fun k : Nat => k) 6
      [(5, 1, 100), (6, 11, 110), (7, 21, 120), (8, 2, 130), (9, 5, 140), (10, 7, 70)]
      [none, some 5, some 7, some 8, none, some 9, none, some 10, none, none,
       none, some 6, none, none, none, none, none, none, none, none] 11,
    by rfl, by decide, by decide, by decide⟩

/-- Claim C6, amended: in a reachable map `m` with key `k1` absent, `insert({k1, v1})`
returns; `size()` is one more; `find(k1)` returns an iterator to the entry `(k1, v1)`; for
every other key `find` returns `end()` exactly when it did in `m` and otherwise an entry with
the same key and value.  When the insert does not resize, `find` of every other key returns
the very iterator it returned in `m`, pointing to the same node.  When the insert resizes, the
nodes are re-created: no iterator that pointed into the list of `m` points into the list
afterwards. -/
theorem C6_insert_frame [Inhabited V] (m : HashMap K V) (hr : Reachable m) (k1 : K) (v1 : V)
    (habs : m.find k1 = some none) :
    ∃ m1, m.insert (k1, v1) = some m1 ∧ m1.size = m.size + 1 ∧
      m1.findEntry k1 = some (some (k1, v1)) ∧
      (∀ k, k ≠ k1 → ∃ r, m.findEntry k = some r ∧ m1.findEntry k = some r) ∧
      (¬ (m.size + 1) * LoadFactor > m.capacity →
        ∀ k, k ≠ k1 → m1.find k = m.find k ∧
          ∀ a, m.find k = some (some a) → m1.deref (some a) = m.deref (some a)) ∧
      ((m.size + 1) * LoadFactor > m.capacity →
        ∀ a, (m.deref (some a)).isSome → m1.deref (some a) = none) := by
  have hm := reachable_wf hr
  obtain ⟨m1, h1, hw, hent, _, hcnt, _, hnores⟩ := insert_spec hm (k1, v1)
  refine ⟨m1, h1, hcnt, ?_, ?_, ?_, ?_⟩
  · have e0 := findEntry_spec hm k1
    rw [findEntry_eq_end.mpr habs] at e0
    simp only [Option.some.injEq] at e0
    rw [findEntry_spec hw, hent, List.find?_append, ← e0]
    simp
  · intro k hk
    refine ⟨_, findEntry_spec hm k, ?_⟩
    rw [findEntry_spec hw, hent, List.find?_append]
    have : List.find? (fun e : K × V => decide (e.1 = k)) [(k1, v1)] = none := by
      simp [List.find?_cons, Ne.symm hk]
    rw [this]
    simp
  · intro hno k hk
    have hN := hnores hno
    have hfk : firstIter m1.Nodes k = firstIter m.Nodes k := by
      unfold firstIter
      rw [hN, List.find?_append]
      have : List.find? (fun n : Nat × K × V => decide (n.2.1 = k)) [(m.fresh, k1, v1)]
          = none := by
        simp [List.find?_cons, Ne.symm hk]
      rw [this]
      simp
    refine ⟨by rw [find_spec hw k, find_spec hm k, hfk], ?_⟩
    intro a ha
    obtain ⟨_, v, hv⟩ := node_of_find hm ha
    show nodeAt m1.Nodes a = nodeAt m.Nodes a
    have hv1 : (a, k, v) ∈ m1.Nodes := by
      rw [hN]; exact List.mem_append_left _ hv
    rw [nodeAt_of_mem hm.sorted hv, nodeAt_of_mem hw.sorted hv1]
  · intro hres a ha
    have hids := insert_resize_ids hres h1
    show nodeAt m1.Nodes a = none
    apply nodeAt_none_of_ids
    intro n hn heq
    cases hd : nodeAt m.Nodes a with
    | none =>
      have : (m.deref (some a)).isSome = true := ha
      rw [show m.deref (some a) = nodeAt m.Nodes a from rfl, hd] at this
      cases this
    | some nd =>
      have := hm.below _ (mem_of_nodeAt hd)
      have := hids n hn
      simp only at *
      omega

theorem C6_insert_frame_witness :
    Reachable fiveMap ∧ fiveMap.find 7 = some none ∧
    (fiveMap.size + 1) * LoadFactor > fiveMap.capacity ∧
    (fiveMap.deref (some 1)).isSome = true ∧
    ∃ m1, fiveMap.insert (7, 70) = some m1 ∧ m1.size = fiveMap.size + 1 ∧
      m1.findEntry 7 = some (some (7, 70)) ∧
      (∀ k, k ≠ 7 → ∃ r, fiveMap.findEntry k = some r ∧ m1.findEntry k = some r) ∧
      m1.deref (some 1) = none ∧
      Reachable collideMap ∧ collideMap.find 7 = some none ∧
      ¬ (collideMap.size + 1) * LoadFactor > collideMap.capacity ∧
      collideMap.find 11 = some (some 1) ∧
      ∃ m2, collideMap.insert (7, 70) = some m2 ∧ m2.find 11 = collideMap.find 11 ∧
        m2.deref (some 1) = collideMap.deref (some 1) := by
  obtain ⟨m1, h1, h2, h3, h4, _, h6⟩ :=
    C6_insert_frame fiveMap fiveMap_reachable 7 70 (by decide)
  obtain ⟨m2, g1, _, _, _, g5, _⟩ :=
    C6_insert_frame collideMap collideMap_reachable 7 70 (by decide)
  have g := g5 (by decide) 11 (by decide)
  exact ⟨fiveMap_reachable, by decide, by decide, by decide, m1, h1, h2, h3, h4,
    h6 (by decide) 1 (by decide), collideMap_reachable, by decide, by decide, by decide,
    m2, g1, g.1, g.2 1 (by decide)⟩

theorem at_eq (m : HashMap K V) (Key : K) :
    m.at_ Key =
      (match m.find Key with
       | none => none
       | some none => some (Except.error Error.out_of_range)
       | some (some a) => (nodeAt m.Nodes a).map (fun nd => Except.ok nd.2)) := by
  unfold HashMap.at_ HashMap.find
  by_cases h : m.Table.length = 0
  · rw [if_pos h, if_pos h]
  · rw [if_neg h, if_neg h]
    exact atLoop_eq _ _ _ _ _

/-- The node created by an insert of an absent key is the last node of the list and the one
`find` returns. -/
theorem last_node_of_insert {m m1 : HashMap K V} (hm : WF m) (hw : WF m1) {Key : K} {v : V}
    (hent : m1.entries = m.entries ++ [(Key, v)]) (habs : firstIter m.Nodes Key = none)
    {a : Nat} (hf : m1.find Key = some (some a)) :
    m1.Nodes.getLast? = some (a, Key, v) := by
  rcases List.eq_nil_or_concat m1.Nodes with h | ⟨ns, n, h⟩
  · unfold HashMap.entries at hent
    rw [h] at hent
    simp at hent
  · rw [List.concat_eq_append] at h
    unfold HashMap.entries at hent
    rw [h, List.map_append] at hent
    have hlen : ([n].map fun x : Nat × K × V => x.2).length = [(Key, v)].length := rfl
    obtain ⟨e1, e2⟩ := List.append_inj' hent hlen
    simp only [List.map_cons, List.map_nil, List.cons.injEq, and_true] at e2
    obtain ⟨hfi, _⟩ := node_of_find hw hf
    have hnone : ns.find? (fun x : Nat × K × V => decide (x.2.1 = Key)) = none := by
      rw [List.find?_eq_none]
      intro x hx hk
      simp only [decide_eq_true_eq] at hk
      have hxe : x.2 ∈ m.entries := by
        show x.2 ∈ m.Nodes.map (fun n => n.2)
        rw [← e1]; exact List.mem_map.mpr ⟨x, hx, rfl⟩
      obtain ⟨b, hb⟩ := mem_entries hxe
      have hb2 : (b, Key, x.2.2) ∈ m.Nodes := by rw [← hk]; exact hb
      exact firstIter_none habs b x.2.2 hb2
    unfold firstIter at hfi
    rw [h, List.find?_append, hnone] at hfi
    have hkn : decide (n.2.1 = Key) = true := by rw [e2]; simp
    simp only [Option.none_or, List.find?_cons, hkn, Option.map_some', Option.some.injEq] at hfi
    rw [h, List.getLast?_concat]
    obtain ⟨n1, n2⟩ := n
    simp only at hfi e2
    rw [hfi, e2]

/-- Claim C7: `operator[]` is find-or-insert.  In a reachable map, (1) if `find(k)` returns an
iterator, `operator[](k)` leaves the whole state unchanged and returns a reference to the value
of the node that iterator points to; (2) if `find(k)` returns `end()`, `operator[](k)` returns
with `size()` one more, the entry `(k, ValueType())` appended to the iteration sequence, and
the reference returned is to the value of that new last node, which is also the node `find(k)`
returns afterwards. -/
theorem C7_index_find_or_insert [Inhabited V] (m : HashMap K V) (hr : Reachable m) (k : K) :
    (∀ a, m.find k = some (some a) → m.index k = some (m, a)) ∧
    (m.find k = some none →
      ∃ m1 a, m.index k = some (m1, a) ∧ m1.size = m.size + 1 ∧
        m1.entries = m.entries ++ [(k, default)] ∧
        m1.Nodes.getLast? = some (a, k, default) ∧
        m1.deref (some a) = some (k, default) ∧ m1.find k = some (some a)) := by
  have hm := reachable_wf hr
  refine ⟨?_, ?_⟩
  · intro a ha
    exact index_present hm (node_of_find hm ha).1
  · intro habs
    have hfi := absent_of_find hm habs
    obtain ⟨m1, a, hins, hidx, hf1⟩ := index_absent hm hfi
    obtain ⟨m2, h2, hw, hent, _, hcnt, _⟩ := insert_spec hm (k, (default : V))
    rw [hins] at h2
    cases h2
    have hlast := last_node_of_insert hm hw hent hfi hf1
    refine ⟨m1, a, hidx, hcnt, hent, hlast, ?_, hf1⟩
    show nodeAt m1.Nodes a = some (k, default)
    exact nodeAt_of_mem hw.sorted (List.mem_of_mem_getLast? hlast)

theorem C7_index_find_or_insert_witness :
    Reachable collideMap ∧ collideMap.find 11 = some (some 1) ∧
    collideMap.index 11 = some (collideMap, 1) ∧ collideMap.find 31 = some none ∧
    ∃ m1 a, collideMap.index 31 = some (m1, a) ∧ m1.size = collideMap.size + 1 ∧
      m1.entries = collideMap.entries ++ [(31, default)] ∧
      m1.Nodes.getLast? = some (a, 31, default) ∧
      m1.deref (some a) = some (31, default) ∧ m1.find 31 = some (some a) :=
  ⟨collideMap_reachable, by decide,
    (C7_index_find_or_insert collideMap collideMap_reachable 11).1 1 (by decide), by decide,
    (C7_index_find_or_insert collideMap collideMap_reachable 31).2 (by decide)⟩

/-- Claim C8: in a reachable map `at(k)` returns or throws (it does not loop); it throws
`std::out_of_range` exactly when `find(k)` returns `end()`, and otherwise returns the value of
the entry `find(k)` points to.  As a `const` member, `at` yields no new state. -/
theorem C8_at [Inhabited V] (m : HashMap K V) (hr : Reachable m) (k : K) :
    (∃ r, m.at_ k = some r) ∧
    (m.at_ k = some (Except.error Error.out_of_range) ↔ m.find k = some none) ∧
    (∀ a, m.find k = some (some a) →
      ∃ e, m.deref (some a) = some e ∧ m.at_ k = some (Except.ok e.2)) := by
  have hm := reachable_wf hr
  have hat := at_eq m k
  have hf := find_spec hm k
  cases hfi : firstIter m.Nodes k with
  | none =>
    rw [hfi] at hf
    rw [hf] at hat
    simp only at hat
    refine ⟨⟨_, hat⟩, ?_, ?_⟩
    · rw [hat, hf]
      exact ⟨fun _ => rfl, fun _ => rfl⟩
    · intro a ha
      rw [hf] at ha
      cases ha
  | some a0 =>
    rw [hfi] at hf
    obtain ⟨v0, hv0⟩ := firstIter_some hfi
    have hn := nodeAt_of_mem hm.sorted hv0
    rw [hf] at hat
    simp only [hn, Option.map_some'] at hat
    refine ⟨⟨_, hat⟩, ?_, ?_⟩
    · rw [hat, hf]
      simp
    · intro a ha
      rw [hf] at ha
      simp only [Option.some.injEq] at ha
      rw [← ha]
      exact ⟨(k, v0), hn, hat⟩

theorem C8_at_witness :
    Reachable collideMap ∧ collideMap.find 21 = some (some 2) ∧
    (∃ e, collideMap.deref (some 2) = some e ∧ collideMap.at_ 21 = some (Except.ok e.2)) ∧
    collideMap.find 31 = some none ∧
    collideMap.at_ 31 = some (Except.error Error.out_of_range) :=
  ⟨collideMap_reachable, by decide,
    (C8_at collideMap collideMap_reachable 21).2.2 2 (by decide), by decide,
    (C8_at collideMap collideMap_reachable 31).2.1.mpr (by decide)⟩

/-! ### Two maps in one address space: separation -/

theorem wf_bump {m : HashMap K V} (hm : WF m) {f : Nat} (hf : m.fresh ≤ f) :
    WF ({ m with fresh := f } : HashMap K V) := by
  refine ⟨hm.cap_pos, hm.load, hm.count_nodes, hm.count_cells, hm.sorted, ?_, hm.slots⟩
  intro n hn
  have := hm.below n hn
  show n.1 < f
  omega

theorem nodeAt_append_left {A B : List (Nat × K × V)} {x : Nat}
    (h : ∀ y ∈ B, y.1 ≠ x) : nodeAt (A ++ B) x = nodeAt A x := by
  unfold nodeAt
  rw [List.find?_append]
  have : B.find? (fun n => n.1 == x) = none := by
    rw [List.find?_eq_none]
    intro n hn
    simpa using h n hn
  rw [this]
  simp

theorem findLoop_heap {A B : List (Nat × K × V)} {T : List NodeIter} (Key : K)
    (hT : ∀ (i a : Nat), T[i]? = some (some a) → ∀ y ∈ B, y.1 ≠ a) :
    ∀ (fuel s : Nat), HashMap.findLoop (A ++ B) T Key fuel s
      = HashMap.findLoop A T Key fuel s := by
  intro fuel
  induction fuel with
  | zero => intro s; rfl
  | succ f ih =>
    intro s
    rw [HashMap.findLoop, HashMap.findLoop]
    cases hc : T[s]? with
    | none => rfl
    | some x =>
      cases x with
      | none => rfl
      | some a =>
        simp only
        rw [nodeAt_append_left (hT s a hc)]
        cases nodeAt A a with
        | none => rfl
        | some nd =>
          simp only
          rw [ih]

theorem eraseSearch_heap {A B : List (Nat × K × V)} {T : List NodeIter} (Key : K)
    (hT : ∀ (i a : Nat), T[i]? = some (some a) → ∀ y ∈ B, y.1 ≠ a) :
    ∀ (fuel s : Nat), HashMap.eraseSearch (A ++ B) T Key fuel s
      = HashMap.eraseSearch A T Key fuel s := by
  intro fuel
  induction fuel with
  | zero => intro s; rfl
  | succ f ih =>
    intro s
    rw [HashMap.eraseSearch, HashMap.eraseSearch]
    cases hc : T[s]? with
    | none => rfl
    | some x =>
      cases x with
      | none => rfl
      | some a =>
        simp only
        rw [nodeAt_append_left (hT s a hc)]
        cases nodeAt A a with
        | none => rfl
        | some nd =>
          simp only
          rw [ih]

theorem eraseLoop_heap (Hasher : K → Nat) {A B : List (Nat × K × V)} :
    ∀ (fuel : Nat) (T : List NodeIter) (Last Index0 : Nat),
      (∀ (i a : Nat), T[i]? = some (some a) → ∀ y ∈ B, y.1 ≠ a) →
      HashMap.eraseLoop Hasher (A ++ B) fuel T Last Index0
        = HashMap.eraseLoop Hasher A fuel T Last Index0 := by
  intro fuel
  induction fuel with
  | zero => intro T Last Index0 _; rfl
  | succ f ih =>
    intro T Last Index0 hT
    rw [HashMap.eraseLoop, HashMap.eraseLoop]
    cases hc : T[(Index0 + 1) % T.length]? with
    | none => rfl
    | some x =>
      cases x with
      | none => rfl
      | some a =>
        simp only
        rw [nodeAt_append_left (hT _ a hc)]
        cases nodeAt A a with
        | none => rfl
        | some nd =>
          simp only
          have hT2 : ∀ (i b : Nat), (T.set Last (some a))[i]? = some (some b) →
              ∀ y ∈ B, y.1 ≠ b := by
            intro i b hi
            by_cases hiL : i = Last
            · rw [hiL] at hi
              have hlt : Last < T.length := by
                have := lt_of_cell hi
                rw [List.length_set] at this
                exact this
              rw [List.getElem?_set_self hlt] at hi
              simp only [Option.some.injEq] at hi
              rw [← hi]
              exact hT _ a hc
            · rw [List.getElem?_set_ne (Ne.symm hiL)] at hi
              exact hT i b hi
          rw [ih _ _ _ hT2, ih _ _ _ hT]

theorem World.Sep.cells_a {w : World K V} (hs : w.Sep) :
    ∀ (i a : Nat), w.a.Table[i]? = some (some a) → ∀ y ∈ w.b.Nodes, y.1 ≠ a := by
  intro i a hi y hy heq
  obtain ⟨nd, hnd⟩ := hs.wfa.slots.live i a (by simp) hi
  exact hs.disj _ hnd y hy heq.symm

theorem World.Sep.swap {w : World K V} (hs : w.Sep) : w.swap.Sep :=
  ⟨hs.wfb, hs.wfa, fun x hx y hy h => hs.disj y hy x hx h.symm⟩

theorem World.findA_eq {w : World K V} (hs : w.Sep) (Key : K) :
    w.findA Key = w.a.find Key := by
  unfold World.findA HashMap.find World.heap
  by_cases hz : w.a.Table.length = 0
  · rw [if_pos hz, if_pos hz]
  · rw [if_neg hz, if_neg hz, findLoop_heap Key hs.cells_a]

theorem World.findB_eq {w : World K V} (hs : w.Sep) (Key : K) :
    w.findB Key = w.b.find Key :=
  World.findA_eq hs.swap Key

theorem World.eraseA_eq {w : World K V} (hs : w.Sep) (Key : K) :
    w.eraseA Key = (w.a.erase Key).map (fun a1 => ({ a := a1, b := w.b } : World K V)) := by
  unfold World.eraseA HashMap.erase World.heap
  by_cases hz : w.a.Table.length = 0
  · rw [if_pos hz, if_pos hz]; rfl
  · rw [if_neg hz, if_neg hz, eraseSearch_heap Key hs.cells_a]
    cases hsr : HashMap.eraseSearch w.a.Nodes w.a.Table Key w.a.Table.length
        (w.a.Hasher Key % w.a.Table.length) with
    | none => rfl
    | some r =>
      cases r with
      | none => rfl
      | some Index =>
        simp only
        cases hi : w.a.Table[Index]? with
        | none => rfl
        | some c =>
          cases c with
          | none => rfl
          | some x =>
            simp only
            have hB : w.b.Nodes.eraseP (fun n => n.1 == x) = w.b.Nodes := by
              apply List.eraseP_of_forall_not
              intro n hn
              simpa using hs.cells_a Index x hi n hn
            rw [hB, eraseLoop_heap w.a.Hasher _ _ _ _ hs.cells_a]
            cases HashMap.eraseLoop w.a.Hasher (w.a.Nodes.eraseP fun n => n.1 == x)
              w.a.Table.length w.a.Table Index Index <;> rfl

theorem erase_total {m : HashMap K V} (hm : WF m) (Key : K) :
    ∃ m1, m.erase Key = some m1 ∧ WF m1 ∧ (∀ n ∈ m1.Nodes, n ∈ m.Nodes) := by
  cases hk : firstIter m.Nodes Key with
  | none => exact ⟨m, erase_absent hm hk, hm, fun n hn => hn⟩
  | some a =>
    obtain ⟨m1, h1, hw, hn, _⟩ := erase_present hm hk
    refine ⟨m1, h1, hw, ?_⟩
    intro n hn1
    rw [hn] at hn1
    exact (List.eraseP_sublist _).subset hn1

theorem World.eraseA_sep {w : World K V} (hs : w.Sep) (Key : K) :
    ∃ w1, w.eraseA Key = some w1 ∧ w1.b = w.b ∧ w1.Sep := by
  obtain ⟨a1, h1, hw, hsub⟩ := erase_total hs.wfa Key
  refine ⟨{ a := a1, b := w.b }, ?_, rfl, hw, hs.wfb, ?_⟩
  · rw [World.eraseA_eq hs, h1]; rfl
  · intro x hx y hy
    exact hs.disj x (hsub x hx) y hy

theorem World.insertA_sep {w : World K V} (hs : w.Sep) (nd : K × V) :
    ∃ w1, w.insertA nd = some w1 ∧ w1.b = w.b ∧ w1.Sep ∧
      w1.a.entries = w.a.entries ++ [nd] := by
  have hb : WF ({ w.a with fresh := w.next } : HashMap K V) :=
    wf_bump hs.wfa (Nat.le_max_left _ _)
  obtain ⟨a1, h1, hw, hent, _⟩ := insert_spec hb nd
  refine ⟨{ a := a1, b := w.b }, ?_, rfl, ⟨hw, hs.wfb, ?_⟩, hent⟩
  · unfold World.insertA
    rw [h1]
  · intro x hx y hy
    obtain ⟨_, hids⟩ := insertAux_ids 3 _ nd a1 h1
    rcases hids x hx with h | h
    · exact hs.disj x h y hy
    · have hy1 := hs.wfb.below y hy
      have hn : w.b.fresh ≤ w.next := Nat.le_max_right _ _
      have h2 : w.next ≤ x.1 := h
      show x.1 ≠ y.1
      omega

theorem World.indexLoopA_of_find_some [Inhabited V] (w : World K V) (Key : K) (x : Nat) :
    ∀ (fuel s : Nat), HashMap.findLoop w.heap w.a.Table Key fuel s = some (some x) →
      World.indexLoopA w Key fuel s = some (w, x) := by
  intro fuel
  induction fuel with
  | zero => intro s h; simp [HashMap.findLoop] at h
  | succ f ih =>
    intro s h
    rw [HashMap.findLoop] at h
    rw [World.indexLoopA]
    cases hc : w.a.Table[s]? with
    | none => rw [hc] at h; simp at h
    | some c =>
      cases c with
      | none => rw [hc] at h; simp at h
      | some b =>
        rw [hc] at h
        simp only at h ⊢
        cases hn : nodeAt w.heap b with
        | none => rw [hn] at h; simp at h
        | some nd =>
          rw [hn] at h
          simp only at h ⊢
          by_cases hk : nd.1 = Key
          · rw [if_pos hk] at h ⊢
            simp at h
            rw [h]
          · rw [if_neg hk] at h ⊢
            exact ih _ h

theorem World.indexLoopA_of_find_none [Inhabited V] (w : World K V) (Key : K) :
    ∀ (fuel s : Nat), HashMap.findLoop w.heap w.a.Table Key fuel s = some none →
      World.indexLoopA w Key fuel s =
        (match w.insertA (Key, default) with
         | none => none
         | some w1 =>
           match w1.findA Key with
           | some (some x) => if (nodeAt w1.heap x).isSome then some (w1, x) else none
           | _ => none) := by
  intro fuel
  induction fuel with
  | zero => intro s h; simp [HashMap.findLoop] at h
  | succ f ih =>
    intro s h
    rw [HashMap.findLoop] at h
    rw [World.indexLoopA]
    cases hc : w.a.Table[s]? with
    | none => rw [hc] at h; simp at h
    | some c =>
      cases c with
      | none => rfl
      | some b =>
        rw [hc] at h
        simp only at h ⊢
        cases hn : nodeAt w.heap b with
        | none => rw [hn] at h; simp at h
        | some nd =>
          rw [hn] at h
          simp only at h ⊢
          by_cases hk : nd.1 = Key
          · rw [if_pos hk] at h; simp at h
          · rw [if_neg hk] at h ⊢
            exact ih _ h

theorem World.indexA_sep [Inhabited V] {w : World K V} (hs : w.Sep) (Key : K) :
    ∃ w1 x, w.indexA Key = some (w1, x) ∧ w1.b = w.b ∧ w1.Sep := by
  have hc := hs.wfa.cap_pos
  have hf := World.findA_eq hs Key
  rw [find_spec hs.wfa Key] at hf
  unfold World.findA at hf
  rw [if_neg (by omega)] at hf
  cases hfi : firstIter w.a.Nodes Key with
  | some x =>
    rw [hfi] at hf
    refine ⟨w, x, ?_, rfl, hs⟩
    unfold World.indexA
    rw [if_neg (by omega)]
    exact World.indexLoopA_of_find_some w Key x _ _ hf
  | none =>
    rw [hfi] at hf
    obtain ⟨w1, hins, hb, hs1, hent⟩ := World.insertA_sep hs (Key, (default : V))
    have hmem : (Key, (default : V)) ∈ w1.a.entries := by rw [hent]; simp
    obtain ⟨b0, hb0⟩ := mem_entries hmem
    have hf1 := World.findA_eq hs1 Key
    rw [find_spec hs1.wfa Key] at hf1
    cases hfi1 : firstIter w1.a.Nodes Key with
    | none => exact absurd hfi1 (firstIter_ne_none hb0)
    | some x =>
      rw [hfi1] at hf1
      obtain ⟨v, hv⟩ := firstIter_some hfi1
      refine ⟨w1, x, ?_, hb, hs1⟩
      unfold World.indexA
      rw [if_neg (by omega), World.indexLoopA_of_find_none w Key _ _ hf, hins]
      have hcell : ∀ y ∈ w1.b.Nodes, y.1 ≠ x := by
        intro y hy heq
        exact hs1.disj _ hv y hy heq.symm
      have hheap : nodeAt w1.heap x = some (Key, v) := by
        unfold World.heap
        rw [nodeAt_append_left hcell]
        exact nodeAt_of_mem hs1.wfa.sorted hv
      simp only [hf1, hheap]
      rfl

theorem setValue_id {m : HashMap K V} {x : Nat} (v : V) (h : ∀ n ∈ m.Nodes, n.1 ≠ x) :
    m.setValue x v = m := by
  have hmap : m.Nodes.map (fun n => if n.1 = x then (n.1, n.2.1, v) else n) = m.Nodes := by
    have e : ∀ n ∈ m.Nodes, (fun n : Nat × K × V => if n.1 = x then (n.1, n.2.1, v) else n) n
        = id n := by
      intro n hn
      simp [h n hn]
    rw [List.map_congr_left e, List.map_id]
  unfold HashMap.setValue
  rw [hmap]

theorem World.writeAt_sep {w : World K V} (hs : w.Sep) (x : Nat) (v : V)
    (hx : (∃ nd, (x, nd) ∈ w.a.Nodes) ∨ (∃ i : Nat, w.a.Table[i]? = some (some x))) :
    (w.writeAt x v).b = w.b ∧ (w.writeAt x v).Sep := by
  have hxa : ∃ nd, (x, nd) ∈ w.a.Nodes := by
    rcases hx with h | ⟨i, hi⟩
    · exact h
    · exact hs.wfa.slots.live i x (by simp) hi
  obtain ⟨nd, hnd⟩ := hxa
  have hnb : ∀ n ∈ w.b.Nodes, n.1 ≠ x := by
    intro n hn heq
    exact hs.disj _ hnd n hn heq.symm
  have hb : (w.writeAt x v).b = w.b := setValue_id v hnb
  refine ⟨hb, setValue_wf hs.wfa x v, by rw [hb]; exact hs.wfb, ?_⟩
  intro n hn y hy
  rw [hb] at hy
  obtain ⟨n0, hn0, he⟩ := List.mem_map.mp hn
  have hfst : n.1 = n0.1 := by
    rw [← he]
    split <;> rfl
  rw [hfst]
  exact hs.disj n0 hn0 y hy

/-- A mutation of `a` keeps the two objects separated and leaves `b` as it is. -/
theorem World.stepA_frame [Inhabited V] {w w1 : World K V} (hs : w.Sep)
    (h : World.StepA w w1) : w1.b = w.b ∧ w1.Sep := by
  cases h with
  | insert nd _ h =>
    obtain ⟨w2, h2, hb, hs2, _⟩ := World.insertA_sep hs nd
    rw [h] at h2
    cases h2
    exact ⟨hb, hs2⟩
  | erase k _ h =>
    obtain ⟨w2, h2, hb, hs2⟩ := World.eraseA_sep hs k
    rw [h] at h2
    cases h2
    exact ⟨hb, hs2⟩
  | index k _ x h =>
    obtain ⟨w2, y, h2, hb, hs2⟩ := World.indexA_sep hs k
    rw [h] at h2
    cases h2
    exact ⟨hb, hs2⟩
  | write x v hx => exact World.writeAt_sep hs x v hx

theorem World.stepB_frame [Inhabited V] {w w1 : World K V} (hs : w.Sep)
    (h : World.StepB w w1) : w1.a = w.a ∧ w1.Sep := by
  obtain ⟨h1, h2⟩ := World.stepA_frame hs.swap h
  exact ⟨h1, h2.swap⟩

theorem World.later_sep [Inhabited V] {w0 w : World K V} (hs : w0.Sep)
    (h : World.Later w0 w) : w.Sep := by
  induction h with
  | start => exact hs
  | stepA w w1 _ hst ih => exact (World.stepA_frame ih hst).2
  | stepB w w1 _ hst ih => exact (World.stepB_frame ih hst).2

theorem copy_facts {m other : HashMap K V} (hw : WF m) (ho : WF other)
    (hent : m.entries = other.entries) (hcnt : m.NodeCount = other.NodeCount) :
    m.entries = other.entries ∧ m.size = other.size ∧
      (∀ k, ∃ r, other.findEntry k = some r ∧ m.findEntry k = some r) ∧
      (∀ (i a : Nat), m.Table[i]? = some (some a) → ∃ e, m.deref (some a) = some e) := by
  refine ⟨hent, hcnt, ?_, ?_⟩
  · intro k
    refine ⟨_, findEntry_spec ho k, ?_⟩
    rw [findEntry_spec hw k, hent]
  · intro i a hi
    obtain ⟨nd, hnd⟩ := hw.slots.live i a (by simp) hi
    exact ⟨nd, nodeAt_of_mem hw.sorted hnd⟩

theorem nodeAt_append_right {A B : List (Nat × K × V)} {x : Nat}
    (h : ∀ y ∈ A, y.1 ≠ x) : nodeAt (A ++ B) x = nodeAt B x := by
  unfold nodeAt
  rw [List.find?_append]
  have : A.find? (fun n => n.1 == x) = none := by
    rw [List.find?_eq_none]
    intro n hn
    simpa using h n hn
  rw [this]
  simp

theorem World.foldlM_insertA_sep (l : List (K × V)) :
    ∀ w : World K V, w.Sep →
      ∃ w1, l.foldlM (fun w1 nd => World.insertA w1 nd) w = some w1 ∧ w1.b = w.b ∧ w1.Sep ∧
        w1.a.entries = w.a.entries ++ l := by
  induction l with
  | nil => intro w hs; exact ⟨w, rfl, rfl, hs, by simp⟩
  | cons x l ih =>
    intro w hs
    obtain ⟨w1, h1, hb1, hs1, he1⟩ := World.insertA_sep hs x
    obtain ⟨w2, h2, hb2, hs2, he2⟩ := ih w1 hs1
    refine ⟨w2, ?_, by rw [hb2, hb1], hs2, by rw [he2, he1]; simp⟩
    rw [List.foldlM_cons, h1]
    exact h2

/-- The copy in the address space returns; it leaves the source as it is, the new object holds
the source's entries, and no node of the new object has the address of a node of the source. -/
theorem World.copyBody_spec (w : World K V) (hb : WF w.b) :
    ∃ w0, w.copyBody = some w0 ∧ w0.b = w.b ∧ w0.Sep ∧ w0.a.entries = w.b.entries := by
  have hpos : 0 < max ((w.b.NodeCount + 1) * LoadFactor) InitSize :=
    lt_of_lt_of_le (by decide) (Nat.le_max_right _ _)
  have hstart : World.Sep
      ({ a := { Hasher := w.a.Hasher, NodeCount := 0, Nodes := [],
                Table := List.replicate (max ((w.b.NodeCount + 1) * LoadFactor) InitSize) none,
                fresh := w.a.fresh },
         b := w.b } : World K V) :=
    ⟨wf_fresh_table _ _ _ hpos, hb, fun x hx => absurd hx (List.not_mem_nil x)⟩
  obtain ⟨w0, h0, hb0, hs0, he0⟩ := World.foldlM_insertA_sep w.b.entries _ hstart
  refine ⟨w0, ?_, hb0, hs0, ?_⟩
  · unfold World.copyBody HashMap.clear
    simp only [vecResize_replicate _ _ (Nat.le_max_right _ _)]
    exact h0
  · rw [he0]
    simp [HashMap.entries]

/-- In a separated address space every call on either object returns, the lookups are those of
the object alone, and a call on one object leaves the other object, the nodes its iterators
denote and every lookup on it as they were. -/
theorem World.sep_frame [Inhabited V] {w : World K V} (hs : w.Sep) :
    (∀ k, w.findA k = w.a.find k ∧ w.findB k = w.b.find k) ∧
    (∀ w1, World.StepA w w1 → w1.b = w.b ∧ (∀ k, w1.findB k = w.findB k) ∧
      ∀ x nd, (x, nd) ∈ w.b.Nodes → nodeAt w1.heap x = some nd ∧ nodeAt w.heap x = some nd) ∧
    (∀ w1, World.StepB w w1 → w1.a = w.a ∧ (∀ k, w1.findA k = w.findA k) ∧
      ∀ x nd, (x, nd) ∈ w.a.Nodes → nodeAt w1.heap x = some nd ∧ nodeAt w.heap x = some nd) ∧
    (∀ nd, ∃ w1, w.insertA nd = some w1) ∧
    (∀ k, ∃ w1, w.eraseA k = some w1) ∧
    (∀ k, ∃ w1 x, w.indexA k = some (w1, x)) ∧
    (∀ nd, ∃ w1, w.swap.insertA nd = some w1) ∧
    (∀ k, ∃ w1, w.swap.eraseA k = some w1) ∧
    (∀ k, ∃ w1 x, w.swap.indexA k = some (w1, x)) := by
  have heapB : ∀ {u : World K V}, u.Sep → ∀ x nd, (x, nd) ∈ u.b.Nodes →
      nodeAt u.heap x = some nd := by
    intro u hu x nd hx
    unfold World.heap
    rw [nodeAt_append_right (fun y hy heq => hu.disj y hy _ hx heq)]
    exact nodeAt_of_mem hu.wfb.sorted hx
  have heapA : ∀ {u : World K V}, u.Sep → ∀ x nd, (x, nd) ∈ u.a.Nodes →
      nodeAt u.heap x = some nd := by
    intro u hu x nd hx
    unfold World.heap
    rw [nodeAt_append_left (fun y hy heq => hu.disj _ hx y hy heq.symm)]
    exact nodeAt_of_mem hu.wfa.sorted hx
  refine ⟨fun k => ⟨World.findA_eq hs k, World.findB_eq hs k⟩, ?_, ?_, ?_, ?_, ?_, ?_, ?_, ?_⟩
  · intro w1 hst
    obtain ⟨hb, hs1⟩ := World.stepA_frame hs hst
    refine ⟨hb, fun k => ?_, fun x nd hx => ⟨?_, heapB hs x nd hx⟩⟩
    · rw [World.findB_eq hs1, World.findB_eq hs, hb]
    · exact heapB hs1 x nd (by rw [hb]; exact hx)
  · intro w1 hst
    obtain ⟨ha, hs1⟩ := World.stepB_frame hs hst
    refine ⟨ha, fun k => ?_, fun x nd hx => ⟨?_, heapA hs x nd hx⟩⟩
    · rw [World.findA_eq hs1, World.findA_eq hs, ha]
    · exact heapA hs1 x nd (by rw [ha]; exact hx)
  · intro nd
    obtain ⟨w1, h, _⟩ := World.insertA_sep hs nd
    exact ⟨w1, h⟩
  · intro k
    obtain ⟨w1, h, _⟩ := World.eraseA_sep hs k
    exact ⟨w1, h⟩
  · intro k
    obtain ⟨w1, x, h, _⟩ := World.indexA_sep hs k
    exact ⟨w1, x, h⟩
  · intro nd
    obtain ⟨w1, h, _⟩ := World.insertA_sep hs.swap nd
    exact ⟨w1, h⟩
  · intro k
    obtain ⟨w1, h, _⟩ := World.eraseA_sep hs.swap k
    exact ⟨w1, h⟩
  · intro k
    obtain ⟨w1, x, h, _⟩ := World.indexA_sep hs.swap k
    exact ⟨w1, x, h⟩

/-- Without separation a call on one object does change the other: in `sharedWorld` the call
`a.erase(1)` destroys the node of `b`, and `b.find(1)` then dereferences a destroyed node. -/
theorem sharedWorld_interference :
    ¬ sharedWorld.Sep ∧ sharedWorld.findB 1 = some (some 0) ∧
    ∃ w1, sharedWorld.eraseA 1 = some w1 ∧ w1.b.Nodes ≠ sharedWorld.b.Nodes ∧
      w1.findB 1 = none := by
  refine ⟨?_, by decide, ?_⟩
  · intro hs
    obtain ⟨nd, hnd⟩ := hs.wfa.slots.live 1 0 (by simp) (by decide)
    exact absurd hnd (List.not_mem_nil _)
  · refine ⟨World.mk
      (HashMap.mk (fun k => k) 0 []
        [none, none, none, none, none, none, none, none, none, none] 1)
      (HashMap.mk (fun k => k) 1 []
        [none, some 0, none, none, none, none, none, none, none, none] 1), by rfl, ?_, by decide⟩
    simp [sharedWorld]

/-- The copy of `collideMap` with the hash `3 * k` in one address space with its source, then
`insert({7, 70})` on the copy and `erase(11)` on the source: the copy's nodes get the
addresses 3, 4, 5 (and 6 for the new entry), the source still is `collideMap` after the copy
and after the insert, and the copy is the same object before and after the erase on the
source. -/
theorem copy_then_mutate_example :
    ∃ w0 w1 w2, World.ctorCopy (fun k => 3 * k) collideMap = some w0 ∧
      w0.a.Nodes = [(3, 1, 100), (4, 11, 110), (5, 21, 120)] ∧ w0.b = collideMap ∧
      w0.insertA (7, 70) = some w1 ∧
      w1.a.Nodes = [(3, 1, 100), (4, 11, 110), (5, 21, 120), (6, 7, 70)] ∧
      w1.b = collideMap ∧ w1.findA 7 = some (some 6) ∧ w1.findB 7 = some none ∧
      w1.swap.eraseA 11 = some w2 ∧ w2.a.Nodes = [(0, 1, 100), (2, 21, 120)] ∧
      w2.b = w1.a ∧ w2.findA 11 = some none ∧ w2.findB 11 = some (some 4) :=
  ⟨World.mk
      (HashMap.mk (fun k => 3 * k) 3 [(3, 1, 100), (4, 11, 110), (5, 21, 120)]
        [none, none, none, some 3, some 4, some 5, none, none, none, none] 6) collideMap,
    World.mk
      (HashMap.mk (fun k => 3 * k) 4 [(3, 1, 100), (4, 11, 110), (5, 21, 120), (6, 7, 70)]
        [none, some 6, none, some 3, some 4, some 5, none, none, none, none] 7) collideMap,
    World.mk
      (HashMap.mk (fun k => k) 2 [(0, 1, 100), (2, 21, 120)]
        [none, some 0, some 2, none, none, none, none, none, none, none] 3)
      (HashMap.mk (fun k => 3 * k) 4 [(3, 1, 100), (4, 11, 110), (5, 21, 120), (6, 7, 70)]
        [none, some 6, none, some 3, some 4, some 5, none, none, none, none] 7),
    by rfl, by rfl, by rfl, by rfl, by rfl, by rfl, by decide, by decide, by rfl, by rfl,
    by rfl, by decide, by decide⟩

/-- Claim C9: copy construction and copy assignment from a different, reachable object return
a map whose iteration sequence and `size()` equal the source's and on which `find` returns,
for every key, `end()` or an entry with the same key and value as on the source.  In the
address space that holds both objects (`World`: a table cell is an address, dereferenced among
the nodes of both lists) the copy returns with the source unchanged and with no node shared
between the two lists; after any sequence of `insert`, `erase`, `operator[]` and writes through
iterators on either object, every such call on either object returns, and a call on one object
leaves the other object, the nodes its iterators denote and all its lookup results as they
were. -/
theorem C9_copy [Inhabited V] (other : HashMap K V) (hr : Reachable other) (dflt : K → Nat)
    (this : HashMap K V) :
    (∃ m, HashMap.ctorCopy dflt other = some m ∧
      m.entries = other.entries ∧ m.size = other.size ∧
      (∀ k, ∃ r, other.findEntry k = some r ∧ m.findEntry k = some r) ∧
      (∀ (i a : Nat), m.Table[i]? = some (some a) → ∃ e, m.deref (some a) = some e)) ∧
    (∃ m, this.assign other = some m ∧
      m.entries = other.entries ∧ m.size = other.size ∧
      (∀ k, ∃ r, other.findEntry k = some r ∧ m.findEntry k = some r) ∧
      (∀ (i a : Nat), m.Table[i]? = some (some a) → ∃ e, m.deref (some a) = some e)) ∧
    (∃ wc wa, World.ctorCopy dflt other = some wc ∧
      World.assign { a := this, b := other } = some wa ∧
      ∀ w0, w0 = wc ∨ w0 = wa →
        w0.b = other ∧ w0.a.entries = other.entries ∧ w0.a.size = other.size ∧
        (∀ k, ∃ r, other.findEntry k = some r ∧ w0.a.findEntry k = some r) ∧
        (∀ x ∈ w0.a.Nodes, ∀ y ∈ w0.b.Nodes, x.1 ≠ y.1) ∧
        ∀ w, World.Later w0 w →
          w.Sep ∧
          (∀ k, w.findA k = w.a.find k ∧ w.findB k = w.b.find k) ∧
          (∀ w1, World.StepA w w1 → w1.b = w.b ∧ (∀ k, w1.findB k = w.findB k) ∧
            ∀ x nd, (x, nd) ∈ w.b.Nodes →
              nodeAt w1.heap x = some nd ∧ nodeAt w.heap x = some nd) ∧
          (∀ w1, World.StepB w w1 → w1.a = w.a ∧ (∀ k, w1.findA k = w.findA k) ∧
            ∀ x nd, (x, nd) ∈ w.a.Nodes →
              nodeAt w1.heap x = some nd ∧ nodeAt w.heap x = some nd) ∧
          (∀ nd, ∃ w1, w.insertA nd = some w1) ∧
          (∀ k, ∃ w1, w.eraseA k = some w1) ∧
          (∀ k, ∃ w1 x, w.indexA k = some (w1, x)) ∧
          (∀ nd, ∃ w1, w.swap.insertA nd = some w1) ∧
          (∀ k, ∃ w1, w.swap.eraseA k = some w1) ∧
          (∀ k, ∃ w1 x, w.swap.indexA k = some (w1, x))) := by
  have ho := reachable_wf hr
  refine ⟨?_, ?_, ?_⟩
  · obtain ⟨m, h1, hw, hent, _, _, hcnt⟩ := ctorCopy_spec dflt ho
    exact ⟨m, h1, copy_facts hw ho hent hcnt⟩
  · obtain ⟨m, h1, hw, hent, _, _, hcnt⟩ := assign_spec this ho
    exact ⟨m, h1, copy_facts hw ho hent hcnt⟩
  · obtain ⟨wc, hc, hcb, hcs, hce⟩ := World.copyBody_spec
      ({ a := { Hasher := dflt, NodeCount := 0, Nodes := [], Table := [], fresh := 0 },
         b := other } : World K V) ho
    obtain ⟨wa, ha, hab, has, hae⟩ := World.copyBody_spec
      ({ a := this, b := other } : World K V) ho
    refine ⟨wc, wa, hc, ha, ?_⟩
    intro w0 h0
    have key : w0.b = other ∧ w0.Sep ∧ w0.a.entries = other.entries := by
      rcases h0 with h | h
      · rw [h]; exact ⟨hcb, hcs, hce⟩
      · rw [h]; exact ⟨hab, has, hae⟩
    obtain ⟨hb, hs, he⟩ := key
    have hcnt : w0.a.NodeCount = other.NodeCount := by
      have h1 := entries_length hs.wfa
      have h2 := entries_length ho
      rw [he] at h1
      omega
    refine ⟨hb, he, hcnt, (copy_facts hs.wfa ho he hcnt).2.2.1, hs.disj, ?_⟩
    · intro w hl
      have hsw := World.later_sep hs hl
      exact ⟨hsw, World.sep_frame hsw⟩

theorem C9_copy_witness :
    Reachable collideMap ∧
    ((∃ m, HashMap.ctorCopy (fun k => 3 * k) collideMap = some m ∧
        m.entries = collideMap.entries ∧ m.size = collideMap.size ∧
        (∀ k, ∃ r, collideMap.findEntry k = some r ∧ m.findEntry k = some r) ∧
        (∀ (i a : Nat), m.Table[i]? = some (some a) → ∃ e, m.deref (some a) = some e)) ∧
      (∃ m, dupMap.assign collideMap = some m ∧
        m.entries = collideMap.entries ∧ m.size = collideMap.size ∧
        (∀ k, ∃ r, collideMap.findEntry k = some r ∧ m.findEntry k = some r) ∧
        (∀ (i a : Nat), m.Table[i]? = some (some a) → ∃ e, m.deref (some a) = some e)) ∧
      (∃ wc wa, World.ctorCopy (fun k => 3 * k) collideMap = some wc ∧
        World.assign { a := dupMap, b := collideMap } = some wa ∧
        ∀ w0, w0 = wc ∨ w0 = wa →
          w0.b = collideMap ∧ w0.a.entries = collideMap.entries ∧ w0.a.size = collideMap.size ∧
          (∀ k, ∃ r, collideMap.findEntry k = some r ∧ w0.a.findEntry k = some r) ∧
          (∀ x ∈ w0.a.Nodes, ∀ y ∈ w0.b.Nodes, x.1 ≠ y.1) ∧
          ∀ w, World.Later w0 w →
            w.Sep ∧
            (∀ k, w.findA k = w.a.find k ∧ w.findB k = w.b.find k) ∧
            (∀ w1, World.StepA w w1 → w1.b = w.b ∧ (∀ k, w1.findB k = w.findB k) ∧
              ∀ x nd, (x, nd) ∈ w.b.Nodes →
                nodeAt w1.heap x = some nd ∧ nodeAt w.heap x = some nd) ∧
            (∀ w1, World.StepB w w1 → w1.a = w.a ∧ (∀ k, w1.findA k = w.findA k) ∧
              ∀ x nd, (x, nd) ∈ w.a.Nodes →
                nodeAt w1.heap x = some nd ∧ nodeAt w.heap x = some nd) ∧
            (∀ nd, ∃ w1, w.insertA nd = some w1) ∧
            (∀ k, ∃ w1, w.eraseA k = some w1) ∧
            (∀ k, ∃ w1 x, w.indexA k = some (w1, x)) ∧
            (∀ nd, ∃ w1, w.swap.insertA nd = some w1) ∧
            (∀ k, ∃ w1, w.swap.eraseA k = some w1) ∧
            (∀ k, ∃ w1 x, w.swap.indexA k = some (w1, x)))) :=
  ⟨collideMap_reachable, C9_copy collideMap collideMap_reachable (fun k => 3 * k) dupMap⟩

/-- Claim C10: the range and initializer-list constructors return, for every input sequence of
`n` pairs, a map whose capacity is exactly `max((n + 1) * LoadFactor, InitSize)`, that is
`max(2 (n + 1), 10)`, the size of the table before the first insert, so that no insert of the
constructor resized; its iteration sequence is the input sequence and `size()` is `n`. -/
theorem C10_presized_ctor (l : List (K × V)) (Hasher_ : K → Nat) :
    (∃ m, HashMap.ctorRange l Hasher_ = some m ∧
      m.capacity = max ((l.length + 1) * LoadFactor) InitSize ∧
      m.capacity = max (2 * (l.length + 1)) 10 ∧ m.entries = l ∧ m.size = l.length) ∧
    (∃ m, HashMap.ctorInitList l Hasher_ = some m ∧
      m.capacity = max ((l.length + 1) * LoadFactor) InitSize ∧
      m.capacity = max (2 * (l.length + 1)) 10 ∧ m.entries = l ∧ m.size = l.length) := by
  have hmax : max ((l.length + 1) * LoadFactor) InitSize = max (2 * (l.length + 1)) 10 := by
    unfold LoadFactor InitSize
    rw [Nat.mul_comm]
  refine ⟨?_, ?_⟩
  · obtain ⟨m, h1, _, hent, hlen, _, hcnt⟩ := ctorRange_spec l Hasher_
    exact ⟨m, h1, hlen, by rw [← hmax]; exact hlen, hent, hcnt⟩
  · obtain ⟨m, h1, _, hent, hlen, _, hcnt⟩ := ctorInitList_spec l Hasher_
    exact ⟨m, h1, hlen, by rw [← hmax]; exact hlen, hent, hcnt⟩

theorem add_mod_cases (c h d : Nat) (hh : h < c) (hd : d < c) :
    (h + d < c ∧ (h + d) % c = h + d) ∨ (c ≤ h + d ∧ (h + d) % c = h + d - c) := by
  rcases Nat.lt_or_ge (h + d) c with h1 | h1
  · exact Or.inl ⟨h1, Nat.mod_eq_of_lt h1⟩
  · refine Or.inr ⟨h1, ?_⟩
    rw [Nat.mod_eq_sub_mod h1]
    exact Nat.mod_eq_of_lt (by omega)

/-- Claim C11: for every map state whatsoever, after `clear()` `size()` is 0, `empty()` is
true, the iteration sequence is empty, the table has exactly `InitSize = 10` cells, all of them
empty, and `find(k)` returns `end()` for every key. -/
theorem C11_clear (m : HashMap K V) :
    m.clear.size = 0 ∧ m.clear.empty = true ∧ m.clear.entries = [] ∧
    m.clear.capacity = InitSize ∧ m.clear.capacity = 10 ∧
    (∀ i, i < 10 → m.clear.Table[i]? = some none) ∧
    ∀ k, m.clear.find k = some none := by
  have hcell : ∀ i, i < 10 → m.clear.Table[i]? = some none := by
    intro i hi
    show (List.replicate InitSize none)[i]? = some none
    rw [List.getElem?_replicate, if_pos (by unfold InitSize; omega)]
  refine ⟨rfl, rfl, rfl, ?_, ?_, hcell, ?_⟩
  · show (List.replicate InitSize (none : NodeIter)).length = InitSize
    rw [List.length_replicate]
  · show (List.replicate InitSize (none : NodeIter)).length = 10
    rw [List.length_replicate]; rfl
  · intro k
    have hlen : m.clear.Table.length = 10 := by
      show (List.replicate InitSize (none : NodeIter)).length = 10
      rw [List.length_replicate]; rfl
    unfold HashMap.find
    rw [if_neg (by omega), hlen]
    show HashMap.findLoop m.clear.Nodes m.clear.Table k (9 + 1) (m.clear.Hasher k % 10) = _
    rw [HashMap.findLoop, hcell _ (Nat.mod_lt _ (by omega))]

/-- Claim C12: in a reachable map, `erase(k)` of a key for which `find(k)` returns `end()`
returns and yields the very same state: entry sequence, every table cell, count and capacity
are unchanged. -/
theorem C12_erase_missing [Inhabited V] (m : HashMap K V) (hr : Reachable m) (k : K)
    (habs : m.find k = some none) : m.erase k = some m :=
  erase_absent (reachable_wf hr) (absent_of_find (reachable_wf hr) habs)

theorem C12_erase_missing_witness :
    Reachable collideMap ∧ collideMap.find 31 = some none ∧
    collideMap.erase 31 = some collideMap :=
  ⟨collideMap_reachable, by decide,
    C12_erase_missing collideMap collideMap_reachable 31 (by decide)⟩

/-- Claim C13: the slot-table invariant holds in every state reachable through the public
operations (each of which is a constructor of `Reachable`): every non-empty cell points to a
node of the list; every node of the list is pointed to by exactly one cell; and for the cell
`i` of a node with key `k` and home index `h = Hasher(k) % capacity`, every cell
`h, h + 1, …, i` (wrapping at the capacity) is non-empty. -/
theorem C13_slot_invariant [Inhabited V] (m : HashMap K V) (hr : Reachable m) :
    (∀ (i a : Nat), m.Table[i]? = some (some a) → ∃ e, m.deref (some a) = some e) ∧
    (∀ n ∈ m.Nodes, ∃! i : Nat, m.Table[i]? = some (some n.1)) ∧
    (∀ (i a : Nat) (k : K) (v : V), m.Table[i]? = some (some a) →
      m.deref (some a) = some (k, v) →
      (m.Hasher k % m.capacity + cdist m.capacity (m.Hasher k % m.capacity) i) % m.capacity
        = i ∧
      ∀ d, d ≤ cdist m.capacity (m.Hasher k % m.capacity) i →
        ∃ b, m.Table[(m.Hasher k % m.capacity + d) % m.capacity]? = some (some b)) := by
  have hm := reachable_wf hr
  refine ⟨?_, ?_, ?_⟩
  · intro i a hi
    obtain ⟨nd, hnd⟩ := hm.slots.live i a (by simp) hi
    exact ⟨nd, nodeAt_of_mem hm.sorted hnd⟩
  · intro n hn
    obtain ⟨i, _, hi⟩ := hm.slots.cell n hn
    exact ⟨i, hi, fun j hj => hm.slots.inj j i n.1 (by simp) (by simp) hj hi⟩
  · intro i a k v hi hd
    have hmem : (a, k, v) ∈ m.Nodes := mem_of_nodeAt hd
    have hc := hm.cap_pos
    have hilt := lt_of_cell hi
    have hH : m.Hasher k % m.Table.length < m.Table.length := Nat.mod_lt _ hc
    show (m.Hasher k % m.Table.length + cdist m.Table.length (m.Hasher k % m.Table.length) i)
          % m.Table.length = i ∧
      ∀ d, d ≤ cdist m.Table.length (m.Hasher k % m.Table.length) i →
        ∃ b, m.Table[(m.Hasher k % m.Table.length + d) % m.Table.length]? = some (some b)
    have a0 := cdist_cases m.Table.length (m.Hasher k % m.Table.length) i
    refine ⟨?_, ?_⟩
    · have a1 := add_mod_cases m.Table.length (m.Hasher k % m.Table.length)
        (cdist m.Table.length (m.Hasher k % m.Table.length) i) hH (by omega)
      omega
    · intro d hdle
      have a1 := add_mod_cases m.Table.length (m.Hasher k % m.Table.length) d hH (by omega)
      have hjlt : (m.Hasher k % m.Table.length + d) % m.Table.length < m.Table.length :=
        Nat.mod_lt _ hc
      have a2 := cdist_cases m.Table.length (m.Hasher k % m.Table.length)
        ((m.Hasher k % m.Table.length + d) % m.Table.length)
      rcases Nat.lt_or_ge d (cdist m.Table.length (m.Hasher k % m.Table.length) i) with h | h
      · rcases cell_cases m.Table _ hjlt with h0 | hb
        · exact absurd h0 (hm.slots.chain i a k v (by simp) hi hmem _ hjlt (by simp)
            (by omega))
        · exact hb
      · have : (m.Hasher k % m.Table.length + d) % m.Table.length = i := by omega
        rw [this]
        exact ⟨a, hi⟩

theorem C13_slot_invariant_witness :
    Reachable collideMap ∧
    ((∀ (i a : Nat), collideMap.Table[i]? = some (some a) →
        ∃ e, collideMap.deref (some a) = some e) ∧
    (∀ n ∈ collideMap.Nodes, ∃! i : Nat, collideMap.Table[i]? = some (some n.1)) ∧
    (∀ (i a : Nat) (k : Nat) (v : Nat), collideMap.Table[i]? = some (some a) →
      collideMap.deref (some a) = some (k, v) →
      (collideMap.Hasher k % collideMap.capacity
          + cdist collideMap.capacity (collideMap.Hasher k % collideMap.capacity) i)
        % collideMap.capacity = i ∧
      ∀ d, d ≤ cdist collideMap.capacity (collideMap.Hasher k % collideMap.capacity) i →
        ∃ b, collideMap.Table[(collideMap.Hasher k % collideMap.capacity + d)
          % collideMap.capacity]? = some (some b))) :=
  ⟨collideMap_reachable, C13_slot_invariant collideMap collideMap_reachable⟩

/-! ### The state inside `insert` and `resize` -/

theorem insert_eq_pre (m : HashMap K V) (nd : K × V) :
    m.insert nd = m.insertPre.bind (fun m0 => m0.place nd) := by
  unfold HashMap.insert HashMap.insertPre HashMap.resize
  by_cases hc : (m.NodeCount + 1) * LoadFactor > m.Table.length
  · rw [insertAux_resize _ _ _ hc, if_pos hc]
  · rw [insertAux_noresize _ _ _ (by omega), if_neg hc]
    rfl

theorem resize_eq_start (m : HashMap K V) :
    m.resize = m.entries.foldlM (HashMap.insertAux 2) m.resizeStart := rfl

/-- The repair loop of `erase` branches on `relocateTest`. -/
theorem eraseLoop_step (Hasher : K → Nat) (Nodes : List (Nat × K × V)) (fuel : Nat)
    (T : List NodeIter) (Last Index0 a : Nat) (nd : K × V)
    (ha : T[(Index0 + 1) % T.length]? = some (some a)) (hn : nodeAt Nodes a = some nd) :
    HashMap.eraseLoop Hasher Nodes (fuel + 1) T Last Index0 =
      if relocateTest ((Index0 + 1) % T.length) Last (Hasher nd.1 % T.length) then
        HashMap.eraseLoop Hasher Nodes fuel (T.set Last (some a)) ((Index0 + 1) % T.length)
          ((Index0 + 1) % T.length)
      else HashMap.eraseLoop Hasher Nodes fuel T Last ((Index0 + 1) % T.length) := by
  rw [HashMap.eraseLoop]
  simp only [ha, hn]

/-- The inserts that `resize` performs on a well-formed map all find room: the test of
`insert` fails in the state each of them starts in. -/
theorem resize_nested_room {m : HashMap K V} (hm : WF m) (pre post : List (K × V)) (x : K × V)
    (hsplit : m.entries = pre ++ x :: post) :
    ∃ mi, pre.foldlM (HashMap.insertAux 2) m.resizeStart = some mi ∧
      mi.NodeCount = pre.length ∧ mi.capacity = m.capacity * LoadFactor ∧
      ¬ (mi.NodeCount + 1) * LoadFactor > mi.capacity := by
  have hc := hm.cap_pos
  have hl := hm.load
  have hlen := entries_length hm
  rw [hsplit, List.length_append, List.length_cons] at hlen
  have h0 : WF (m.resizeStart) :=
    wf_fresh_table m.Hasher _ m.fresh (by unfold LoadFactor; omega)
  have hlen0 : m.resizeStart.Table.length = m.Table.length * LoadFactor := by
    show (List.replicate _ (none : NodeIter)).length = _
    rw [List.length_replicate]
  have hcnt0 : m.resizeStart.NodeCount = 0 := rfl
  obtain ⟨mi, hf, _, _, hlen1, _, hcnt1⟩ := reinsert_spec 1 pre m.resizeStart h0 (by
    rw [hlen0, hcnt0]
    unfold LoadFactor at *
    omega)
  refine ⟨mi, hf, by rw [hcnt1, hcnt0]; omega, by
    show mi.Table.length = m.Table.length * LoadFactor
    rw [hlen1, hlen0], ?_⟩
  show ¬ (mi.NodeCount + 1) * LoadFactor > mi.Table.length
  rw [hlen1, hlen0, hcnt1, hcnt0]
  unfold LoadFactor at *
  omega

/-- Claim C14: the load invariant.  In every reachable state `NodeCount * LoadFactor` is at
most the capacity; inside `insert`, in the state in which the probe walk starts (after the
`if` that may resize), the capacity is at least `(NodeCount + 1) * LoadFactor` for the count
before the new node is added; and each insert performed by `resize` starts in a state in which
that bound holds already, so that its test fails. -/
theorem C14_load_invariant [Inhabited V] (m : HashMap K V) (hr : Reachable m) :
    m.size * LoadFactor ≤ m.capacity ∧
    (∀ nd : K × V, ∃ m0, m.insertPre = some m0 ∧ m.insert nd = m0.place nd ∧
      m0.size = m.size ∧ (m0.size + 1) * LoadFactor ≤ m0.capacity) ∧
    (∀ (pre post : List (K × V)) (x : K × V), m.entries = pre ++ x :: post →
      ∃ mi, pre.foldlM (HashMap.insertAux 2) m.resizeStart = some mi ∧
        (mi.size + 1) * LoadFactor ≤ mi.capacity) := by
  have hm := reachable_wf hr
  refine ⟨hm.load, ?_, ?_⟩
  · intro nd
    have hpre := insert_eq_pre m nd
    by_cases hc : (m.NodeCount + 1) * LoadFactor > m.Table.length
    · obtain ⟨m0, hres, _, _, hlen, _, hcnt⟩ := resize_spec hm
      have hp : m.insertPre = some m0 := by
        unfold HashMap.insertPre
        rw [if_pos hc, hres]
      refine ⟨m0, hp, by rw [hpre, hp]; rfl, hcnt, ?_⟩
      show (m0.NodeCount + 1) * LoadFactor ≤ m0.Table.length
      rw [hcnt, hlen]
      have h1 := hm.load
      have h2 := hm.cap_pos
      unfold LoadFactor at *
      omega
    · have hp : m.insertPre = some m := by
        unfold HashMap.insertPre
        rw [if_neg hc]
      exact ⟨m, hp, by rw [hpre, hp]; rfl, rfl, by
        show (m.NodeCount + 1) * LoadFactor ≤ m.Table.length
        omega⟩
  · intro pre post x hsplit
    obtain ⟨mi, hf, _, _, hroom⟩ := resize_nested_room hm pre post x hsplit
    exact ⟨mi, hf, by
      show (mi.NodeCount + 1) * LoadFactor ≤ mi.Table.length
      have : ¬ (mi.NodeCount + 1) * LoadFactor > mi.Table.length := hroom
      omega⟩

theorem C14_load_invariant_witness :
    Reachable collideMap ∧
    (collideMap.size * LoadFactor ≤ collideMap.capacity ∧
    (∀ nd : Nat × Nat, ∃ m0, collideMap.insertPre = some m0 ∧
      collideMap.insert nd = m0.place nd ∧
      m0.size = collideMap.size ∧ (m0.size + 1) * LoadFactor ≤ m0.capacity) ∧
    (∀ (pre post : List (Nat × Nat)) (x : Nat × Nat), collideMap.entries = pre ++ x :: post →
      ∃ mi, pre.foldlM (HashMap.insertAux 2) collideMap.resizeStart = some mi ∧
        (mi.size + 1) * LoadFactor ≤ mi.capacity)) :=
  ⟨collideMap_reachable, C14_load_invariant collideMap collideMap_reachable⟩

theorem int_sub_emod (c a h : Nat) (ha : a < c) (hh : h < c) :
    ((a : Int) - (h : Int)) % (c : Int) = (cdist c h a : Int) := by
  rcases cdist_cases c h a with ⟨h1, h2⟩ | ⟨h1, h2⟩
  · rw [Int.emod_eq_of_lt (by omega) (by omega)]
    omega
  · rw [← Int.add_emod_self, Int.emod_eq_of_lt (by omega) (by omega)]
    omega

/-- Claim C15: the relocation test of the repair loop is the cyclic-interval test.  For a
capacity `c > 0` and indices `Last`, `Index`, `home` below `c` with `Index ≠ Last`, the
condition of the code holds exactly when `(Last − home) mod c < (Index − home) mod c`, and
exactly when `Index > Last` and `home ∉ (Last, Index]`, or `Index < Last` and
`home ∈ (Index, Last]`. -/
theorem C15_relocate_test (c Last Index home : Nat) (hc : 0 < c) (hL : Last < c)
    (hI : Index < c) (hh : home < c) (hne : Index ≠ Last) :
    (relocateTest Index Last home ↔
      ((Last : Int) - (home : Int)) % (c : Int) < ((Index : Int) - (home : Int)) % (c : Int)) ∧
    (relocateTest Index Last home ↔
      (Index > Last ∧ ¬ (Last < home ∧ home ≤ Index)) ∨
      (Index < Last ∧ (Index < home ∧ home ≤ Last))) := by
  refine ⟨?_, ?_⟩
  · rw [int_sub_emod c Last home hL hh, int_sub_emod c Index home hI hh]
    have := relocate_iff c home Last Index hh hL hI
    unfold relocateTest
    rw [this]
    omega
  · unfold relocateTest
    omega

theorem C15_relocate_test_witness :
    (0 < 10 ∧ 9 < 10 ∧ 1 < 10 ∧ 8 < 10 ∧ 1 ≠ 9) ∧
    ((relocateTest 1 9 8 ↔
      (((9 : Nat) : Int) - ((8 : Nat) : Int)) % ((10 : Nat) : Int)
        < (((1 : Nat) : Int) - ((8 : Nat) : Int)) % ((10 : Nat) : Int)) ∧
    (relocateTest 1 9 8 ↔
      (1 > 9 ∧ ¬ (9 < 8 ∧ 8 ≤ 1)) ∨ (1 < 9 ∧ (1 < 8 ∧ 8 ≤ 9)))) :=
  ⟨by decide, C15_relocate_test 10 9 1 8 (by decide) (by decide) (by decide) (by decide)
    (by decide)⟩

theorem nodes_split_last {m1 : HashMap K V} {es : List (K × V)} {x : K × V}
    (hent : m1.entries = es ++ [x]) :
    ∃ ns b, m1.Nodes = ns ++ [(b, x)] ∧ ns.map (fun n => n.2) = es := by
  rcases List.eq_nil_or_concat m1.Nodes with h | ⟨ns, n, h⟩
  · unfold HashMap.entries at hent
    rw [h] at hent
    simp at hent
  · rw [List.concat_eq_append] at h
    unfold HashMap.entries at hent
    rw [h, List.map_append] at hent
    have hlen : ([n].map fun y : Nat × K × V => y.2).length = [x].length := rfl
    obtain ⟨e1, e2⟩ := List.append_inj' hent hlen
    simp only [List.map_cons, List.map_nil, List.cons.injEq, and_true] at e2
    refine ⟨ns, n.1, ?_, e1⟩
    rw [h, ← e2]

/-- Claim C16: duplicate-key insert.  In a reachable map in which `find(k)` returns the entry
`(k, v)`, `insert({k, v1})` returns; `size()` grows by one, the entry `(k, v1)` is appended to
the iteration sequence as a new last node, which is referenced by a table cell, and the number
of non-empty cells grows by one; `find(k)` and `operator[](k)` still return the node of the
entry `(k, v)`, which is not the new node (and is the very node found before when the insert
did not resize). -/
theorem C16_duplicate_insert [Inhabited V] (m : HashMap K V) (hr : Reachable m) (k : K)
    (v v1 : V) (hf : m.findEntry k = some (some (k, v))) :
    ∃ m1 a b, m.insert (k, v1) = some m1 ∧ m1.size = m.size + 1 ∧
      m1.entries = m.entries ++ [(k, v1)] ∧
      m1.Nodes.getLast? = some (b, k, v1) ∧
      (∃ i : Nat, m1.Table[i]? = some (some b)) ∧
      m1.Table.countP (fun c => c.isSome) = m.Table.countP (fun c => c.isSome) + 1 ∧
      m1.find k = some (some a) ∧ m1.deref (some a) = some (k, v) ∧ a ≠ b ∧
      m1.index k = some (m1, a) ∧
      (¬ (m.size + 1) * LoadFactor > m.capacity → m.find k = some (some a)) := by
  have hm := reachable_wf hr
  obtain ⟨m1, hins, hw, hent, _, hcnt, _, hnores⟩ := insert_spec hm (k, v1)
  obtain ⟨ns, b, hN, hns⟩ := nodes_split_last hent
  have e0 := findEntry_spec hm k
  rw [hf] at e0
  simp only [Option.some.injEq] at e0
  have e1 := findEntry_spec hw k
  rw [hent, List.find?_append, ← e0] at e1
  have e2 : m1.findEntry k = some (some (k, v)) := e1
  obtain ⟨a, hfa, hda⟩ := findEntry_eq_some.mp e2
  obtain ⟨hfi, _⟩ := node_of_find hw hfa
  have hmem : (a, k, v) ∈ m1.Nodes := mem_of_nodeAt hda
  have hsorted := hw.sorted
  rw [hN, List.pairwise_append] at hsorted
  -- the first node with key `k` lies in the front part `ns`
  have hfront : ∃ n ∈ ns, n.2.1 = k := by
    have hk : ((k, v) : K × V) ∈ m.entries := by
      have := List.mem_of_find?_eq_some e0.symm
      exact this
    rw [← hns] at hk
    obtain ⟨n, hn, he⟩ := List.mem_map.mp hk
    exact ⟨n, hn, by rw [he]⟩
  have hans : ∃ n ∈ ns, n.1 = a := by
    unfold firstIter at hfi
    rw [hN, List.find?_append] at hfi
    cases hfn : ns.find? (fun n => decide (n.2.1 = k)) with
    | none =>
      obtain ⟨n, hn, hk⟩ := hfront
      have := List.find?_eq_none.mp hfn n hn
      simp [hk] at this
    | some n =>
      rw [hfn] at hfi
      have hfi2 : some n.1 = some a := hfi
      exact ⟨n, List.mem_of_find?_eq_some hfn, Option.some.inj hfi2⟩
  have hab : a ≠ b := by
    obtain ⟨n, hn, hna⟩ := hans
    have := hsorted.2.2 n hn (b, k, v1) (by simp)
    simp only at this
    omega
  have hlast : m1.Nodes.getLast? = some (b, k, v1) := by
    rw [hN, List.getLast?_concat]
  obtain ⟨i, _, hi⟩ := hw.slots.cell (b, k, v1) (List.mem_of_mem_getLast? hlast)
  refine ⟨m1, a, b, hins, hcnt, hent, hlast, ⟨i, hi⟩, ?_, hfa, hda, hab,
    index_present hw hfi, ?_⟩
  · rw [hw.count_cells, hm.count_cells, hcnt]
  · intro hno
    have hN2 := hnores hno
    rw [find_spec hm k]
    congr 1
    unfold firstIter at hfi ⊢
    rw [hN2, List.find?_append] at hfi
    cases hfn : m.Nodes.find? (fun n => decide (n.2.1 = k)) with
    | none =>
      exfalso
      have hk : ((k, v) : K × V) ∈ m.entries := List.mem_of_find?_eq_some e0.symm
      obtain ⟨a0, ha0⟩ := mem_entries hk
      have := List.find?_eq_none.mp hfn _ ha0
      simp at this
    | some n =>
      rw [hfn] at hfi
      exact hfi

theorem C16_duplicate_insert_witness :
    Reachable collideMap ∧ collideMap.findEntry 11 = some (some (11, 110)) ∧
    ∃ m1 a b, collideMap.insert (11, 7) = some m1 ∧ m1.size = collideMap.size + 1 ∧
      m1.entries = collideMap.entries ++ [(11, 7)] ∧
      m1.Nodes.getLast? = some (b, 11, 7) ∧
      (∃ i : Nat, m1.Table[i]? = some (some b)) ∧
      m1.Table.countP (fun c => c.isSome) = collideMap.Table.countP (fun c => c.isSome) + 1 ∧
      m1.find 11 = some (some a) ∧ m1.deref (some a) = some (11, 110) ∧ a ≠ b ∧
      m1.index 11 = some (m1, a) ∧
      (¬ (collideMap.size + 1) * LoadFactor > collideMap.capacity →
        collideMap.find 11 = some (some a)) :=
  ⟨collideMap_reachable, by decide,
    C16_duplicate_insert collideMap collideMap_reachable 11 110 7 (by decide)⟩

/-- Claim C17: the resize trigger of `insert`.  In a reachable map with count `n` and capacity
`c`, `insert` returns and changes the capacity exactly when `(n + 1) * LoadFactor > c`; the
capacity is then exactly `c * LoadFactor`, one growth step, because each insert that `resize`
performs for the existing entries starts in a state in which the test fails; otherwise the
capacity stays `c`. -/
theorem C17_resize_trigger [Inhabited V] (m : HashMap K V) (hr : Reachable m) (nd : K × V) :
    (∃ m1, m.insert nd = some m1 ∧
      (m1.capacity ≠ m.capacity ↔ (m.size + 1) * LoadFactor > m.capacity) ∧
      ((m.size + 1) * LoadFactor > m.capacity → m1.capacity = m.capacity * LoadFactor) ∧
      (¬ (m.size + 1) * LoadFactor > m.capacity → m1.capacity = m.capacity)) ∧
    (∀ (pre post : List (K × V)) (x : K × V), m.entries = pre ++ x :: post →
      ∃ mi, pre.foldlM (HashMap.insertAux 2) m.resizeStart = some mi ∧
        mi.capacity = m.capacity * LoadFactor ∧
        ¬ (mi.size + 1) * LoadFactor > mi.capacity) := by
  have hm := reachable_wf hr
  refine ⟨?_, ?_⟩
  · obtain ⟨m1, hins, _, _, _, _, hlen, _⟩ := insert_spec hm nd
    have hc := hm.cap_pos
    refine ⟨m1, hins, ?_, ?_, ?_⟩
    · show m1.Table.length ≠ m.Table.length ↔ (m.NodeCount + 1) * LoadFactor > m.Table.length
      rw [hlen]
      split
      · rename_i h
        unfold LoadFactor at *
        constructor
        · intro _; exact h
        · intro _; omega
      · rename_i h
        constructor
        · intro h2; exact absurd rfl h2
        · intro h2; exact absurd h2 h
    · intro h
      have h1 : (m.NodeCount + 1) * LoadFactor > m.Table.length := h
      show m1.Table.length = m.Table.length * LoadFactor
      rw [hlen, if_pos h1]
    · intro h
      have h1 : ¬ (m.NodeCount + 1) * LoadFactor > m.Table.length := h
      show m1.Table.length = m.Table.length
      rw [hlen, if_neg h1]
  · intro pre post x hsplit
    obtain ⟨mi, hf, _, hcap, hroom⟩ := resize_nested_room hm pre post x hsplit
    exact ⟨mi, hf, hcap, hroom⟩

theorem C17_resize_trigger_witness :
    Reachable collideMap ∧
    ((∃ m1, collideMap.insert (31, 7) = some m1 ∧
      (m1.capacity ≠ collideMap.capacity ↔
        (collideMap.size + 1) * LoadFactor > collideMap.capacity) ∧
      ((collideMap.size + 1) * LoadFactor > collideMap.capacity →
        m1.capacity = collideMap.capacity * LoadFactor) ∧
      (¬ (collideMap.size + 1) * LoadFactor > collideMap.capacity →
        m1.capacity = collideMap.capacity)) ∧
    (∀ (pre post : List (Nat × Nat)) (x : Nat × Nat),
      collideMap.entries = pre ++ x :: post →
      ∃ mi, pre.foldlM (HashMap.insertAux 2) collideMap.resizeStart = some mi ∧
        mi.capacity = collideMap.capacity * LoadFactor ∧
        ¬ (mi.size + 1) * LoadFactor > mi.capacity)) :=
  ⟨collideMap_reachable, C17_resize_trigger collideMap collideMap_reachable (31, 7)⟩

/-- Under the loop invariant the check added in `eraseLoopChecked` never fires: the advanced
`Index` differs from `Last` in every iteration. -/
theorem eraseLoopChecked_eq (Hasher : K → Nat) (Nodes : List (Nat × K × V)) :
    ∀ (fuel : Nat) (T : List NodeIter) (Last Index0 : Nat), Repair Hasher Nodes T Last Index0 →
      (∃ e, e < T.length ∧ T[e]? = some none ∧ cdist T.length Index0 e ≤ fuel) →
      HashMap.eraseLoopChecked Hasher Nodes fuel T Last Index0
        = HashMap.eraseLoop Hasher Nodes fuel T Last Index0 := by
  intro fuel
  induction fuel with
  | zero => intro T Last Index0 _ _; rfl
  | succ f ih =>
    intro T Last Index0 R ⟨e, he, hen, hd⟩
    have hL := R.last_lt
    have hI0 := R.index_lt
    have hIlt : (Index0 + 1) % T.length < T.length := Nat.mod_lt _ (by omega)
    have heI0 : e ≠ Index0 := by
      intro h; rw [h] at hen; exact repair_index_some R hen
    have heL : e ≠ Last := by
      intro h
      obtain ⟨b, hb⟩ := R.last_some
      rw [h, hb] at hen; cases hen
    have a1 := cdist_cases T.length Index0 e
    have a2 := cdist_cases T.length ((Index0 + 1) % T.length) e
    have a3 := succ_mod_cases T.length Index0 hI0
    have hne : (Index0 + 1) % T.length ≠ Last := by
      intro h
      have a4 := cdist_cases T.length Last e
      have a5 := cdist_cases T.length Last Index0
      exact R.full e he (by omega) (by omega) hen
    rw [HashMap.eraseLoopChecked, HashMap.eraseLoop]
    simp only [if_neg hne]
    rcases cell_cases T _ hIlt with h0 | ⟨a, ha⟩
    · simp only [h0]
    · obtain ⟨nd, hnd⟩ := R.slots.live _ a (hole_ne hne) ha
      have hna := nodeAt_of_mem R.sorted hnd
      simp only [ha, hna]
      have hH : Hasher nd.1 % T.length < T.length := Nat.mod_lt _ (by omega)
      have hiff := relocate_iff T.length (Hasher nd.1 % T.length) Last
        ((Index0 + 1) % T.length) hH hL hIlt
      split
      · rename_i hcond
        have R2 := repair_move R rfl hne ha hnd (hiff.mp hcond)
        exact ih _ _ _ R2 ⟨e, by rw [List.length_set]; exact he,
          by rw [List.getElem?_set_ne (Ne.symm heL)]; exact hen,
          by rw [List.length_set]; omega⟩
      · rename_i hcond
        have R2 := repair_stay R rfl hne ha hnd (fun h => hcond (hiff.mpr h))
        exact ih _ _ _ R2 ⟨e, he, hen, by omega⟩

theorem wf_empty_cell {m : HashMap K V} (hm : WF m) :
    ∃ e, e < m.Table.length ∧ m.Table[e]? = some none := by
  apply exists_empty_cell
  have h1 := hm.count_cells
  have h2 := hm.load
  have h3 := hm.cap_pos
  unfold LoadFactor at h2
  omega

theorem eraseChecked_eq {m : HashMap K V} (hm : WF m) (Key : K) :
    m.eraseChecked Key = m.erase Key := by
  unfold HashMap.eraseChecked HashMap.erase
  by_cases hz : m.Table.length = 0
  · rw [if_pos hz, if_pos hz]
  · rw [if_neg hz, if_neg hz]
    cases hs : HashMap.eraseSearch m.Nodes m.Table Key m.Table.length
        (m.Hasher Key % m.Table.length) with
    | none => rfl
    | some r =>
      cases r with
      | none => rfl
      | some Index =>
        simp only
        cases hi : m.Table[Index]? with
        | none => rfl
        | some x =>
          cases x with
          | none => rfl
          | some a =>
            simp only
            obtain ⟨e, he, hen⟩ := wf_empty_cell hm
            have hilt := lt_of_cell hi
            rw [eraseLoopChecked_eq m.Hasher _ m.Table.length m.Table Index Index
              (repair_init hm hi) ⟨e, he, hen, by
                have a1 := cdist_cases m.Table.length Index e
                omega⟩]

/-- Claim C18: termination of probing.  In every reachable state the table has an empty cell,
and each probing loop returns within its budget of `Table.size()` cells, for every key and
hash function: `find`, `at`, `operator[]`, both loops of `erase`, and the loop of `insert` in
the state after its resize test.  The repair loop of `erase` never has `Index = Last`: with
that check added (`eraseChecked`) `erase` returns the same state. -/
theorem C18_probing_terminates [Inhabited V] (m : HashMap K V) (hr : Reachable m) :
    (∃ e, e < m.capacity ∧ m.Table[e]? = some none) ∧
    (∀ k, (∃ it, m.find k = some it) ∧ (∃ r, m.at_ k = some r) ∧
      (∃ r, m.index k = some r) ∧
      (∃ m1, m.erase k = some m1 ∧ m.eraseChecked k = some m1)) ∧
    (∀ nd : K × V, ∃ m0 i m1, m.insertPre = some m0 ∧
      HashMap.insertLoop m0.Table m0.capacity (m0.Hasher nd.1 % m0.capacity) = some i ∧
      m.insert nd = some m1) := by
  have hm := reachable_wf hr
  refine ⟨wf_empty_cell hm, ?_, ?_⟩
  · intro k
    have hf := find_spec hm k
    have hat := at_eq m k
    rw [hf] at hat
    cases hfi : firstIter m.Nodes k with
    | none =>
      rw [hfi] at hat
      obtain ⟨m1, a, _, hidx, _⟩ := index_absent hm hfi
      refine ⟨⟨_, hf⟩, ⟨_, hat⟩, ⟨_, hidx⟩, m, erase_absent hm hfi, ?_⟩
      rw [eraseChecked_eq hm k]
      exact erase_absent hm hfi
    | some a =>
      rw [hfi] at hat
      obtain ⟨v, hv⟩ := firstIter_some hfi
      simp only [nodeAt_of_mem hm.sorted hv, Option.map_some'] at hat
      obtain ⟨m1, her, _⟩ := erase_present hm hfi
      refine ⟨⟨_, hf⟩, ⟨_, hat⟩, ⟨_, index_present hm hfi⟩, m1, her, ?_⟩
      rw [eraseChecked_eq hm k]
      exact her
  · intro nd
    obtain ⟨m1, hins, _⟩ := insert_spec hm nd
    have key : ∀ m0 : HashMap K V, WF m0 → ∃ i,
        HashMap.insertLoop m0.Table m0.capacity (m0.Hasher nd.1 % m0.capacity) = some i := by
      intro m0 h0
      obtain ⟨i, hi, _⟩ := insertLoop_spec m0.Table (m0.Hasher nd.1 % m0.Table.length)
        (Nat.mod_lt _ h0.cap_pos) (wf_empty_cell h0)
      exact ⟨i, hi⟩
    by_cases hc : (m.NodeCount + 1) * LoadFactor > m.Table.length
    · obtain ⟨m0, hres, hw0, _⟩ := resize_spec hm
      obtain ⟨i, hi⟩ := key m0 hw0
      refine ⟨m0, i, m1, ?_, hi, hins⟩
      unfold HashMap.insertPre
      rw [if_pos hc, hres]
    · obtain ⟨i, hi⟩ := key m hm
      refine ⟨m, i, m1, ?_, hi, hins⟩
      unfold HashMap.insertPre
      rw [if_neg hc]

theorem C18_probing_terminates_witness :
    Reachable collideMap ∧
    ((∃ e, e < collideMap.capacity ∧ collideMap.Table[e]? = some none) ∧
    (∀ k, (∃ it, collideMap.find k = some it) ∧ (∃ r, collideMap.at_ k = some r) ∧
      (∃ r, collideMap.index k = some r) ∧
      (∃ m1, collideMap.erase k = some m1 ∧ collideMap.eraseChecked k = some m1)) ∧
    (∀ nd : Nat × Nat, ∃ m0 i m1, collideMap.insertPre = some m0 ∧
      HashMap.insertLoop m0.Table m0.capacity (m0.Hasher nd.1 % m0.capacity) = some i ∧
      collideMap.insert nd = some m1)) :=
  ⟨collideMap_reachable, C18_probing_terminates collideMap collideMap_reachable⟩

/-- Claim C19: the count invariant.  In every reachable state `size()` (the member
`NodeCount`) is the number of entries of the iteration sequence and the number of non-empty
table cells, and `empty()` is true exactly when the sequence is empty; the same holds in the
state `resize()` returns, which has the same `size()`. -/
theorem C19_count_invariant [Inhabited V] (m : HashMap K V) (hr : Reachable m) :
    m.size = m.entries.length ∧
    m.size = m.Table.countP (fun c => c.isSome) ∧
    (m.empty = true ↔ m.entries = []) ∧
    ∃ m1, m.resize = some m1 ∧ m1.size = m.size ∧ m1.size = m1.entries.length ∧
      m1.size = m1.Table.countP (fun c => c.isSome) := by
  have hm := reachable_wf hr
  have hlen := entries_length hm
  refine ⟨hlen.symm, hm.count_cells.symm, ?_, ?_⟩
  · unfold HashMap.empty HashMap.size
    rw [beq_iff_eq, ← hlen]
    exact List.length_eq_zero
  · obtain ⟨m1, hres, hw, _, _, _, hcnt⟩ := resize_spec hm
    exact ⟨m1, hres, hcnt, (entries_length hw).symm, hw.count_cells.symm⟩

theorem C19_count_invariant_witness :
    Reachable collideMap ∧
    (collideMap.size = collideMap.entries.length ∧
    collideMap.size = collideMap.Table.countP (fun c => c.isSome) ∧
    (collideMap.empty = true ↔ collideMap.entries = []) ∧
    ∃ m1, collideMap.resize = some m1 ∧ m1.size = collideMap.size ∧
      m1.size = m1.entries.length ∧ m1.size = m1.Table.countP (fun c => c.isSome)) :=
  ⟨collideMap_reachable, C19_count_invariant collideMap collideMap_reachable⟩

theorem placed_with {m : HashMap K V} (hm : WF m) (H : K → Nat) (hH : m.Hasher = H) :
    ∀ (i a : Nat) (k : K) (v : V), m.Table[i]? = some (some a) →
      m.deref (some a) = some (k, v) →
      ∀ j, j < m.capacity →
        cdist m.capacity (H k % m.capacity) j < cdist m.capacity (H k % m.capacity) i →
        m.Table[j]? ≠ some none := by
  intro i a k v hi hd j hj hlt
  rw [← hH] at hlt
  exact hm.slots.chain i a k v (by simp) hi (mem_of_nodeAt hd) j hj (by simp) hlt

/-- Claim C20: copying does not copy the hasher.  After `dst = src` (different objects, `src`
reachable) `hash_function()` of `dst` is what it was before the assignment, so it differs from
that of `src` whenever it did before; a copy-constructed map has the default-constructed hash
function `dflt`; in both, every node sits on the probe path that starts at the home index
computed with the destination's hash function. -/
theorem C20_hasher_not_copied [Inhabited V] (other : HashMap K V) (hr : Reachable other)
    (this : HashMap K V) (dflt : K → Nat) :
    (∃ m, this.assign other = some m ∧ m.hash_function = this.hash_function ∧
      (this.hash_function ≠ other.hash_function → m.hash_function ≠ other.hash_function) ∧
      ∀ (i a : Nat) (k : K) (v : V), m.Table[i]? = some (some a) →
        m.deref (some a) = some (k, v) →
        ∀ j, j < m.capacity →
          cdist m.capacity (this.hash_function k % m.capacity) j
            < cdist m.capacity (this.hash_function k % m.capacity) i →
          m.Table[j]? ≠ some none) ∧
    (∃ m, HashMap.ctorCopy dflt other = some m ∧ m.hash_function = dflt ∧
      (dflt ≠ other.hash_function → m.hash_function ≠ other.hash_function) ∧
      ∀ (i a : Nat) (k : K) (v : V), m.Table[i]? = some (some a) →
        m.deref (some a) = some (k, v) →
        ∀ j, j < m.capacity →
          cdist m.capacity (dflt k % m.capacity) j
            < cdist m.capacity (dflt k % m.capacity) i →
          m.Table[j]? ≠ some none) := by
  have ho := reachable_wf hr
  refine ⟨?_, ?_⟩
  · obtain ⟨m, h1, hw, _, _, hh, _⟩ := assign_spec this ho
    refine ⟨m, h1, hh, ?_, placed_with hw _ hh⟩
    intro hne
    show m.Hasher ≠ other.hash_function
    rw [hh]
    exact hne
  · obtain ⟨m, h1, hw, _, _, hh, _⟩ := ctorCopy_spec dflt ho
    refine ⟨m, h1, hh, ?_, placed_with hw _ hh⟩
    intro hne
    show m.Hasher ≠ other.hash_function
    rw [hh]
    exact hne

theorem C20_hasher_not_copied_witness :
    Reachable collideMap ∧
    (∃ m, (HashMap.ctor (fun k => 3 * k) : HashMap Nat Nat).assign collideMap = some m ∧
      m.hash_function 1 = 3 ∧ m.hash_function ≠ collideMap.hash_function) ∧
    (∃ m, HashMap.ctorCopy (fun k => 3 * k) collideMap = some m ∧
      m.hash_function 1 = 3 ∧ m.hash_function ≠ collideMap.hash_function) := by
  have hne : (fun k : Nat => 3 * k) ≠ collideMap.hash_function :=
    fun h => absurd (congrFun h 1) (by decide)
  obtain ⟨⟨m, h1, h2, h3, _⟩, ⟨n, g1, g2, g3, _⟩⟩ :=
    C20_hasher_not_copied collideMap collideMap_reachable
      (HashMap.ctor (fun k => 3 * k)) (fun k => 3 * k)
  exact ⟨collideMap_reachable, ⟨m, h1, by rw [h2]; rfl, h3 hne⟩,
    ⟨n, g1, by rw [g2], g3 hne⟩⟩

end Model

end LinearProbe
